import Mathlib

/-!
Verification of the ChatLab stream parser (`createStreamParser` in
`src/electron/main/ai/agent.ts`) and the agent session log
(`AgentSessionLog` in `src/electron/main/ai/context/sessionLog.ts`).

Strings are modelled as `List Char`; JavaScript's `toLowerCase` is modelled
character-wise (ASCII).  All definitions are direct transcriptions of the
TypeScript source; the only specification-side definition is the canonical
single-pass parse `charDen`, used to state the chunking-refinement claims.
-/

/-- Convert a Lean string literal to the `List Char` representation used
throughout this development. -/
def str (s : String) : List Char := s.data

/-- Character-wise lower-casing, modelling `String.prototype.toLowerCase`
on ASCII data. -/
def lowStr (s : List Char) : List Char := s.map Char.toLower

/-- `p.isPrefixOf s` on lists of characters, modelling
`String.prototype.startsWith`. -/
def isPre : List Char → List Char → Bool
  | [], _ => true
  | _ :: _, [] => false
  | p :: ps, c :: cs => p == c && isPre ps cs

/-- First index at which `pat` occurs in `s`, modelling
`String.prototype.indexOf` (for non-empty `pat`). -/
def idxOf (pat : List Char) : List Char → Option Nat
  | [] => if pat.isEmpty then some 0 else none
  | s@(_ :: rest) => if isPre pat s then some 0 else (idxOf pat rest).map (· + 1)

/-- `THINK_TAGS` from `agent.ts`. -/
def THINK_TAGS : List (List Char) :=
  [str "think", str "analysis", str "reasoning", str "reflection",
   str "thought", str "thinking"]

/-- `THINK_START_TAGS` from `agent.ts`. -/
def THINK_START_TAGS : List (List Char) :=
  THINK_TAGS.map (fun tag => '<' :: (tag ++ ['>']))

/-- `TOOL_CALL_START_TAG` from `agent.ts`. -/
def TOOL_CALL_START_TAG : List Char := str "<tool_call>"

/-- `TOOL_CALL_END_TAG` from `agent.ts`. -/
def TOOL_CALL_END_TAG : List Char := str "</tool_call>"

/-- `startTags` from `createStreamParser`. -/
def startTags : List (List Char) := THINK_START_TAGS ++ [TOOL_CALL_START_TAG]

/-- `startTagsLower` from `createStreamParser`. -/
def startTagsLower : List (List Char) := startTags.map lowStr

/-- `toolCallStartLower` from `createStreamParser`. -/
def toolCallStartLower : List Char := lowStr TOOL_CALL_START_TAG

/-- `toolCallEndLower` from `createStreamParser`. -/
def toolCallEndLower : List Char := lowStr TOOL_CALL_END_TAG

/-- `maxStartTagLength` from `createStreamParser`. -/
def maxStartTagLength : Nat := (startTags.map List.length).foldl max 0

/-- `StreamMode` from `agent.ts`. -/
inductive StreamMode
  | text
  | think
  | toolCall
deriving DecidableEq, Repr

/-- Parser events: calls to the `onText` / `onThink` / `onThinkStart` /
`onThinkEnd` handlers, in emission order. -/
inductive PEv
  | text (s : List Char)
  | think (s : List Char) (tag : List Char)
  | thinkStart (tag : List Char)
  | thinkEnd (tag : List Char)
deriving DecidableEq, Repr

/-- Mutable state of `createStreamParser`: `buffer`, `mode`,
`currentThinkTag`. -/
structure PState where
  mode : StreamMode
  thinkTag : List Char
  buffer : List Char
deriving DecidableEq, Repr

/-- Initial parser state. -/
def parserInit : PState := ⟨StreamMode.text, [], []⟩

/-- `emitText` from `createStreamParser`: calls `onText` only on non-empty
text. -/
def emitTextEv (s : List Char) : List PEv :=
  if s.isEmpty then [] else [PEv.text s]

/-- `emitThink` from `createStreamParser`: calls `onThink` only on
non-empty text, defaulting the tag to `think`. -/
def emitThinkEv (tg s : List Char) : List PEv :=
  if s.isEmpty then [] else [PEv.think s (if tg.isEmpty then str "think" else tg)]

/-- One step of the candidate-tag loop in `findNextTagIndex`: keep the
current hit unless this tag occurs strictly earlier. -/
def tagHitStep (lowerBuffer : List Char) (acc : Option (Nat × List Char))
    (tag : List Char) : Option (Nat × List Char) :=
  match idxOf tag lowerBuffer, acc with
  | none, a => a
  | some i, none => some (i, tag)
  | some i, some (hi, ht) => if i < hi then some (i, tag) else some (hi, ht)

/-- `findNextTagIndex` from `createStreamParser`: earliest occurrence of a
recognized start tag, first-registered tag winning ties. -/
def findNextTagIndex (lowerBuffer : List Char) : Option (Nat × List Char) :=
  startTagsLower.foldl (tagHitStep lowerBuffer) none

/-- Position of `x` in `l` (used for `startTagsLower.indexOf(hit.tag)`;
only ever applied to members of `l`). -/
def posInList : List (List Char) → List Char → Nat
  | [], _ => 0
  | t :: ts, x => if t == x then 0 else posInList ts x + 1

/-- The `processBuffer` loop of `createStreamParser`, with the `safety`
counter made explicit as remaining fuel.  Returns the emitted events, the
final state, and whether the loop exited through its own tests (empty
buffer or `break`) rather than by exhausting the safety counter. -/
def processAux : Nat → PState → List PEv × PState × Bool
  | 0, st => ([], st, st.buffer.isEmpty)
  | fuel + 1, st =>
    if st.buffer.isEmpty then ([], st, true)
    else
      match st.mode with
      | StreamMode.text =>
        let lowerBuffer := lowStr st.buffer
        match findNextTagIndex lowerBuffer with
        | none =>
          let keepLength := max 1 (maxStartTagLength - 1)
          if keepLength < st.buffer.length then
            (emitTextEv (st.buffer.take (st.buffer.length - keepLength)),
             { st with buffer := st.buffer.drop (st.buffer.length - keepLength) },
             true)
          else ([], st, true)
        | some (i, tg) =>
          let evs0 := emitTextEv (st.buffer.take i)
          let buf0 := st.buffer.drop i
          if isPre tg (lowStr buf0) then
            if tg == toolCallStartLower then
              let r := processAux fuel
                { st with mode := StreamMode.toolCall,
                          buffer := buf0.drop TOOL_CALL_START_TAG.length }
              (evs0 ++ r.1, r.2)
            else
              let newTag := (tg.drop 1).dropLast
              let enterLength := (startTags.getD (posInList startTagsLower tg) []).length
              let r := processAux fuel
                { st with mode := StreamMode.think, thinkTag := newTag,
                          buffer := buf0.drop enterLength }
              (evs0 ++ PEv.thinkStart newTag :: r.1, r.2)
          else
            let r := processAux fuel { st with buffer := buf0.drop 1 }
            (evs0 ++ emitTextEv (buf0.take 1) ++ r.1, r.2)
      | StreamMode.think =>
        let endTag : List Char := '<' :: '/' :: (st.thinkTag ++ ['>'])
        let lowerBuffer := lowStr st.buffer
        match idxOf endTag lowerBuffer with
        | none =>
          let keepLength := max 1 (endTag.length - 1)
          if keepLength < st.buffer.length then
            (emitThinkEv st.thinkTag (st.buffer.take (st.buffer.length - keepLength)),
             { st with buffer := st.buffer.drop (st.buffer.length - keepLength) },
             true)
          else ([], st, true)
        | some endIndex =>
          let evs0 := emitThinkEv st.thinkTag (st.buffer.take endIndex)
          let r := processAux fuel
            { st with mode := StreamMode.text, thinkTag := [],
                      buffer := st.buffer.drop (endIndex + endTag.length) }
          (evs0 ++ PEv.thinkEnd st.thinkTag :: r.1, r.2)
      | StreamMode.toolCall =>
        let lowerBuffer := lowStr st.buffer
        match idxOf toolCallEndLower lowerBuffer with
        | none =>
          let keepLength := max 1 (TOOL_CALL_END_TAG.length - 1)
          if keepLength < st.buffer.length then
            ([], { st with buffer := st.buffer.drop (st.buffer.length - keepLength) },
             true)
          else ([], st, true)
        | some endIndex =>
          processAux fuel
            { st with mode := StreamMode.text,
                      buffer := st.buffer.drop (endIndex + TOOL_CALL_END_TAG.length) }

/-- `push` from `createStreamParser` (the safety counter is 10000 in the
source).  The boolean records whether the processing loop halted through
its own tests. -/
def pushP (st : PState) (text : List Char) : List PEv × PState × Bool :=
  if text.isEmpty then ([], st, true)
  else processAux 10000 { st with buffer := st.buffer ++ text }

/-- `flush` from `createStreamParser`. -/
def flushP (st : PState) : List PEv × PState :=
  if st.buffer.isEmpty then ([], st)
  else
    let evs :=
      match st.mode with
      | StreamMode.text => emitTextEv st.buffer
      | StreamMode.think => emitThinkEv st.thinkTag st.buffer
      | StreamMode.toolCall => []
    (evs, { st with buffer := [] })

/-- Push every chunk in order, then flush: the full event trace of a
streaming run. -/
def runP (chunks : List (List Char)) : List PEv × PState :=
  let p := chunks.foldl (fun (acc : List PEv × PState) c =>
    let r := pushP acc.2 c
    (acc.1 ++ r.1, r.2.1)) ([], parserInit)
  let f := flushP p.2
  (p.1 ++ f.1, f.2)

/-- Whether every `push` of the run, starting from `st`, exits its
processing loop through its own tests (never by the safety counter). -/
def runNormal : PState → List (List Char) → Bool
  | _, [] => true
  | st, c :: cs =>
    let r := pushP st c
    r.2.2 && runNormal r.2.1 cs

/-- The fragments passed to `onText`, in order. -/
def contentFrags (evs : List PEv) : List (List Char) :=
  evs.filterMap (fun e => match e with | PEv.text s => some s | _ => none)

/-- Concatenation of all `onText` fragments. -/
def contentConcat (evs : List PEv) : List Char := (contentFrags evs).flatten

/-- The fragments passed to `onThink`, in order. -/
def thinkFrags (evs : List PEv) : List (List Char) :=
  evs.filterMap (fun e => match e with | PEv.think s _ => some s | _ => none)

/-- Concatenation of all `onThink` fragments. -/
def thinkConcat (evs : List PEv) : List Char := (thinkFrags evs).flatten

/-!  Session log (`src/electron/main/ai/context/sessionLog.ts`). -/

/-- `SessionNodeRole` from `sessionLog.ts`. -/
inductive SRole
  | user
  | assistant
  | tool
  | note
deriving DecidableEq, Repr

/-- JavaScript `\s` (ASCII portion), as used by `trim` and the
whitespace-collapsing regex. -/
def isWs (c : Char) : Bool :=
  c == ' ' || c == '\t' || c == '\n' || c == '\r' || c == '\x0b' || c == '\x0c'

/-- `String.prototype.trim`. -/
def trimStr (s : List Char) : List Char :=
  ((s.dropWhile isWs).reverse.dropWhile isWs).reverse

/-- Helper for `collapseWs`: the boolean records whether the previous
character was whitespace (so a run yields a single `_`). -/
def collapseWsGo : Bool → List Char → List Char
  | _, [] => []
  | prevWs, c :: rest =>
    if isWs c then
      if prevWs then collapseWsGo true rest
      else '_' :: collapseWsGo true rest
    else c :: collapseWsGo false rest

/-- `replace(/\s+/g, '_')`: every maximal whitespace run becomes one `_`. -/
def collapseWs (s : List Char) : List Char := collapseWsGo false s

/-- `normalizeTag` from `sessionLog.ts`: trim, collapse whitespace runs to
`_`, cap at 64 characters. -/
def normalizeTag (tag : List Char) : List Char :=
  ((trimStr tag) |> collapseWs).take 64

/-- `SessionLogNode` from `sessionLog.ts`. -/
structure SNode where
  id : List Char
  role : SRole
  content : List Char
  createdAt : Nat
  tags : List (List Char)
deriving DecidableEq, Repr

/-- `CheckoutRecord` from `sessionLog.ts`. -/
structure CheckoutRec where
  id : List Char
  fromNodeId : Option (List Char)
  toNodeId : List Char
  summary : List Char
  createdAt : Nat
deriving DecidableEq, Repr

/-- `ChatMessage` restricted to the fields produced by
`getPromptHistory`. -/
structure ChatMsg where
  role : SRole
  content : List Char
deriving DecidableEq, Repr

/-- State of an `AgentSessionLog` instance.  `randomUUID` is determinized
by the counter `nextUuid` and `Date.now()` by the counter `clock`; the
`tags` Map is an insertion-ordered association list. -/
structure SLog where
  nodes : List SNode
  tags : List (List Char × List Char)
  checkouts : List CheckoutRec
  pendingSystemNotes : List (List Char)
  activeAnchorNodeId : Option (List Char)
  maxNodes : Nat
  maxCheckouts : Nat
  nextUuid : Nat
  clock : Nat
deriving DecidableEq, Repr

/-- `MAX_PENDING_SYSTEM_NOTES` from `sessionLog.ts`. -/
def MAX_PENDING_SYSTEM_NOTES : Nat := 8

/-- A fresh `AgentSessionLog` (the constructor defaults are
`maxNodes = 320`, `maxCheckouts = 64`). -/
def slogInit (maxNodes maxCheckouts : Nat) : SLog :=
  ⟨[], [], [], [], none, maxNodes, maxCheckouts, 0, 0⟩

/-- The id `ctx_<uuid>` generated by `append`. -/
def ctxId (n : Nat) : List Char := str "ctx_" ++ (Nat.repr n).data

/-- The id `jump_<uuid>` generated by `checkout`. -/
def jumpId (n : Nat) : List Char := str "jump_" ++ (Nat.repr n).data

/-- `Map.get` on the association-list model of the tag index. -/
def tagsGet (m : List (List Char × List Char)) (k : List Char) : Option (List Char) :=
  (m.find? (fun p => p.1 == k)).map (·.2)

/-- `Map.set` on the association-list model (replace in place, else
append, preserving insertion order like a JS `Map`). -/
def tagsSet (m : List (List Char × List Char)) (k v : List Char) :
    List (List Char × List Char) :=
  if (m.find? (fun p => p.1 == k)).isSome then
    m.map (fun p => if p.1 == k then (k, v) else p)
  else m ++ [(k, v)]

/-- `getHeadNode` from `sessionLog.ts`: the last-appended node. -/
def getHeadNode (st : SLog) : Option SNode := st.nodes.getLast?

/-- Whether a node is conversational (`role === 'user' || role === 'assistant'`). -/
def isConv (n : SNode) : Bool := n.role == SRole.user || n.role == SRole.assistant

/-- `pruneOverflow` from `sessionLog.ts`. -/
def pruneOverflow (st : SLog) : SLog :=
  if st.nodes.length ≤ st.maxNodes then st
  else
    let removeCount := st.nodes.length - st.maxNodes
    let removed := st.nodes.take removeCount
    let kept := st.nodes.drop removeCount
    let removedIds := removed.map (·.id)
    let tags' := st.tags.filter (fun p => !(removedIds.contains p.2))
    let checkouts' := st.checkouts.filter (fun c =>
      !(removedIds.contains c.toNodeId) &&
      !(match c.fromNodeId with
        | some f => removedIds.contains f
        | none => false))
    let anchor' :=
      match st.activeAnchorNodeId with
      | some a =>
        if removedIds.contains a then (kept.find? isConv).map (·.id)
        else some a
      | none => none
    { st with nodes := kept, tags := tags', checkouts := checkouts',
              activeAnchorNodeId := anchor' }

/-- `append` from `sessionLog.ts`. -/
def appendNode (st : SLog) (role : SRole) (content : List Char) :
    Option SNode × SLog :=
  let normalized := trimStr content
  if normalized.isEmpty then (none, st)
  else
    let node : SNode :=
      ⟨ctxId st.nextUuid, role, normalized, st.clock, []⟩
    let st' := pruneOverflow
      { st with nodes := st.nodes ++ [node],
                nextUuid := st.nextUuid + 1, clock := st.clock + 1 }
    (some node, st')

/-- `getPromptHistory` from `sessionLog.ts`. -/
def getPromptHistory (st : SLog) (limit : Nat) : List ChatMsg :=
  let conversationNodes := st.nodes.filter isConv
  let scopedNodes :=
    match st.activeAnchorNodeId with
    | some anchor =>
      match conversationNodes.findIdx? (fun (n : SNode) => n.id == anchor) with
      | some anchorIndex => conversationNodes.drop anchorIndex
      | none => conversationNodes
    | none => conversationNodes
  let scopedNodes' :=
    if 0 < limit && limit < scopedNodes.length then scopedNodes.drop (scopedNodes.length - limit)
    else scopedNodes
  scopedNodes'.map (fun (n : SNode) =>
    ⟨if n.role == SRole.user then SRole.user else SRole.assistant, n.content⟩)

/-- `consumePendingSystemNotes` from `sessionLog.ts`: returns and clears
the queue. -/
def consumeNotes (st : SLog) : List (List Char) × SLog :=
  if st.pendingSystemNotes.isEmpty then ([], st)
  else (st.pendingSystemNotes, { st with pendingSystemNotes := [] })

/-- `resolveTargetNode` from `sessionLog.ts`. -/
def resolveTargetNode (st : SLog) (targetRef : Option (List Char)) : Option SNode :=
  match targetRef with
  | none => getHeadNode st
  | some raw =>
    if (trimStr raw).isEmpty then getHeadNode st
    else
      let ref := trimStr raw
      let viaTag :=
        match tagsGet st.tags ref with
        | some tagNodeId => st.nodes.find? (fun n => n.id == tagNodeId)
        | none => none
      match viaTag with
      | some n => some n
      | none => st.nodes.find? (fun n => n.id == ref || isPre ref n.id)

/-- Result record of `tag`. -/
structure TagResult where
  success : Bool
  message : List Char
  nodeId : Option (List Char)
deriving DecidableEq, Repr

/-- `tag` from `sessionLog.ts`. -/
def tagOp (st : SLog) (tag : List Char) (targetRef : Option (List Char))
    (note : Option (List Char)) : TagResult × SLog :=
  let normalizedTag := normalizeTag tag
  if normalizedTag.isEmpty then (⟨false, str "tag is required", none⟩, st)
  else
    match resolveTargetNode st targetRef with
    | none => (⟨false, str "target node not found", none⟩, st)
    | some target =>
      let st1 := { st with
        nodes := st.nodes.map (fun n =>
          if n.id == target.id then
            { n with tags := if n.tags.contains normalizedTag then n.tags
                             else n.tags ++ [normalizedTag] }
          else n),
        tags := tagsSet st.tags normalizedTag target.id }
      let st2 :=
        match note with
        | some nt =>
          if (trimStr nt).isEmpty then st1
          else (appendNode st1 SRole.note
            (str "Tag " ++ normalizedTag ++ str ": " ++ trimStr nt)).2
        | none => st1
      (⟨true, str "tag " ++ normalizedTag ++ str " -> " ++ target.id,
        some target.id⟩, st2)

/-- Result record of `checkout`. -/
structure CheckoutResult where
  success : Bool
  message : List Char
  fromNodeId : Option (List Char)
  toNodeId : Option (List Char)
deriving DecidableEq, Repr

/-- The pending system note text enqueued by `checkout`. -/
def checkoutNoteText (targetId compactSummary : List Char) : List Char :=
  str "Context checkout applied. Anchor node: " ++ targetId ++
  str ". Summary of previous branch: " ++ compactSummary

/-- `checkout` from `sessionLog.ts`. -/
def checkoutOp (st : SLog) (targetRef summary : List Char) :
    CheckoutResult × SLog :=
  match resolveTargetNode st (some targetRef) with
  | none => (⟨false, str "target node not found", none, none⟩, st)
  | some target =>
    let compactSummary := (trimStr summary).take 800
    if compactSummary.isEmpty then
      (⟨false, str "summary is required", none, none⟩, st)
    else
      let fromNode := getHeadNode st
      let record : CheckoutRec :=
        ⟨jumpId st.nextUuid, fromNode.map (·.id), target.id, compactSummary, st.clock⟩
      let checkouts1 := st.checkouts ++ [record]
      let checkouts2 :=
        if st.maxCheckouts < checkouts1.length then
          checkouts1.drop (checkouts1.length - st.maxCheckouts)
        else checkouts1
      let pending1 := st.pendingSystemNotes ++ [checkoutNoteText target.id compactSummary]
      let pending2 :=
        if MAX_PENDING_SYSTEM_NOTES < pending1.length then
          pending1.drop (pending1.length - MAX_PENDING_SYSTEM_NOTES)
        else pending1
      let st1 := { st with
        checkouts := checkouts2,
        activeAnchorNodeId := some target.id,
        pendingSystemNotes := pending2,
        nextUuid := st.nextUuid + 1, clock := st.clock + 1 }
      let st2 := (appendNode st1 SRole.note
        (str "Checkout to " ++ target.id ++ str ": " ++ compactSummary)).2
      (⟨true, str "checkout to " ++ target.id ++ str " will apply on next turn",
        fromNode.map (·.id), some target.id⟩, st2)

/-- Public state-changing operations of `AgentSessionLog`. -/
inductive SOp
  | append (role : SRole) (content : List Char)
  | tagOp (name : List Char) (target : Option (List Char)) (note : Option (List Char))
  | checkout (target summary : List Char)
  | consume
deriving Repr

/-- Apply one operation (discarding its result value). -/
def applySOp (st : SLog) : SOp → SLog
  | SOp.append role content => (appendNode st role content).2
  | SOp.tagOp name target note => (tagOp st name target note).2
  | SOp.checkout target summary => (checkoutOp st target summary).2
  | SOp.consume => (consumeNotes st).2

/-- Run a sequence of operations from a fresh log. -/
def runSLog (maxNodes maxCheckouts : Nat) (ops : List SOp) : SLog :=
  ops.foldl applySOp (slogInit maxNodes maxCheckouts)

/-!  Basic facts about `isPre` and `idxOf`. -/

/-- `pat` occurs somewhere in `s` (decidably), via `idxOf`. -/
def hasOcc (pat s : List Char) : Bool := (idxOf pat s).isSome

theorem maxStartTagLength_eq : maxStartTagLength = 12 := by decide

theorem isPre_length_le {p s : List Char} (h : isPre p s = true) :
    p.length ≤ s.length := by
  induction p generalizing s with
  | nil => simp
  | cons a p ih =>
    cases s with
    | nil => simp [isPre] at h
    | cons c cs =>
      simp only [isPre, Bool.and_eq_true, beq_iff_eq] at h
      simpa using ih h.2

theorem isPre_append {p s : List Char} (r : List Char) (h : isPre p s = true) :
    isPre p (s ++ r) = true := by
  induction p generalizing s with
  | nil => simp [isPre]
  | cons a p ih =>
    cases s with
    | nil => simp [isPre] at h
    | cons c cs =>
      simp only [isPre, Bool.and_eq_true, beq_iff_eq] at h ⊢
      exact ⟨h.1, ih h.2⟩

theorem isPre_of_append_le {p s r : List Char} (h : isPre p (s ++ r) = true)
    (hl : p.length ≤ s.length) : isPre p s = true := by
  induction p generalizing s with
  | nil => simp [isPre]
  | cons a p ih =>
    cases s with
    | nil => simp at hl
    | cons c cs =>
      simp only [List.cons_append, isPre, Bool.and_eq_true, beq_iff_eq] at h ⊢
      exact ⟨h.1, ih h.2 (by simpa using hl)⟩

theorem idxOf_some_isPre {pat s : List Char} {i : Nat}
    (h : idxOf pat s = some i) : isPre pat (s.drop i) = true := by
  induction s generalizing i with
  | nil =>
    simp only [idxOf] at h
    split at h
    · rename_i hp
      cases h
      rw [List.isEmpty_iff] at hp
      subst hp
      rfl
    · cases h
  | cons c cs ih =>
    simp only [idxOf] at h
    split at h
    · rename_i hp
      cases h
      exact hp
    · cases hrec : idxOf pat cs with
      | none => rw [hrec] at h; cases h
      | some j =>
        rw [hrec] at h
        simp only [Option.map_some'] at h
        cases h
        simpa using ih hrec

theorem idxOf_some_le {pat s : List Char} {i : Nat}
    (h : idxOf pat s = some i) : i ≤ s.length := by
  induction s generalizing i with
  | nil =>
    simp only [idxOf] at h
    split at h
    · cases h; simp
    · cases h
  | cons c cs ih =>
    simp only [idxOf] at h
    split at h
    · cases h; simp
    · cases hrec : idxOf pat cs with
      | none => rw [hrec] at h; cases h
      | some j =>
        rw [hrec] at h
        simp only [Option.map_some'] at h
        cases h
        simpa using Nat.succ_le_succ (ih hrec)

theorem idxOf_some_length {pat s : List Char} {i : Nat}
    (h : idxOf pat s = some i) : i + pat.length ≤ s.length := by
  have h1 := isPre_length_le (idxOf_some_isPre h)
  have h2 : (s.drop i).length = s.length - i := by simp
  rw [h2] at h1
  have h3 := idxOf_some_le h
  omega

theorem idxOf_some_min {pat s : List Char} {i : Nat}
    (h : idxOf pat s = some i) {j : Nat} (hj : j < i) :
    isPre pat (s.drop j) = false := by
  induction s generalizing i j with
  | nil =>
    simp only [idxOf] at h
    split at h
    · cases h; omega
    · cases h
  | cons c cs ih =>
    simp only [idxOf] at h
    split at h
    · cases h; omega
    · rename_i hp
      cases hrec : idxOf pat cs with
      | none => rw [hrec] at h; cases h
      | some k =>
        rw [hrec] at h
        simp only [Option.map_some'] at h
        cases h
        cases j with
        | zero => simpa using hp
        | succ j' => simpa using ih hrec (by omega)

theorem idxOf_none {pat s : List Char} (h : idxOf pat s = none) (j : Nat)
    (hpat : pat ≠ []) : isPre pat (s.drop j) = false := by
  induction s generalizing j with
  | nil =>
    cases pat with
    | nil => exact absurd rfl hpat
    | cons a p => simp [isPre]
  | cons c cs ih =>
    simp only [idxOf] at h
    split at h
    · cases h
    · cases hrec : idxOf pat cs with
      | some k => rw [hrec] at h; simp at h
      | none =>
        cases j with
        | zero =>
          rename_i hp
          simpa using by
            cases hps : isPre pat (c :: cs) with
            | false => rfl
            | true => exact absurd hps hp
        | succ j' => simpa using ih hrec j'

theorem idxOf_of_isPre {pat s : List Char} {j : Nat}
    (h : isPre pat (s.drop j) = true) (hpat : pat ≠ []) :
    ∃ i, idxOf pat s = some i ∧ i ≤ j := by
  cases hidx : idxOf pat s with
  | none => exact absurd h (by simp [idxOf_none hidx j hpat])
  | some i =>
    refine ⟨i, rfl, ?_⟩
    by_contra hc
    have := idxOf_some_min hidx (j := j) (by omega)
    rw [h] at this
    cases this

theorem idxOf_eq_some_of {pat s : List Char} {i : Nat} (hpat : pat ≠ [])
    (h1 : isPre pat (s.drop i) = true)
    (h2 : ∀ j, j < i → isPre pat (s.drop j) = false) :
    idxOf pat s = some i := by
  obtain ⟨k, hk, hki⟩ := idxOf_of_isPre h1 hpat
  have hkp := idxOf_some_isPre hk
  rcases Nat.lt_or_ge k i with hlt | hge
  · rw [h2 k hlt] at hkp; cases hkp
  · have : k = i := by omega
    rw [hk, this]

theorem idxOf_append_right {pat s : List Char} {i : Nat} (r : List Char)
    (hpat : pat ≠ []) (h : idxOf pat s = some i) :
    idxOf pat (s ++ r) = some i := by
  have hlen := idxOf_some_length h
  apply idxOf_eq_some_of hpat
  · rw [List.drop_append_of_le_length (by omega)]
    exact isPre_append r (idxOf_some_isPre h)
  · intro j hj
    rw [List.drop_append_of_le_length (by omega)]
    cases hq : isPre pat (s.drop j ++ r) with
    | false => rfl
    | true =>
      have hle : pat.length ≤ (s.drop j).length := by
        simp only [List.length_drop]
        omega
      have := isPre_of_append_le hq hle
      rw [idxOf_some_min h hj] at this
      cases this

/-!  Characterization of `findNextTagIndex`. -/

theorem tagHitStep_from {lb : List Char} {acc : Option (Nat × List Char)}
    {t0 : List Char} {i : Nat} {t : List Char}
    (h : tagHitStep lb acc t0 = some (i, t)) :
    acc = some (i, t) ∨ (t = t0 ∧ idxOf t0 lb = some i) := by
  cases hidx : idxOf t0 lb with
  | none =>
    simp only [tagHitStep, hidx] at h
    exact Or.inl h
  | some k =>
    cases acc with
    | none =>
      simp only [tagHitStep, hidx, Option.some.injEq, Prod.mk.injEq] at h
      exact Or.inr ⟨h.2.symm, congrArg some h.1⟩
    | some p =>
      obtain ⟨hi, ht⟩ := p
      simp only [tagHitStep, hidx] at h
      split at h
      · simp only [Option.some.injEq, Prod.mk.injEq] at h
        exact Or.inr ⟨h.2.symm, congrArg some h.1⟩
      · exact Or.inl h

theorem tagHitStep_le_acc {lb : List Char} {t0 : List Char} {i hi : Nat}
    {t ht : List Char}
    (h : tagHitStep lb (some (hi, ht)) t0 = some (i, t)) : i ≤ hi := by
  cases hidx : idxOf t0 lb with
  | none =>
    simp only [tagHitStep, hidx, Option.some.injEq, Prod.mk.injEq] at h
    omega
  | some k =>
    simp only [tagHitStep, hidx] at h
    split at h <;> simp only [Option.some.injEq, Prod.mk.injEq] at h <;> omega

theorem tagHitStep_le_idx {lb : List Char} {t0 : List Char} {i j : Nat}
    {t : List Char} {acc : Option (Nat × List Char)}
    (hidx : idxOf t0 lb = some j)
    (h : tagHitStep lb acc t0 = some (i, t)) : i ≤ j := by
  cases acc with
  | none =>
    simp only [tagHitStep, hidx, Option.some.injEq, Prod.mk.injEq] at h
    omega
  | some p =>
    obtain ⟨hi, ht⟩ := p
    simp only [tagHitStep, hidx] at h
    split at h <;> simp only [Option.some.injEq, Prod.mk.injEq] at h <;> omega

theorem tagHitStep_some_of_acc {lb : List Char} {t0 : List Char}
    {p : Nat × List Char} :
    tagHitStep lb (some p) t0 ≠ none := by
  obtain ⟨hi, ht⟩ := p
  cases hidx : idxOf t0 lb with
  | none => simp [tagHitStep, hidx]
  | some k =>
    simp only [tagHitStep, hidx]
    split <;> simp

theorem foldlHit_none {lb : List Char} {ts : List (List Char)}
    {acc : Option (Nat × List Char)}
    (h : ts.foldl (tagHitStep lb) acc = none) :
    acc = none ∧ ∀ t ∈ ts, idxOf t lb = none := by
  induction ts generalizing acc with
  | nil => exact ⟨h, by simp⟩
  | cons t0 ts ih =>
    simp only [List.foldl_cons] at h
    obtain ⟨hstep, hrest⟩ := ih h
    have hacc : acc = none := by
      cases acc with
      | none => rfl
      | some p => exact absurd hstep tagHitStep_some_of_acc
    subst hacc
    have hidx0 : idxOf t0 lb = none := by
      cases hidx : idxOf t0 lb with
      | none => rfl
      | some k =>
        simp only [tagHitStep, hidx] at hstep
        cases hstep
    refine ⟨rfl, ?_⟩
    intro t' ht'
    rcases List.mem_cons.mp ht' with rfl | hmem
    · exact hidx0
    · exact hrest t' hmem

theorem foldlHit_some {lb : List Char} {ts : List (List Char)}
    {acc : Option (Nat × List Char)} {i : Nat} {t : List Char}
    (h : ts.foldl (tagHitStep lb) acc = some (i, t)) :
    (acc = some (i, t) ∨ (t ∈ ts ∧ idxOf t lb = some i)) ∧
    (∀ t' ∈ ts, ∀ j, idxOf t' lb = some j → i ≤ j) ∧
    (∀ p : Nat × List Char, acc = some p → i ≤ p.1) := by
  induction ts generalizing acc with
  | nil =>
    refine ⟨Or.inl h, by simp, ?_⟩
    intro p hp
    rw [hp] at h
    cases h
    exact le_refl _
  | cons t0 ts ih =>
    simp only [List.foldl_cons] at h
    obtain ⟨hor, hmin, hacc⟩ := ih h
    refine ⟨?_, ?_, ?_⟩
    · rcases hor with hor | hor
      · rcases tagHitStep_from hor with h1 | h1
        · exact Or.inl h1
        · exact Or.inr ⟨by rw [h1.1]; exact List.mem_cons_self _ _, by rw [h1.1]; exact h1.2⟩
      · exact Or.inr ⟨List.mem_cons_of_mem _ hor.1, hor.2⟩
    · intro t' ht' j hj
      rcases List.mem_cons.mp ht' with rfl | hmem
      · cases hstep : tagHitStep lb acc t' with
        | none =>
          exfalso
          cases acc with
          | none =>
            simp only [tagHitStep, hj] at hstep
            exact Option.noConfusion hstep
          | some p => exact tagHitStep_some_of_acc hstep
        | some p =>
          have h1 := hacc p hstep
          obtain ⟨pi, pt⟩ := p
          have h2 := tagHitStep_le_idx hj hstep
          simp only at h1
          omega
      · exact hmin t' hmem j hj
    · intro p hp
      subst hp
      cases hstep : tagHitStep lb (some p) t0 with
      | none => exact absurd hstep tagHitStep_some_of_acc
      | some q =>
        have h1 := hacc q hstep
        obtain ⟨qi, qt⟩ := q
        obtain ⟨pi, pt⟩ := p
        have h2 := tagHitStep_le_acc hstep
        simp only at h1
        omega

theorem findNextTagIndex_none {lb : List Char}
    (h : findNextTagIndex lb = none) :
    ∀ t ∈ startTagsLower, idxOf t lb = none :=
  (foldlHit_none h).2

theorem findNextTagIndex_some {lb : List Char} {i : Nat} {t : List Char}
    (h : findNextTagIndex lb = some (i, t)) :
    t ∈ startTagsLower ∧ idxOf t lb = some i ∧
    ∀ t' ∈ startTagsLower, ∀ j, idxOf t' lb = some j → i ≤ j := by
  obtain ⟨hor, hmin, _⟩ := foldlHit_some h
  rcases hor with hor | hor
  · cases hor
  · exact ⟨hor.1, hor.2, hmin⟩

/-!  Branch lemmas for `processAux`. -/

theorem processAux_empty {fuel : Nat} {st : PState} (h : st.buffer = []) :
    processAux fuel st = ([], st, true) := by
  cases fuel with
  | zero => simp [processAux, h]
  | succ f => simp [processAux, h]

theorem keepLength_text : max 1 (maxStartTagLength - 1) = 11 := by
  rw [maxStartTagLength_eq]
  rfl

theorem processAux_text_none {fuel : Nat} {m : StreamMode} {tt buf : List Char}
    (hm : m = StreamMode.text) (hne : buf ≠ [])
    (hnone : findNextTagIndex (lowStr buf) = none) :
    processAux (fuel + 1) ⟨m, tt, buf⟩ =
      (emitTextEv (buf.take (buf.length - 11)),
       ⟨StreamMode.text, tt, buf.drop (buf.length - 11)⟩, true) := by
  subst hm
  have hbe : buf.isEmpty = false := by
    cases buf with
    | nil => exact absurd rfl hne
    | cons c cs => rfl
  simp only [processAux, hbe, Bool.false_eq_true, if_false, hnone, keepLength_text]
  split
  · rfl
  · rename_i hle
    have hz : buf.length - 11 = 0 := by omega
    simp [hz, emitTextEv]

theorem lowStr_drop (s : List Char) (i : Nat) :
    lowStr (s.drop i) = (lowStr s).drop i := by
  simp [lowStr, List.map_drop]

theorem lowStr_take (s : List Char) (i : Nat) :
    lowStr (s.take i) = (lowStr s).take i := by
  simp [lowStr, List.map_take]

theorem lowStr_append (s r : List Char) :
    lowStr (s ++ r) = lowStr s ++ lowStr r := by
  simp [lowStr]

theorem lowStr_length (s : List Char) : (lowStr s).length = s.length := by
  simp [lowStr]

theorem enterLength_eq : ∀ tg ∈ startTagsLower,
    (startTags.getD (posInList startTagsLower tg) []).length = tg.length := by
  decide

theorem startTagsLower_ne_nil : ∀ tg ∈ startTagsLower, tg ≠ [] := by decide

theorem startTagsLower_len : ∀ tg ∈ startTagsLower,
    7 ≤ tg.length ∧ tg.length ≤ 12 := by decide

theorem processAux_text_hit_tool {fuel : Nat} {m : StreamMode}
    {tt buf : List Char} {i : Nat}
    (hm : m = StreamMode.text) (hne : buf ≠ [])
    (hhit : findNextTagIndex (lowStr buf) = some (i, toolCallStartLower)) :
    processAux (fuel + 1) ⟨m, tt, buf⟩ =
      (emitTextEv (buf.take i) ++
        (processAux fuel ⟨StreamMode.toolCall, tt, (buf.drop i).drop 11⟩).1,
       (processAux fuel ⟨StreamMode.toolCall, tt, (buf.drop i).drop 11⟩).2) := by
  subst hm
  have hbe : buf.isEmpty = false := by
    cases buf with
    | nil => exact absurd rfl hne
    | cons c cs => rfl
  have hchar := findNextTagIndex_some hhit
  have hpre : isPre toolCallStartLower (lowStr (buf.drop i)) = true := by
    rw [lowStr_drop]
    exact idxOf_some_isPre hchar.2.1
  simp only [processAux, hbe, Bool.false_eq_true, if_false, hhit, hpre, if_true,
    beq_self_eq_true]
  rfl

theorem processAux_text_hit_think {fuel : Nat} {m : StreamMode}
    {tt buf tg : List Char} {i : Nat}
    (hm : m = StreamMode.text) (hne : buf ≠ [])
    (hhit : findNextTagIndex (lowStr buf) = some (i, tg))
    (htool : tg ≠ toolCallStartLower) :
    processAux (fuel + 1) ⟨m, tt, buf⟩ =
      (emitTextEv (buf.take i) ++ PEv.thinkStart ((tg.drop 1).dropLast) ::
        (processAux fuel ⟨StreamMode.think, (tg.drop 1).dropLast,
          (buf.drop i).drop tg.length⟩).1,
       (processAux fuel ⟨StreamMode.think, (tg.drop 1).dropLast,
          (buf.drop i).drop tg.length⟩).2) := by
  subst hm
  have hbe : buf.isEmpty = false := by
    cases buf with
    | nil => exact absurd rfl hne
    | cons c cs => rfl
  have hchar := findNextTagIndex_some hhit
  have hpre : isPre tg (lowStr (buf.drop i)) = true := by
    rw [lowStr_drop]
    exact idxOf_some_isPre hchar.2.1
  have hbeq : (tg == toolCallStartLower) = false := by
    cases hq : tg == toolCallStartLower with
    | false => rfl
    | true => exact absurd (by simpa using hq) htool
  have hlen := enterLength_eq tg hchar.1
  simp only [processAux, hbe, Bool.false_eq_true, if_false, hhit, hpre, if_true,
    hbeq, hlen]

theorem endTagLen (tt : List Char) :
    ('<' :: '/' :: (tt ++ ['>'])).length = tt.length + 3 := by
  simp

theorem processAux_think_none {fuel : Nat} {m : StreamMode} {tt buf : List Char}
    (hm : m = StreamMode.think) (hne : buf ≠ [])
    (hnone : idxOf ('<' :: '/' :: (tt ++ ['>'])) (lowStr buf) = none) :
    processAux (fuel + 1) ⟨m, tt, buf⟩ =
      (emitThinkEv tt (buf.take (buf.length - (tt.length + 2))),
       ⟨StreamMode.think, tt, buf.drop (buf.length - (tt.length + 2))⟩, true) := by
  subst hm
  have hbe : buf.isEmpty = false := by
    cases buf with
    | nil => exact absurd rfl hne
    | cons c cs => rfl
  simp only [processAux, hbe, Bool.false_eq_true, if_false, hnone, endTagLen]
  have hk : max 1 (tt.length + 3 - 1) = tt.length + 2 := by omega
  rw [hk]
  split
  · rfl
  · rename_i hle
    have hz : buf.length - (tt.length + 2) = 0 := by omega
    simp [hz, emitThinkEv]

theorem processAux_think_hit {fuel : Nat} {m : StreamMode} {tt buf : List Char}
    {e : Nat}
    (hm : m = StreamMode.think) (hne : buf ≠ [])
    (hhit : idxOf ('<' :: '/' :: (tt ++ ['>'])) (lowStr buf) = some e) :
    processAux (fuel + 1) ⟨m, tt, buf⟩ =
      (emitThinkEv tt (buf.take e) ++ PEv.thinkEnd tt ::
        (processAux fuel ⟨StreamMode.text, [], buf.drop (e + (tt.length + 3))⟩).1,
       (processAux fuel ⟨StreamMode.text, [], buf.drop (e + (tt.length + 3))⟩).2) := by
  subst hm
  have hbe : buf.isEmpty = false := by
    cases buf with
    | nil => exact absurd rfl hne
    | cons c cs => rfl
  simp only [processAux, hbe, Bool.false_eq_true, if_false, hhit, endTagLen]

theorem processAux_tool_none {fuel : Nat} {m : StreamMode} {tt buf : List Char}
    (hm : m = StreamMode.toolCall) (hne : buf ≠ [])
    (hnone : idxOf toolCallEndLower (lowStr buf) = none) :
    processAux (fuel + 1) ⟨m, tt, buf⟩ =
      ([], ⟨StreamMode.toolCall, tt, buf.drop (buf.length - 11)⟩, true) := by
  subst hm
  have hbe : buf.isEmpty = false := by
    cases buf with
    | nil => exact absurd rfl hne
    | cons c cs => rfl
  simp only [processAux, hbe, Bool.false_eq_true, if_false, hnone]
  have hk : max 1 (TOOL_CALL_END_TAG.length - 1) = 11 := rfl
  rw [hk]
  split
  · rfl
  · rename_i hle
    have hz : buf.length - 11 = 0 := by omega
    simp [hz]

theorem processAux_tool_hit {fuel : Nat} {m : StreamMode} {tt buf : List Char}
    {e : Nat}
    (hm : m = StreamMode.toolCall) (hne : buf ≠ [])
    (hhit : idxOf toolCallEndLower (lowStr buf) = some e) :
    processAux (fuel + 1) ⟨m, tt, buf⟩ =
      processAux fuel ⟨StreamMode.text, tt, buf.drop (e + 12)⟩ := by
  subst hm
  have hbe : buf.isEmpty = false := by
    cases buf with
    | nil => exact absurd rfl hne
    | cons c cs => rfl
  simp only [processAux, hbe, Bool.false_eq_true, if_false, hhit]
  rfl

/-!  Claim C6. -/

/-- C6 counterexample: the claim states that a no-marker push retains a
trailing window whose size equals the longest start-marker length (12) and
emits the rest.  Pushing thirteen `a`s emits two characters and retains
eleven, not one and twelve as the claim demands. -/
theorem c6_counterexample :
    (pushP parserInit (str "aaaaaaaaaaaaa")).1 = [PEv.text (str "aa")] ∧
    (pushP parserInit (str "aaaaaaaaaaaaa")).2.1.buffer.length = 11 ∧
    ¬ ((pushP parserInit (str "aaaaaaaaaaaaa")).1 =
         [PEv.text ((str "aaaaaaaaaaaaa").take
           ((str "aaaaaaaaaaaaa").length - maxStartTagLength))] ∧
       (pushP parserInit (str "aaaaaaaaaaaaa")).2.1.buffer.length =
         maxStartTagLength) := by
  decide

/-- C6 (amended): in text mode, when a push leaves the buffer containing no
recognized start marker, the parser emits all buffered characters except a
trailing window of size `max 1 (maxStartTagLength - 1) = 11` (one less than
the longest recognized start marker) and retains exactly that window (the
whole buffer when it is not longer than the window). -/
theorem c6_amended (st : PState) (chunk : List Char)
    (hm : st.mode = StreamMode.text)
    (hchunk : chunk ≠ [])
    (hnone : findNextTagIndex (lowStr (st.buffer ++ chunk)) = none) :
    pushP st chunk =
      (emitTextEv ((st.buffer ++ chunk).take ((st.buffer ++ chunk).length - 11)),
       ⟨StreamMode.text, st.thinkTag,
        (st.buffer ++ chunk).drop ((st.buffer ++ chunk).length - 11)⟩,
       true) ∧
    ((st.buffer ++ chunk).drop ((st.buffer ++ chunk).length - 11)).length =
      min (st.buffer ++ chunk).length 11 := by
  obtain ⟨m, tt, buf⟩ := st
  simp only at hm
  subst hm
  have hce : chunk.isEmpty = false := by
    cases chunk with
    | nil => exact absurd rfl hchunk
    | cons c cs => rfl
  have hne : buf ++ chunk ≠ [] := by
    intro hc
    rcases List.append_eq_nil.mp hc with ⟨h1, h2⟩
    exact hchunk h2
  constructor
  · show (if chunk.isEmpty then _ else processAux 10000 _) = _
    rw [if_neg (by simp [hce])]
    have h10 : (10000 : Nat) = 9999 + 1 := rfl
    rw [h10]
    exact processAux_text_none rfl hne hnone
  · simp only [List.length_drop]
    omega

/-- Witness for `c6_amended` at a concrete input. -/
theorem c6_amended_witness :
    pushP parserInit (str "hello world") =
      (emitTextEv ((parserInit.buffer ++ str "hello world").take
        ((parserInit.buffer ++ str "hello world").length - 11)),
       ⟨StreamMode.text, parserInit.thinkTag,
        (parserInit.buffer ++ str "hello world").drop
          ((parserInit.buffer ++ str "hello world").length - 11)⟩,
       true) ∧
    ((parserInit.buffer ++ str "hello world").drop
      ((parserInit.buffer ++ str "hello world").length - 11)).length =
      min (parserInit.buffer ++ str "hello world").length 11 :=
  c6_amended parserInit (str "hello world") rfl (by decide) (by decide)

/-!  Iteration counting for the `processBuffer` loop (claim C9). -/

/-- Number of loop iterations `processAux` executes: one per loop entry
with a non-empty buffer, following exactly the recursion of
`processAux`. -/
def processIters : Nat → PState → Nat
  | 0, _ => 0
  | fuel + 1, st =>
    if st.buffer.isEmpty then 0
    else
      match st.mode with
      | StreamMode.text =>
        match findNextTagIndex (lowStr st.buffer) with
        | none => 1
        | some (i, tg) =>
          let buf0 := st.buffer.drop i
          if isPre tg (lowStr buf0) then
            if tg == toolCallStartLower then
              1 + processIters fuel
                { st with mode := StreamMode.toolCall,
                          buffer := buf0.drop TOOL_CALL_START_TAG.length }
            else
              1 + processIters fuel
                { st with mode := StreamMode.think,
                          thinkTag := (tg.drop 1).dropLast,
                          buffer := buf0.drop
                            (startTags.getD (posInList startTagsLower tg) []).length }
          else 1 + processIters fuel { st with buffer := buf0.drop 1 }
      | StreamMode.think =>
        let endTag : List Char := '<' :: '/' :: (st.thinkTag ++ ['>'])
        match idxOf endTag (lowStr st.buffer) with
        | none => 1
        | some endIndex =>
          1 + processIters fuel
            { st with mode := StreamMode.text, thinkTag := [],
                      buffer := st.buffer.drop (endIndex + endTag.length) }
      | StreamMode.toolCall =>
        match idxOf toolCallEndLower (lowStr st.buffer) with
        | none => 1
        | some endIndex =>
          1 + processIters fuel
            { st with mode := StreamMode.text,
                      buffer := st.buffer.drop (endIndex + TOOL_CALL_END_TAG.length) }

/-- Loop iterations performed by a `push` call. -/
def pushIters (st : PState) (text : List Char) : Nat :=
  if text.isEmpty then 0
  else processIters 10000 { st with buffer := st.buffer ++ text }

theorem processIters_le_fuel (fuel : Nat) (st : PState) :
    processIters fuel st ≤ fuel := by
  induction fuel generalizing st with
  | zero => simp [processIters]
  | succ f ih =>
    simp only [processIters]
    repeat' split
    all_goals try omega
    all_goals rw [Nat.add_comm]
    all_goals exact Nat.succ_le_succ (ih _)

theorem processIters_le_length (fuel : Nat) (st : PState) :
    processIters fuel st ≤ st.buffer.length + 1 := by
  induction fuel generalizing st with
  | zero => simp [processIters]
  | succ f ih =>
    simp only [processIters]
    split
    · omega
    · rename_i hne
      have hpos : 0 < st.buffer.length := by
        cases hb : st.buffer with
        | nil => rw [hb] at hne; simp at hne
        | cons c cs => simp [hb]
      split
      · -- text mode
        split
        · omega
        · rename_i p i tg heq
          split
          · split
            · -- tool-call entry
              have h1 : processIters f ⟨StreamMode.toolCall, st.thinkTag,
                  (st.buffer.drop i).drop TOOL_CALL_START_TAG.length⟩ ≤
                  ((st.buffer.drop i).drop TOOL_CALL_START_TAG.length).length + 1 := ih _
              have hT : TOOL_CALL_START_TAG.length = 11 := rfl
              simp only [List.length_drop, hT] at h1 ⊢
              omega
            · -- think entry
              rename_i hpre htool
              have hmem := (findNextTagIndex_some heq).1
              have hL := enterLength_eq tg hmem
              rw [hL]
              have h7 := (startTagsLower_len tg hmem).1
              have h1 : processIters f ⟨StreamMode.think, (tg.drop 1).dropLast,
                  (st.buffer.drop i).drop tg.length⟩ ≤
                  ((st.buffer.drop i).drop tg.length).length + 1 := ih _
              simp only [List.length_drop] at h1 ⊢
              omega
          · -- unrecognized character
            have h1 : processIters f ⟨st.mode, st.thinkTag,
                (st.buffer.drop i).drop 1⟩ ≤
                ((st.buffer.drop i).drop 1).length + 1 := ih _
            simp only [List.length_drop] at h1 ⊢
            omega
      · -- think mode
        split
        · omega
        · rename_i o e heq
          have h1 : processIters f ⟨StreamMode.text, [],
              st.buffer.drop (e + ('<' :: '/' :: (st.thinkTag ++ ['>'])).length)⟩ ≤
              (st.buffer.drop (e + ('<' :: '/' :: (st.thinkTag ++ ['>'])).length)).length + 1 :=
            ih _
          have hE : ('<' :: '/' :: (st.thinkTag ++ ['>'])).length = st.thinkTag.length + 3 := by
            simp
          simp only [List.length_drop, hE] at h1 ⊢
          omega
      · -- tool-call mode
        split
        · omega
        · rename_i o e heq
          have h1 : processIters f ⟨StreamMode.text, st.thinkTag,
              st.buffer.drop (e + TOOL_CALL_END_TAG.length)⟩ ≤
              (st.buffer.drop (e + TOOL_CALL_END_TAG.length)).length + 1 := ih _
          have hT : TOOL_CALL_END_TAG.length = 12 := rfl
          simp only [List.length_drop, hT] at h1 ⊢
          omega

theorem processAux_normal_of_iters_lt (fuel : Nat) (st : PState)
    (h : processIters fuel st < fuel) : (processAux fuel st).2.2 = true := by
  induction fuel generalizing st with
  | zero => omega
  | succ f ih =>
    obtain ⟨m, tt, buf⟩ := st
    by_cases hbuf : buf = []
    · rw [processAux_empty (by simp [hbuf])]
    · have hne : buf ≠ [] := hbuf
      have hbe : buf.isEmpty = false := by
        cases buf with
        | nil => exact absurd rfl hbuf
        | cons c cs => rfl
      cases m with
      | text =>
        cases hhit : findNextTagIndex (lowStr buf) with
        | none => rw [processAux_text_none rfl hne hhit]
        | some p =>
          obtain ⟨i, tg⟩ := p
          have hchar := findNextTagIndex_some hhit
          have hpre : isPre tg (lowStr (buf.drop i)) = true := by
            rw [lowStr_drop]
            exact idxOf_some_isPre hchar.2.1
          cases htool : tg == toolCallStartLower with
          | true =>
            have htge : tg = toolCallStartLower := by simpa using htool
            subst htge
            rw [processAux_text_hit_tool rfl hne hhit]
            simp only [processIters, hbe, Bool.false_eq_true, if_false, hhit,
              hpre, if_true, htool,
              show TOOL_CALL_START_TAG.length = 11 from rfl] at h
            exact ih _ (by omega)
          | false =>
            rw [processAux_text_hit_think rfl hne hhit
              (by intro hc; rw [hc] at htool; simp at htool)]
            have hL := enterLength_eq tg hchar.1
            simp only [processIters, hbe, Bool.false_eq_true, if_false, hhit,
              hpre, if_true, htool, hL] at h
            exact ih _ (by omega)
      | think =>
        cases hhit : idxOf ('<' :: '/' :: (tt ++ ['>'])) (lowStr buf) with
        | none => rw [processAux_think_none rfl hne hhit]
        | some e =>
          rw [processAux_think_hit rfl hne hhit]
          simp only [processIters, hbe, Bool.false_eq_true, if_false, hhit] at h
          have he : ('<' :: '/' :: (tt ++ ['>'])).length = tt.length + 3 := by simp
          rw [he] at h
          exact ih _ (by omega)
      | toolCall =>
        cases hhit : idxOf toolCallEndLower (lowStr buf) with
        | none => rw [processAux_tool_none rfl hne hhit]
        | some e =>
          rw [processAux_tool_hit rfl hne hhit]
          simp only [processIters, hbe, Bool.false_eq_true, if_false, hhit] at h
          have hT : TOOL_CALL_END_TAG.length = 12 := rfl
          rw [hT] at h
          exact ih _ (by omega)

/-!  Claim C9. -/

/-- C9: every `push` call terminates: the buffer-processing loop performs
at most 10000 iterations (the safety counter cap) for every state and
every pushed text; moreover it performs at most `buffer length + 1`
iterations, and whenever the count is below the cap the loop exits through
its own tests rather than through the safety counter.  (`flush` performs
no loop iterations at all in the source.) -/
theorem c9_push_loop_bounded :
    (∀ (st : PState) (text : List Char), pushIters st text ≤ 10000) ∧
    (∀ (st : PState) (text : List Char),
      pushIters st text ≤ st.buffer.length + text.length + 1) ∧
    (∀ (st : PState) (text : List Char),
      pushIters st text < 10000 → (pushP st text).2.2 = true) := by
  refine ⟨?_, ?_, ?_⟩
  · intro st text
    unfold pushIters
    split
    · omega
    · exact processIters_le_fuel 10000 _
  · intro st text
    unfold pushIters
    split
    · omega
    · have := processIters_le_length 10000 { st with buffer := st.buffer ++ text }
      simpa using this
  · intro st text h
    unfold pushIters at h
    unfold pushP
    split
    · rfl
    · rename_i hte
      rw [if_neg hte] at h
      exact processAux_normal_of_iters_lt 10000 _ h

/-- Witness for `c9_push_loop_bounded`: the implication in the third
conjunct discharged at a concrete input. -/
theorem c9_push_loop_bounded_witness :
    pushIters parserInit (str "a<think>b</think>c") < 10000 ∧
    (pushP parserInit (str "a<think>b</think>c")).2.2 = true :=
  ⟨by decide,
   c9_push_loop_bounded.2.2 parserInit (str "a<think>b</think>c") (by decide)⟩

/-!  Helper lemmas for the session log. -/

theorem getLast?_mem {α : Type} {l : List α} {x : α}
    (h : l.getLast? = some x) : x ∈ l := by
  obtain ⟨hne, hx⟩ := List.mem_getLast?_eq_getLast (show x ∈ l.getLast? from h)
  rw [hx]
  exact List.getLast_mem hne

theorem resolve_mem {st : SLog} {r : Option (List Char)} {n : SNode}
    (h : resolveTargetNode st r = some n) : n ∈ st.nodes := by
  cases r with
  | none => exact getLast?_mem h
  | some raw =>
    unfold resolveTargetNode at h
    dsimp only at h
    split at h
    · exact getLast?_mem h
    · cases htag : tagsGet st.tags (trimStr raw) with
      | none =>
        rw [htag] at h
        dsimp only at h
        exact List.mem_of_find?_eq_some h
      | some nid =>
        rw [htag] at h
        dsimp only at h
        cases hfind : st.nodes.find? (fun m => m.id == nid) with
        | none =>
          rw [hfind] at h
          exact List.mem_of_find?_eq_some h
        | some m =>
          rw [hfind] at h
          cases h
          exact List.mem_of_find?_eq_some hfind

theorem isPre_refl (p : List Char) : isPre p p = true := by
  induction p with
  | nil => rfl
  | cons c cs ih => simp [isPre, ih]

theorem tagsSet_cons_ne (q : List Char × List Char)
    (m : List (List Char × List Char)) (k v : List Char)
    (hq : (q.1 == k) = false) : tagsSet (q :: m) k v = q :: tagsSet m k v := by
  unfold tagsSet
  simp only [List.find?_cons, hq]
  split
  · simp only [List.map_cons, hq, Bool.false_eq_true, if_false, List.cons.injEq]
  · simp

theorem tagsGet_cons_ne (q : List Char × List Char)
    (m : List (List Char × List Char)) (k : List Char)
    (hq : (q.1 == k) = false) : tagsGet (q :: m) k = tagsGet m k := by
  unfold tagsGet
  simp only [List.find?_cons, hq]

theorem tagsGet_tagsSet_self (m : List (List Char × List Char))
    (k v : List Char) : tagsGet (tagsSet m k v) k = some v := by
  induction m with
  | nil =>
    simp [tagsSet, tagsGet, List.find?]
  | cons q m ih =>
    cases hq : q.1 == k with
    | true =>
      unfold tagsSet
      simp only [List.find?_cons, hq, Option.isSome_some, if_true, List.map_cons]
      unfold tagsGet
      simp only [List.find?_cons, beq_self_eq_true, Option.map_some']
    | false =>
      rw [tagsSet_cons_ne q m k v hq, tagsGet_cons_ne q _ k hq]
      exact ih

/-- Concrete log used by the C10 witness: two nodes and a tag named
`ctx_1` attached to node `ctx_0`, so the ref string `ctx_1` is
simultaneously a live tag key and an id prefix of node `ctx_1`. -/
def c10WitnessLog : SLog :=
  runSLog 320 64
    [SOp.append SRole.user (str "a"), SOp.append SRole.user (str "b"),
     SOp.tagOp (str "ctx_1") (some (str "ctx_0")) none]

/-!  Claim C10. -/

/-- C10: target resolution gives live tag-index entries priority over
node-id (prefix) matching: whenever the trimmed `targetRef` is a key of
the tag index whose node is live — even if it is simultaneously a prefix
of some node's id — the operation resolves to the node the tag index maps
to; an absent, empty, or whitespace-only `targetRef` resolves to the head
(last-appended) node of any role. -/
theorem c10_resolve_priority :
    (∀ (st : SLog) (ref nid : List Char),
      tagsGet st.tags (trimStr ref) = some nid →
      (∃ n ∈ st.nodes, n.id = nid) →
      (∃ n ∈ st.nodes, isPre (trimStr ref) n.id = true) →
      trimStr ref ≠ [] →
      resolveTargetNode st (some ref) = st.nodes.find? (fun n => n.id == nid) ∧
      ∃ m, st.nodes.find? (fun n => n.id == nid) = some m ∧ m.id = nid) ∧
    (∀ (st : SLog) (ref : List Char), trimStr ref = [] →
      resolveTargetNode st (some ref) = getHeadNode st) ∧
    (∀ st : SLog, resolveTargetNode st none = getHeadNode st) := by
  refine ⟨?_, ?_, ?_⟩
  · intro st ref nid htag hlive _hpre hne
    have hsome : (st.nodes.find? (fun n => n.id == nid)).isSome = true := by
      rw [List.find?_isSome]
      obtain ⟨n, hn, hid⟩ := hlive
      exact ⟨n, hn, by simp [hid]⟩
    obtain ⟨m, hm⟩ := Option.isSome_iff_exists.mp hsome
    have hmid : m.id = nid := by
      have := List.find?_some hm
      simpa using this
    have hemp : (trimStr ref).isEmpty = false := by
      cases hv : trimStr ref with
      | nil => exact absurd hv hne
      | cons c cs => rfl
    refine ⟨?_, m, hm, hmid⟩
    unfold resolveTargetNode
    dsimp only
    rw [if_neg (by simp [hemp])]
    rw [htag, hm]
    dsimp only
    rw [hm]
  · intro st ref he
    unfold resolveTargetNode
    dsimp only
    rw [if_pos (by simp [he])]
  · intro st
    rfl

/-- Witness for `c10_resolve_priority`: the tag named `ctx_1` maps to node
`ctx_0` while the same ref string is an id prefix of node `ctx_1`;
resolution follows the tag index. -/
theorem c10_resolve_priority_witness :
    (resolveTargetNode c10WitnessLog (some (str "ctx_1")) =
      c10WitnessLog.nodes.find? (fun n => n.id == str "ctx_0") ∧
     ∃ m, c10WitnessLog.nodes.find? (fun n => n.id == str "ctx_0") = some m ∧
       m.id = str "ctx_0") ∧
    resolveTargetNode c10WitnessLog (some (str "  ")) = getHeadNode c10WitnessLog :=
  ⟨c10_resolve_priority.1 c10WitnessLog (str "ctx_1") (str "ctx_0")
      (by decide) (by decide) (by decide) (by decide),
   c10_resolve_priority.2.1 c10WitnessLog (str "  ") (by decide)⟩

/-!  Claim C5. -/

/-- C5 counterexample: after `tag("t", ctx_0)` then `tag("t", ctx_1)`, the
tag index maps `t` to `ctx_1`, but node `ctx_0` still carries `t` in its
tag set — re-tagging does not remove the name from the old node's tag
array, so a tag name can sit in two nodes' tag sets at once. -/
theorem c5_counterexample :
    tagsGet (runSLog 320 64
      [SOp.append SRole.user (str "a"), SOp.append SRole.user (str "b"),
       SOp.tagOp (str "t") (some (str "ctx_0")) none,
       SOp.tagOp (str "t") (some (str "ctx_1")) none]).tags (str "t") =
      some (str "ctx_1") ∧
    (∃ n ∈ (runSLog 320 64
      [SOp.append SRole.user (str "a"), SOp.append SRole.user (str "b"),
       SOp.tagOp (str "t") (some (str "ctx_0")) none,
       SOp.tagOp (str "t") (some (str "ctx_1")) none]).nodes,
      n.id = str "ctx_0" ∧ str "t" ∈ n.tags) := by
  decide

/-- C5 (amended): after `tag(name, A)` succeeds and then `tag(name, B)`
succeeds with `B.id ≠ A.id` (no notes), the tag index maps the normalized
name to `B` — each name maps to at most one node id in the index — while
node `A` still carries the name in its (stale) tag set. -/
theorem c5_amended (st : SLog) (st1 st2 : SLog) (name refA refB : List Char)
    (r1 r2 : TagResult) (A B : SNode)
    (hname : normalizeTag name ≠ [])
    (hA : resolveTargetNode st (some refA) = some A)
    (h1 : tagOp st name (some refA) none = (r1, st1))
    (hB : resolveTargetNode st1 (some refB) = some B)
    (h2 : tagOp st1 name (some refB) none = (r2, st2))
    (hAB : A.id ≠ B.id) :
    tagsGet st2.tags (normalizeTag name) = some B.id ∧
    (∃ n ∈ st2.nodes, n.id = A.id ∧ normalizeTag name ∈ n.tags) ∧
    r1.success = true ∧ r2.success = true := by
  have hnameF : (normalizeTag name).isEmpty = false := by
    cases hv : normalizeTag name with
    | nil => exact absurd hv hname
    | cons c cs => rfl
  simp only [tagOp, hnameF, Bool.false_eq_true, if_false, hA] at h1
  cases h1
  simp only [tagOp, hnameF, Bool.false_eq_true, if_false, hB] at h2
  cases h2
  refine ⟨tagsGet_tagsSet_self _ _ _, ?_, rfl, rfl⟩
  have hAmem : A ∈ st.nodes := resolve_mem hA
  refine ⟨(fun n => if n.id == B.id then
      { n with tags := if n.tags.contains (normalizeTag name) then n.tags
               else n.tags ++ [normalizeTag name] } else n)
    ((fun n => if n.id == A.id then
      { n with tags := if n.tags.contains (normalizeTag name) then n.tags
               else n.tags ++ [normalizeTag name] } else n) A), ?_, ?_, ?_⟩
  · exact List.mem_map_of_mem _ (List.mem_map_of_mem _ hAmem)
  · simp only [beq_self_eq_true, if_true]
    rw [if_neg (by simp [hAB])]
  · simp only [beq_self_eq_true, if_true]
    rw [if_neg (by simp [hAB])]
    split
    · rename_i hmem
      simpa using hmem
    · simp

/-- Witness for `c5_amended` on the concrete two-node log. -/
theorem c5_amended_witness :
    tagsGet (runSLog 320 64
      [SOp.append SRole.user (str "a"), SOp.append SRole.user (str "b"),
       SOp.tagOp (str "t") (some (str "ctx_0")) none,
       SOp.tagOp (str "t") (some (str "ctx_1")) none]).tags
      (normalizeTag (str "t")) = some (str "ctx_1") ∧
    (∃ n ∈ (runSLog 320 64
      [SOp.append SRole.user (str "a"), SOp.append SRole.user (str "b"),
       SOp.tagOp (str "t") (some (str "ctx_0")) none,
       SOp.tagOp (str "t") (some (str "ctx_1")) none]).nodes,
      n.id = str "ctx_0" ∧ normalizeTag (str "t") ∈ n.tags) := by
  have h := c5_amended
    (runSLog 320 64 [SOp.append SRole.user (str "a"), SOp.append SRole.user (str "b")])
    ((tagOp (runSLog 320 64 [SOp.append SRole.user (str "a"), SOp.append SRole.user (str "b")])
      (str "t") (some (str "ctx_0")) none).2)
    ((tagOp ((tagOp (runSLog 320 64 [SOp.append SRole.user (str "a"), SOp.append SRole.user (str "b")])
      (str "t") (some (str "ctx_0")) none).2) (str "t") (some (str "ctx_1")) none).2)
    (str "t") (str "ctx_0") (str "ctx_1")
    ((tagOp (runSLog 320 64 [SOp.append SRole.user (str "a"), SOp.append SRole.user (str "b")])
      (str "t") (some (str "ctx_0")) none).1)
    ((tagOp ((tagOp (runSLog 320 64 [SOp.append SRole.user (str "a"), SOp.append SRole.user (str "b")])
      (str "t") (some (str "ctx_0")) none).2) (str "t") (some (str "ctx_1")) none).1)
    ⟨str "ctx_0", SRole.user, str "a", 0, []⟩
    ⟨str "ctx_1", SRole.user, str "b", 1, []⟩
    (by decide) (by decide) (by decide) (by decide) (by decide) (by decide)
  exact ⟨h.1, h.2.1⟩

/-!  Claim C7. -/

/-- C7 counterexample: two checkouts with the same summary `s` queue two
notes both mentioning `s`, so the consume after the second checkout does
not return "exactly one note that mentions S"; and for the summary `"Z "`
(trailing space) the queued note mentions only the trimmed summary `Z`,
never the verbatim string `"Z "`. -/
theorem c7_counterexample :
    (((consumeNotes (runSLog 320 64
        [SOp.append SRole.user (str "a"),
         SOp.checkout (str "ctx_0") (str "s"),
         SOp.checkout (str "ctx_0") (str "s")])).1.filter
        (fun nt => hasOcc (str "s") nt)).length = 2 ∧
     ¬ ((consumeNotes (runSLog 320 64
        [SOp.append SRole.user (str "a"),
         SOp.checkout (str "ctx_0") (str "s"),
         SOp.checkout (str "ctx_0") (str "s")])).1.filter
        (fun nt => hasOcc (str "s") nt)).length = 1) ∧
    ((consumeNotes (runSLog 320 64
        [SOp.append SRole.user (str "a"),
         SOp.checkout (str "ctx_0") (str "Z ")])).1.length = 1 ∧
     ((consumeNotes (runSLog 320 64
        [SOp.append SRole.user (str "a"),
         SOp.checkout (str "ctx_0") (str "Z ")])).1.filter
        (fun nt => hasOcc (str "Z ") nt)).length = 0) := by
  decide

/-- The pending-notes queue is untouched by `append` (and its pruning). -/
theorem appendNode_pending (st : SLog) (role : SRole) (content : List Char) :
    (appendNode st role content).2.pendingSystemNotes = st.pendingSystemNotes := by
  simp only [appendNode]
  split
  · rfl
  · simp only [pruneOverflow]
    split <;> rfl

/-- `consumePendingSystemNotes` returns the queue and clears it, in one
step. -/
theorem consumeNotes_spec (st : SLog) :
    consumeNotes st = (st.pendingSystemNotes, { st with pendingSystemNotes := [] }) := by
  unfold consumeNotes
  split
  · rename_i h
    have hp : st.pendingSystemNotes = [] := by
      simpa [List.isEmpty_iff] using h
    rw [hp]
    obtain ⟨n, t, c, p, a, mn, mc, u, cl⟩ := st
    simp only at hp
    rw [hp]
  · rfl

/-- A non-empty pattern occurs in any list that ends with it. -/
theorem hasOcc_suffix (p a : List Char) (hp : p ≠ []) :
    hasOcc p (a ++ p) = true := by
  unfold hasOcc
  have hpre : isPre p ((a ++ p).drop a.length) = true := by
    rw [List.drop_left]
    exact isPre_refl p
  obtain ⟨i, hi, _⟩ := idxOf_of_isPre hpre hp
  simp [hi]

/-- C7 (amended): for every state whose pending queue is empty, a
successful `checkout(T, S)` leaves exactly one pending note, which
mentions the normalized summary (trimmed, capped at 800 characters); the
following `consumePendingSystemNotes` returns that queue and clears it in
one step, and an immediately following second call returns the empty
sequence. -/
theorem c7_amended (st st' : SLog) (ref summary : List Char)
    (r : CheckoutResult)
    (hpend : st.pendingSystemNotes = [])
    (hco : checkoutOp st ref summary = (r, st'))
    (hsucc : r.success = true) :
    (consumeNotes st').1.length = 1 ∧
    (∀ nt ∈ (consumeNotes st').1,
      hasOcc ((trimStr summary).take 800) nt = true) ∧
    consumeNotes st' = (st'.pendingSystemNotes, { st' with pendingSystemNotes := [] }) ∧
    (consumeNotes (consumeNotes st').2).1 = [] := by
  have hpl : st'.pendingSystemNotes =
      [checkoutNoteText ((resolveTargetNode st (some ref)).getD
        ⟨[], SRole.note, [], 0, []⟩).id ((trimStr summary).take 800)] := by
    cases hres : resolveTargetNode st (some ref) with
    | none =>
      simp only [checkoutOp, hres] at hco
      cases hco
      cases hsucc
    | some target =>
      simp only [checkoutOp, hres] at hco
      cases hcs : (trimStr summary).take 800 with
      | nil =>
        rw [hcs] at hco
        simp only [List.isEmpty_nil, if_true] at hco
        cases hco
        cases hsucc
      | cons c0 cs0 =>
        rw [hcs] at hco
        simp only [List.isEmpty_cons, Bool.false_eq_true, if_false] at hco
        have hst' := congrArg Prod.snd hco
        simp only at hst'
        rw [← hst', appendNode_pending]
        simp only [hpend, List.nil_append, List.length_cons, List.length_nil]
        rw [if_neg (by simp [MAX_PENDING_SYSTEM_NOTES])]
        simp [Option.getD]
  have hcompne : (trimStr summary).take 800 ≠ [] := by
    cases hres : resolveTargetNode st (some ref) with
    | none =>
      simp only [checkoutOp, hres] at hco
      cases hco
      cases hsucc
    | some target =>
      simp only [checkoutOp, hres] at hco
      cases hcs : (trimStr summary).take 800 with
      | nil =>
        rw [hcs] at hco
        simp only [List.isEmpty_nil, if_true] at hco
        cases hco
        cases hsucc
      | cons c0 cs0 => simp
  refine ⟨?_, ?_, consumeNotes_spec st', ?_⟩
  · rw [consumeNotes_spec st']
    simp [hpl]
  · intro nt hnt
    rw [consumeNotes_spec st'] at hnt
    simp only [hpl, List.mem_singleton] at hnt
    subst hnt
    unfold checkoutNoteText
    exact hasOcc_suffix _ _ hcompne
  · rw [consumeNotes_spec st', consumeNotes_spec]

/-- Witness for `c7_amended` on a one-node log. -/
theorem c7_amended_witness :
    (consumeNotes (checkoutOp (runSLog 320 64 [SOp.append SRole.user (str "a")])
      (str "ctx_0") (str "keep")).2).1.length = 1 ∧
    (∀ nt ∈ (consumeNotes (checkoutOp (runSLog 320 64 [SOp.append SRole.user (str "a")])
      (str "ctx_0") (str "keep")).2).1,
      hasOcc ((trimStr (str "keep")).take 800) nt = true) ∧
    consumeNotes (checkoutOp (runSLog 320 64 [SOp.append SRole.user (str "a")])
      (str "ctx_0") (str "keep")).2 =
      ((checkoutOp (runSLog 320 64 [SOp.append SRole.user (str "a")])
        (str "ctx_0") (str "keep")).2.pendingSystemNotes,
       { (checkoutOp (runSLog 320 64 [SOp.append SRole.user (str "a")])
          (str "ctx_0") (str "keep")).2 with pendingSystemNotes := [] }) ∧
    (consumeNotes (consumeNotes (checkoutOp (runSLog 320 64 [SOp.append SRole.user (str "a")])
      (str "ctx_0") (str "keep")).2).2).1 = [] :=
  c7_amended (runSLog 320 64 [SOp.append SRole.user (str "a")])
    (checkoutOp (runSLog 320 64 [SOp.append SRole.user (str "a")])
      (str "ctx_0") (str "keep")).2
    (str "ctx_0") (str "keep")
    (checkoutOp (runSLog 320 64 [SOp.append SRole.user (str "a")])
      (str "ctx_0") (str "keep")).1
    (by decide) rfl (by decide)

/-!  Claim C8: word-splitting specification of `normalizeTag`. -/

theorem dropWhile_length_le (p : Char → Bool) (l : List Char) :
    (l.dropWhile p).length ≤ l.length := by
  induction l with
  | nil => simp
  | cons c rest ih =>
    rw [List.dropWhile_cons]
    split
    · simp only [List.length_cons]
      omega
    · simp

/-- Specification-side word splitter: the maximal whitespace-free runs of
`s`, in order. -/
def splitWords (s : List Char) : List (List Char) :=
  match s with
  | [] => []
  | c :: rest =>
    if isWs c then splitWords rest
    else ((c :: rest).takeWhile (fun d => !isWs d)) ::
         splitWords ((c :: rest).dropWhile (fun d => !isWs d))
termination_by s.length
decreasing_by
  · simp
  · simp only [List.dropWhile_cons]
    rename_i hc
    rw [if_pos (by simp [hc])]
    have := dropWhile_length_le (fun d => !isWs d) rest
    simp only [List.length_cons]
    omega

/-- Specification-side joining of words with single underscores. -/
def joinUnderscore : List (List Char) → List Char
  | [] => []
  | [w] => w
  | w :: ws => w ++ '_' :: joinUnderscore ws

theorem joinUnderscore_cons_ne {w : List Char} {ws : List (List Char)}
    (h : ws ≠ []) : joinUnderscore (w :: ws) = w ++ '_' :: joinUnderscore ws := by
  cases ws with
  | nil => exact absurd rfl h
  | cons w2 ws2 => rfl

theorem splitWords_nil_of_ws {u : List Char} (hu : ∀ c ∈ u, isWs c = true) :
    splitWords u = [] := by
  induction u with
  | nil => rw [splitWords]
  | cons c rest ih =>
    rw [splitWords]
    rw [if_pos (hu c (List.mem_cons_self c rest))]
    exact ih (fun d hd => hu d (List.mem_cons_of_mem c hd))

theorem splitWords_ws_append {u : List Char} (t : List Char)
    (hu : ∀ c ∈ u, isWs c = true) :
    splitWords (u ++ t) = splitWords t := by
  induction u with
  | nil => rfl
  | cons c rest ih =>
    rw [List.cons_append, splitWords]
    rw [if_pos (hu c (List.mem_cons_self c rest))]
    exact ih (fun d hd => hu d (List.mem_cons_of_mem c hd))

theorem takeWhile_nonws_append {t : List Char} (u : List Char)
    (ht : ∀ c ∈ t, isWs c = false) :
    (t ++ u).takeWhile (fun d => !isWs d) = t ++ u.takeWhile (fun d => !isWs d) := by
  induction t with
  | nil => rfl
  | cons c rest ih =>
    rw [List.cons_append, List.takeWhile_cons]
    rw [if_pos (by simp [ht c (List.mem_cons_self c rest)])]
    rw [ih (fun d hd => ht d (List.mem_cons_of_mem c hd))]
    rfl

theorem dropWhile_nonws_append {t : List Char} (u : List Char)
    (ht : ∀ c ∈ t, isWs c = false) :
    (t ++ u).dropWhile (fun d => !isWs d) = u.dropWhile (fun d => !isWs d) := by
  induction t with
  | nil => rfl
  | cons c rest ih =>
    rw [List.cons_append, List.dropWhile_cons]
    rw [if_pos (by simp [ht c (List.mem_cons_self c rest)])]
    exact ih (fun d hd => ht d (List.mem_cons_of_mem c hd))

theorem dropWhile_head_false {p : Char → Bool} :
    ∀ {s : List Char} {c : Char} {r : List Char},
    s.dropWhile p = c :: r → p c = false := by
  intro s
  induction s with
  | nil => intro c r h; cases h
  | cons a rest ih =>
    intro c r h
    rw [List.dropWhile_cons] at h
    split at h
    · exact ih h
    · cases h
      rename_i hp
      simpa using hp

theorem splitWords_cons_nonws {c : Char} (rest : List Char)
    (hc : isWs c = false) :
    splitWords (c :: rest) =
      ((c :: rest).takeWhile (fun d => !isWs d)) ::
      splitWords ((c :: rest).dropWhile (fun d => !isWs d)) := by
  rw [splitWords]
  rw [if_neg (by simp [hc])]

theorem collapseWsGo_nonws_append (t : List Char) {w : List Char}
    (hw : ∀ c ∈ w, isWs c = false) :
    collapseWsGo false (w ++ t) = w ++ collapseWsGo false t := by
  induction w with
  | nil => rfl
  | cons c rest ih =>
    rw [List.cons_append, collapseWsGo]
    rw [if_neg (by simp [hw c (List.mem_cons_self c rest)])]
    rw [ih (fun d hd => hw d (List.mem_cons_of_mem c hd))]
    rfl

theorem collapseWsGo_true_ws_append (t : List Char) {u : List Char}
    (hu : ∀ c ∈ u, isWs c = true) :
    collapseWsGo true (u ++ t) = collapseWsGo true t := by
  induction u with
  | nil => rfl
  | cons c rest ih =>
    rw [List.cons_append, collapseWsGo]
    rw [if_pos (hu c (List.mem_cons_self c rest))]
    exact ih (fun d hd => hu d (List.mem_cons_of_mem c hd))

theorem collapseWsGo_false_ws {d : Char} (x : List Char) (hd : isWs d = true) :
    collapseWsGo false (d :: x) = '_' :: collapseWsGo true x := by
  rw [collapseWsGo, if_pos hd]
  rfl

theorem collapseWsGo_true_eq_false {t : List Char}
    (ht : ∀ c, t.head? = some c → isWs c = false) :
    collapseWsGo true t = collapseWsGo false t := by
  cases t with
  | nil => rfl
  | cons e t' =>
    have he := ht e rfl
    rw [collapseWsGo, collapseWsGo, if_neg (by simp [he]), if_neg (by simp [he])]

theorem takeWhile_nonws_of_ws {u : List Char} (hu : ∀ c ∈ u, isWs c = true) :
    u.takeWhile (fun d => !isWs d) = [] := by
  cases u with
  | nil => rfl
  | cons d u₂ =>
    rw [List.takeWhile_cons]
    rw [if_neg (by simp [hu d (List.mem_cons_self d u₂)])]

theorem dropWhile_nonws_of_ws {u : List Char} (hu : ∀ c ∈ u, isWs c = true) :
    u.dropWhile (fun d => !isWs d) = u := by
  cases u with
  | nil => rfl
  | cons d u₂ =>
    rw [List.dropWhile_cons]
    rw [if_neg (by simp [hu d (List.mem_cons_self d u₂)])]

theorem collapse_eq_join : ∀ (n : Nat) (s : List Char), s.length ≤ n →
    (∀ c, s.head? = some c → isWs c = false) →
    (∀ c, s.getLast? = some c → isWs c = false) →
    collapseWs s = joinUnderscore (splitWords s) := by
  intro n
  induction n with
  | zero =>
    intro s hlen _ _
    have : s = [] := by
      cases s with
      | nil => rfl
      | cons c r => simp at hlen
    subst this
    rw [splitWords]
    rfl
  | succ n ih =>
    intro s hlen hhead hlast
    cases hs : s with
    | nil =>
      rw [splitWords]
      rfl
    | cons c rest =>
      subst hs
      have hc : isWs c = false := hhead c rfl
      set w := (c :: rest).takeWhile (fun d => !isWs d) with hwdef
      set r := (c :: rest).dropWhile (fun d => !isWs d) with hrdef
      have hsw : w ++ r = c :: rest := List.takeWhile_append_dropWhile _ _
      have hwall : ∀ x ∈ w, isWs x = false := by
        intro x hx
        have := List.mem_takeWhile_imp hx
        simpa using this
      have hwne : w ≠ [] := by
        rw [hwdef, List.takeWhile_cons, if_pos (by simp [hc])]
        simp
      have hsplit : splitWords (c :: rest) = w :: splitWords r :=
        splitWords_cons_nonws rest hc
      have hcw : collapseWs (c :: rest) = w ++ collapseWsGo false r := by
        unfold collapseWs
        rw [← hsw, collapseWsGo_nonws_append r hwall]
      cases hr : r with
      | nil =>
        rw [hcw, hr, hsplit, hr,
          splitWords_nil_of_ws (fun x hx => absurd hx (List.not_mem_nil x))]
        simp [collapseWsGo, joinUnderscore]
      | cons d r₂ =>
        have hd : isWs d = true := by
          have := dropWhile_head_false (p := fun x => !isWs x) (hrdef.symm.trans hr)
          simpa using this
        -- split r₂ into its whitespace run and the remainder
        set u₂ := r₂.takeWhile isWs with hu₂def
        set r' := r₂.dropWhile isWs with hr'def
        have hr₂ : u₂ ++ r' = r₂ := List.takeWhile_append_dropWhile _ _
        have hu₂all : ∀ x ∈ u₂, isWs x = true := by
          intro x hx
          exact List.mem_takeWhile_imp hx
        have hgo : collapseWsGo false r = '_' :: collapseWsGo true r' := by
          rw [hr, collapseWsGo_false_ws r₂ hd, ← hr₂,
            collapseWsGo_true_ws_append r' hu₂all]
        cases hr'c : r' with
        | nil =>
          -- the original string would end in whitespace, contradiction
          exfalso
          have htail : (c :: rest).getLast? = ((d :: u₂) : List Char).getLast? := by
            rw [← hsw, hr, ← hr₂, hr'c, List.append_nil]
            exact List.getLast?_append_cons w d u₂
          obtain ⟨lc, hlc⟩ : ∃ lc, ((d :: u₂) : List Char).getLast? = some lc := by
            cases hu₂c : u₂ with
            | nil => exact ⟨d, rfl⟩
            | cons y ys =>
              have hne : (d :: y :: ys : List Char) ≠ [] := by simp
              exact ⟨_, List.getLast?_eq_getLast_of_ne_nil hne⟩
          have hmem : lc ∈ (d :: u₂ : List Char) := getLast?_mem hlc
          have hlcws : isWs lc = true := by
            rcases List.mem_cons.mp hmem with rfl | hm
            · exact hd
            · exact hu₂all lc hm
          have := hlast lc (by rw [htail]; exact hlc)
          rw [this] at hlcws
          cases hlcws
        | cons e t' =>
          have he : isWs e = false := by
            have hdw := hr'def.symm.trans hr'c
            exact dropWhile_head_false (p := isWs) hdw
          have hgo2 : collapseWsGo true r' = collapseWsGo false r' := by
            apply collapseWsGo_true_eq_false
            intro x hx
            rw [hr'c] at hx
            cases hx
            exact he
          -- length bound for the recursive call
          have hlenr : r'.length ≤ n := by
            have h1 : w.length + r.length = rest.length + 1 := by
              have := congrArg List.length hsw
              simpa using this
            have h2 : u₂.length + r'.length = r₂.length := by
              have := congrArg List.length hr₂
              simpa using this
            have h3 : r.length = r₂.length + 1 := by rw [hr]; rfl
            have h4 : 1 ≤ w.length := by
              cases hwc : w with
              | nil => exact absurd hwc hwne
              | cons _ _ => simp
            simp only [List.length_cons] at hlen
            omega
          have hhead' : ∀ x, r'.head? = some x → isWs x = false := by
            intro x hx
            rw [hr'c] at hx
            cases hx
            exact he
          have hlast' : ∀ x, r'.getLast? = some x → isWs x = false := by
            intro x hx
            apply hlast
            rw [← hsw, hr, ← hr₂, List.getLast?_append_cons w d (u₂ ++ r'),
              ← List.cons_append,
              List.getLast?_append_of_ne_nil _ (by rw [hr'c]; simp)]
            exact hx
          have hihr := ih r' hlenr hhead' hlast'
          have hsei : splitWords r = splitWords r' := by
            rw [hr, ← hr₂]
            have : (d :: (u₂ ++ r') : List Char) = (d :: u₂) ++ r' := by simp
            rw [this]
            apply splitWords_ws_append
            intro x hx
            rcases List.mem_cons.mp hx with rfl | hm
            · exact hd
            · exact hu₂all x hm
          have hswne : splitWords r' ≠ [] := by
            rw [hr'c, splitWords_cons_nonws t' he]
            simp
          rw [hcw, hgo, hgo2, hsplit, hsei, joinUnderscore_cons_ne hswne]
          unfold collapseWs at hihr
          rw [hihr]

theorem splitWords_append_ws : ∀ (n : Nat) (t u : List Char), t.length ≤ n →
    (∀ c ∈ u, isWs c = true) → splitWords (t ++ u) = splitWords t := by
  intro n
  induction n with
  | zero =>
    intro t u hlen hu
    have : t = [] := by
      cases t with
      | nil => rfl
      | cons c r => simp at hlen
    subst this
    rw [List.nil_append, splitWords_nil_of_ws hu, splitWords]
  | succ n ih =>
    intro t u hlen hu
    cases ht : t with
    | nil =>
      rw [List.nil_append, splitWords_nil_of_ws hu, splitWords]
    | cons c rest =>
      subst ht
      cases hc : isWs c with
      | true =>
        rw [List.cons_append, splitWords, if_pos hc, splitWords, if_pos hc]
        exact ih rest u (by simpa using Nat.le_of_succ_le_succ (by simpa using hlen)) hu
      | false =>
        set w := (c :: rest).takeWhile (fun d => !isWs d) with hwdef
        set r := (c :: rest).dropWhile (fun d => !isWs d) with hrdef
        have hsw : w ++ r = c :: rest := List.takeWhile_append_dropWhile _ _
        have hwall : ∀ x ∈ w, isWs x = false := by
          intro x hx
          have := List.mem_takeWhile_imp hx
          simpa using this
        have hwne : w ≠ [] := by
          rw [hwdef, List.takeWhile_cons, if_pos (by simp [hc])]
          simp
        have htw : (c :: rest ++ u).takeWhile (fun d => !isWs d) =
            w ++ (r ++ u).takeWhile (fun d => !isWs d) := by
          rw [← hsw, List.append_assoc]
          exact takeWhile_nonws_append _ hwall
        have hdw : (c :: rest ++ u).dropWhile (fun d => !isWs d) =
            (r ++ u).dropWhile (fun d => !isWs d) := by
          rw [← hsw, List.append_assoc]
          exact dropWhile_nonws_append _ hwall
        cases hr : r with
        | nil =>
          have hT : (c :: rest ++ u).takeWhile (fun dd => !isWs dd) = w := by
            rw [htw, hr, List.nil_append, takeWhile_nonws_of_ws hu, List.append_nil]
          have hD : (c :: rest ++ u).dropWhile (fun dd => !isWs dd) = u := by
            rw [hdw, hr, List.nil_append, dropWhile_nonws_of_ws hu]
          have hL : splitWords (c :: rest ++ u) = w :: splitWords u := by
            rw [show (c :: rest ++ u : List Char) = c :: (rest ++ u) from rfl,
              splitWords_cons_nonws _ hc]
            rw [show ((c :: (rest ++ u) : List Char).takeWhile (fun dd => !isWs dd)) =
              ((c :: rest ++ u : List Char).takeWhile (fun dd => !isWs dd)) from rfl, hT]
            rw [show ((c :: (rest ++ u) : List Char).dropWhile (fun dd => !isWs dd)) =
              ((c :: rest ++ u : List Char).dropWhile (fun dd => !isWs dd)) from rfl, hD]
          have hR : splitWords (c :: rest) = w :: splitWords r := by
            rw [splitWords_cons_nonws _ hc, ← hwdef, ← hrdef]
          rw [hL, hR, hr, splitWords_nil_of_ws hu,
            splitWords_nil_of_ws (fun x hx => absurd hx (List.not_mem_nil x))]
        | cons d r₂ =>
          have hd : isWs d = true := by
            have := dropWhile_head_false (p := fun x => !isWs x) (hrdef.symm.trans hr)
            simpa using this
          have hwlen : 1 ≤ w.length := by
            cases hwc : w with
            | nil => exact absurd hwc hwne
            | cons _ _ => simp
          have hrlen : r.length ≤ n := by
            have h1 : w.length + r.length = rest.length + 1 := by
              have := congrArg List.length hsw
              simpa using this
            simp only [List.length_cons] at hlen
            omega
          have hT : (c :: rest ++ u).takeWhile (fun dd => !isWs dd) = w := by
            rw [htw, hr]
            rw [show ((d :: r₂ ++ u : List Char).takeWhile (fun dd => !isWs dd)) = [] from by
              rw [show (d :: r₂ ++ u : List Char) = d :: (r₂ ++ u) from rfl,
                List.takeWhile_cons, if_neg (by simp [hd])]]
            rw [List.append_nil]
          have hD : (c :: rest ++ u).dropWhile (fun dd => !isWs dd) = (d :: r₂) ++ u := by
            rw [hdw, hr]
            rw [show (d :: r₂ ++ u : List Char) = d :: (r₂ ++ u) from rfl,
              List.dropWhile_cons, if_neg (by simp [hd])]
          have hL : splitWords (c :: rest ++ u) = w :: splitWords ((d :: r₂) ++ u) := by
            rw [show (c :: rest ++ u : List Char) = c :: (rest ++ u) from rfl,
              splitWords_cons_nonws _ hc]
            rw [show ((c :: (rest ++ u) : List Char).takeWhile (fun dd => !isWs dd)) =
              ((c :: rest ++ u : List Char).takeWhile (fun dd => !isWs dd)) from rfl, hT]
            rw [show ((c :: (rest ++ u) : List Char).dropWhile (fun dd => !isWs dd)) =
              ((c :: rest ++ u : List Char).dropWhile (fun dd => !isWs dd)) from rfl, hD]
          have hR : splitWords (c :: rest) = w :: splitWords (d :: r₂) := by
            rw [splitWords_cons_nonws _ hc, ← hwdef, ← hrdef, hr]
          rw [hL, hR, ih (d :: r₂) u (by rw [← hr]; exact hrlen) hu]

theorem head?_append_left {α : Type} {a : List α} (b : List α) (h : a ≠ []) :
    (a ++ b).head? = a.head? := by
  cases a with
  | nil => exact absurd rfl h
  | cons x xs => rfl

theorem trimStr_decomp (s : List Char) :
    (∀ c ∈ s.takeWhile isWs, isWs c = true) ∧
    (∀ c ∈ (((s.dropWhile isWs).reverse.takeWhile isWs).reverse : List Char),
      isWs c = true) ∧
    s = s.takeWhile isWs ++
      (trimStr s ++ ((s.dropWhile isWs).reverse.takeWhile isWs).reverse) := by
  refine ⟨?_, ?_, ?_⟩
  · intro c hc
    exact List.mem_takeWhile_imp hc
  · intro c hc
    rw [List.mem_reverse] at hc
    exact List.mem_takeWhile_imp hc
  · have h1 : s.takeWhile isWs ++ s.dropWhile isWs = s :=
      List.takeWhile_append_dropWhile _ _
    have h2 : (s.dropWhile isWs).reverse.takeWhile isWs ++
        (s.dropWhile isWs).reverse.dropWhile isWs = (s.dropWhile isWs).reverse :=
      List.takeWhile_append_dropWhile _ _
    have h3 : s.dropWhile isWs =
        trimStr s ++ ((s.dropWhile isWs).reverse.takeWhile isWs).reverse := by
      unfold trimStr
      have := congrArg List.reverse h2
      rw [List.reverse_append, List.reverse_reverse] at this
      exact this.symm
    rw [← h3, h1]

theorem trimStr_head (s : List Char) :
    ∀ c, (trimStr s).head? = some c → isWs c = false := by
  intro c hc
  obtain ⟨hlead, htail, hdec⟩ := trimStr_decomp s
  have hne : trimStr s ≠ [] := by
    intro h0
    rw [h0] at hc
    cases hc
  have h4 : (s.dropWhile isWs).head? = some c := by
    have h5 : s.dropWhile isWs =
        trimStr s ++ ((s.dropWhile isWs).reverse.takeWhile isWs).reverse := by
      have h2 := List.takeWhile_append_dropWhile isWs (s.dropWhile isWs).reverse
      have h6 := congrArg List.reverse h2
      rw [List.reverse_append, List.reverse_reverse] at h6
      unfold trimStr
      exact h6.symm
    rw [h5, head?_append_left _ hne]
    exact hc
  cases hdw : s.dropWhile isWs with
  | nil => rw [hdw] at h4; cases h4
  | cons x xs =>
    rw [hdw] at h4
    cases h4
    exact dropWhile_head_false (p := isWs) hdw

theorem trimStr_last (s : List Char) :
    ∀ c, (trimStr s).getLast? = some c → isWs c = false := by
  intro c hc
  unfold trimStr at hc
  rw [List.getLast?_reverse] at hc
  cases hdw : (s.dropWhile isWs).reverse.dropWhile isWs with
  | nil => rw [hdw] at hc; cases hc
  | cons x xs =>
    rw [hdw] at hc
    have hxc : x = c := by simpa using hc
    subst hxc
    exact dropWhile_head_false (p := isWs) hdw

/-- `normalizeTag` computes exactly the first 64 characters of the
whitespace-delimited words of the input joined by single underscores. -/
theorem normalizeTag_eq_words (s : List Char) :
    normalizeTag s = (joinUnderscore (splitWords s)).take 64 := by
  unfold normalizeTag
  have hmain := collapse_eq_join (trimStr s).length (trimStr s) (le_refl _)
    (trimStr_head s) (trimStr_last s)
  obtain ⟨hlead, htail, hdec⟩ := trimStr_decomp s
  have hsplit : splitWords s = splitWords (trimStr s) := by
    conv_lhs => rw [hdec]
    rw [splitWords_ws_append _ hlead]
    exact splitWords_append_ws (trimStr s).length (trimStr s) _ (le_refl _) htail
  rw [hsplit, ← hmain]

/-!  Claim C8. -/

/-- C8: `tag` first normalizes the name — the normalized name is exactly
the whitespace-delimited words of the input joined by single underscores
and truncated to 64 characters (trim, collapse each whitespace run to one
`_`, cap at 64); if the normalized name is empty the call returns
`success = false` and leaves the state unchanged; and when `targetRef` is
absent the tag is attached to the current head (last-appended) node. -/
theorem c8_normalize_and_defaults :
    (∀ s : List Char, normalizeTag s = (joinUnderscore (splitWords s)).take 64) ∧
    (∀ (st : SLog) (name : List Char) (tr note : Option (List Char)),
      normalizeTag name = [] →
      tagOp st name tr note = (⟨false, str "tag is required", none⟩, st)) ∧
    (∀ (st : SLog) (name : List Char),
      st.nodes ≠ [] → normalizeTag name ≠ [] →
      (tagOp st name none none).1.success = true ∧
      ∃ hd, getHeadNode st = some hd ∧
        (tagOp st name none none).1.nodeId = some hd.id ∧
        ∃ hd', getHeadNode (tagOp st name none none).2 = some hd' ∧
          hd'.id = hd.id ∧ normalizeTag name ∈ hd'.tags) := by
  refine ⟨normalizeTag_eq_words, ?_, ?_⟩
  · intro st name tr note h
    have hF : (normalizeTag name).isEmpty = true := by simp [h]
    simp only [tagOp, hF, if_true]
  · intro st name hnodes hname
    have hF : (normalizeTag name).isEmpty = false := by
      cases hv : normalizeTag name with
      | nil => exact absurd hv hname
      | cons c cs => rfl
    obtain ⟨hd, hhd⟩ : ∃ hd, st.nodes.getLast? = some hd :=
      ⟨_, List.getLast?_eq_getLast_of_ne_nil hnodes⟩
    have hres : resolveTargetNode st none = some hd := hhd
    simp only [tagOp, hF, Bool.false_eq_true, if_false, hres]
    refine ⟨by trivial, hd, hhd, by rfl, ?_⟩
    refine ⟨(fun n => if n.id == hd.id then
        { n with tags := if n.tags.contains (normalizeTag name) then n.tags
                 else n.tags ++ [normalizeTag name] } else n) hd, ?_, ?_, ?_⟩
    · show (st.nodes.map _).getLast? = _
      rw [List.getLast?_map, hhd]
      rfl
    · simp only [beq_self_eq_true, if_true]
    · simp only [beq_self_eq_true, if_true]
      split
      · rename_i hmem
        simpa using hmem
      · simp

/-- Witness for `c8_normalize_and_defaults` at concrete inputs. -/
theorem c8_normalize_and_defaults_witness :
    normalizeTag (str "  a  b   c ") =
      (joinUnderscore (splitWords (str "  a  b   c "))).take 64 ∧
    tagOp (slogInit 320 64) (str "   ") none none =
      (⟨false, str "tag is required", none⟩, slogInit 320 64) ∧
    ((tagOp (runSLog 320 64 [SOp.append SRole.user (str "a")])
        (str "t") none none).1.success = true ∧
      ∃ hd, getHeadNode (runSLog 320 64 [SOp.append SRole.user (str "a")]) = some hd ∧
        (tagOp (runSLog 320 64 [SOp.append SRole.user (str "a")])
          (str "t") none none).1.nodeId = some hd.id ∧
        ∃ hd', getHeadNode (tagOp (runSLog 320 64 [SOp.append SRole.user (str "a")])
            (str "t") none none).2 = some hd' ∧
          hd'.id = hd.id ∧ normalizeTag (str "t") ∈ hd'.tags) :=
  ⟨c8_normalize_and_defaults.1 (str "  a  b   c "),
   c8_normalize_and_defaults.2.1 (slogInit 320 64) (str "   ") none none (by decide),
   c8_normalize_and_defaults.2.2 (runSLog 320 64 [SOp.append SRole.user (str "a")])
     (str "t") (by decide) (by decide)⟩

/-!  Claim C3: session-log invariants. -/

/-- Liveness of all internal references: every tag-index entry, every
checkout record, and the active anchor name only nodes present in the
log. -/
def SlogLive (st : SLog) : Prop :=
  (∀ p ∈ st.tags, ∃ n ∈ st.nodes, n.id = p.2) ∧
  (∀ c ∈ st.checkouts, (∃ n ∈ st.nodes, n.id = c.toNodeId) ∧
    (∀ f, c.fromNodeId = some f → ∃ n ∈ st.nodes, n.id = f)) ∧
  (∀ a, st.activeAnchorNodeId = some a → ∃ n ∈ st.nodes, n.id = a)

/-- The full invariant of claim C3. -/
def SlogInv (st : SLog) : Prop :=
  st.nodes.length ≤ st.maxNodes ∧ SlogLive st

theorem pruneOverflow_fields (st : SLog) :
    (pruneOverflow st).maxNodes = st.maxNodes ∧
    (pruneOverflow st).maxCheckouts = st.maxCheckouts ∧
    (pruneOverflow st).pendingSystemNotes = st.pendingSystemNotes := by
  unfold pruneOverflow
  split <;> exact ⟨rfl, rfl, rfl⟩

theorem pruneOverflow_len (st : SLog) :
    (pruneOverflow st).nodes.length = min st.nodes.length st.maxNodes := by
  unfold pruneOverflow
  split
  · rename_i h
    omega
  · rename_i h
    simp only [List.length_drop]
    omega

theorem mem_take_of_split {α : Type} {l : List α} {k : Nat} {x : α}
    (hx : x ∈ l) : x ∈ l.take k ∨ x ∈ l.drop k := by
  rw [← List.take_append_drop k l] at hx
  exact List.mem_append.mp hx

theorem pruneOverflow_live {st : SLog} (h : SlogLive st) :
    SlogLive (pruneOverflow st) := by
  obtain ⟨htags, hcheck, hanchor⟩ := h
  unfold pruneOverflow
  split
  · exact ⟨htags, hcheck, hanchor⟩
  · rename_i hgt
    set k := st.nodes.length - st.maxNodes with hk
    set removedIds := (st.nodes.take k).map (·.id) with hrm
    refine ⟨?_, ?_, ?_⟩
    · intro p hp
      simp only [List.mem_filter] at hp
      obtain ⟨hpm, hpc⟩ := hp
      obtain ⟨n, hn, hnid⟩ := htags p hpm
      rcases mem_take_of_split (k := k) hn with hcase | hcase
      · exfalso
        have : removedIds.contains p.2 = true := by
          rw [hrm]
          rw [List.contains_eq_any_beq]
          rw [List.any_eq_true]
          exact ⟨n.id, List.mem_map_of_mem _ hcase, by simp [hnid]⟩
        rw [this] at hpc
        cases hpc
      · exact ⟨n, hcase, hnid⟩
    · intro c hc
      simp only [List.mem_filter, Bool.and_eq_true] at hc
      obtain ⟨hcm, hc1, hc2⟩ := hc
      obtain ⟨⟨n, hn, hnid⟩, hfrom⟩ := hcheck c hcm
      constructor
      · rcases mem_take_of_split (k := k) hn with hcase | hcase
        · exfalso
          have : removedIds.contains c.toNodeId = true := by
            rw [hrm, List.contains_eq_any_beq, List.any_eq_true]
            exact ⟨n.id, List.mem_map_of_mem _ hcase, by simp [hnid]⟩
          rw [this] at hc1
          cases hc1
        · exact ⟨n, hcase, hnid⟩
      · intro f hf
        obtain ⟨m, hm, hmid⟩ := hfrom f hf
        rcases mem_take_of_split (k := k) hm with hcase | hcase
        · exfalso
          have : removedIds.contains f = true := by
            rw [hrm, List.contains_eq_any_beq, List.any_eq_true]
            exact ⟨m.id, List.mem_map_of_mem _ hcase, by simp [hmid]⟩
          rw [hf] at hc2
          simp only [this] at hc2
          cases hc2
        · exact ⟨m, hcase, hmid⟩
    · intro a ha
      simp only at ha
      cases hanc : st.activeAnchorNodeId with
      | none =>
        simp only [hanc] at ha
        exact Option.noConfusion ha
      | some a0 =>
        simp only [hanc] at ha
        by_cases hcon : removedIds.contains a0 = true
        · rw [if_pos hcon] at ha
          cases hfind : (st.nodes.drop k).find? isConv with
          | none =>
            rw [hfind] at ha
            cases ha
          | some n =>
            rw [hfind] at ha
            have han : n.id = a := by simpa using ha
            exact ⟨n, List.mem_of_find?_eq_some hfind, han⟩
        · rw [if_neg hcon] at ha
          have haa : a0 = a := by simpa using ha
          subst haa
          obtain ⟨n, hn, hnid⟩ := hanchor a0 hanc
          rcases mem_take_of_split (k := k) hn with hcase | hcase
          · exfalso
            apply hcon
            rw [hrm, List.contains_eq_any_beq, List.any_eq_true]
            exact ⟨n.id, List.mem_map_of_mem _ hcase, by simp [hnid]⟩
          · exact ⟨n, hcase, hnid⟩

theorem live_map {l : List SNode} {f : SNode → SNode}
    (hf : ∀ n, (f n).id = n.id) {x : List Char}
    (h : ∃ n ∈ l, n.id = x) : ∃ n ∈ l.map f, n.id = x := by
  obtain ⟨n, hn, hid⟩ := h
  exact ⟨f n, List.mem_map_of_mem f hn, by rw [hf n, hid]⟩

theorem tagsSet_mem {m : List (List Char × List Char)} {k v : List Char}
    {p : List Char × List Char} (hp : p ∈ tagsSet m k v) :
    p ∈ m ∨ p.2 = v := by
  unfold tagsSet at hp
  split at hp
  · obtain ⟨q, hq, hqe⟩ := List.mem_map.mp hp
    by_cases hqk : (q.1 == k) = true
    · rw [if_pos hqk] at hqe
      right
      rw [← hqe]
    · rw [if_neg hqk] at hqe
      left
      rw [← hqe]
      exact hq
  · rcases List.mem_append.mp hp with h | h
    · exact Or.inl h
    · right
      have : p = (k, v) := by simpa using h
      rw [this]

theorem appendNode_pres {st : SLog} (h : SlogInv st) (role : SRole)
    (content : List Char) : SlogInv (appendNode st role content).2 := by
  obtain ⟨hlen, htags, hcheck, hanchor⟩ := h
  simp only [appendNode]
  split
  · exact ⟨hlen, htags, hcheck, hanchor⟩
  · refine ⟨?_, ?_⟩
    · rw [pruneOverflow_len, (pruneOverflow_fields _).1]
      simp only [List.length_append, List.length_cons, List.length_nil]
      omega
    · apply pruneOverflow_live
      refine ⟨?_, ?_, ?_⟩
      · intro p hp
        obtain ⟨n, hn, hid⟩ := htags p hp
        exact ⟨n, List.mem_append_left _ hn, hid⟩
      · intro c hc
        obtain ⟨⟨n, hn, hid⟩, hfrom⟩ := hcheck c hc
        refine ⟨⟨n, List.mem_append_left _ hn, hid⟩, ?_⟩
        intro f hf
        obtain ⟨m, hm, hmid⟩ := hfrom f hf
        exact ⟨m, List.mem_append_left _ hm, hmid⟩
      · intro a ha
        obtain ⟨n, hn, hid⟩ := hanchor a ha
        exact ⟨n, List.mem_append_left _ hn, hid⟩

theorem tagOp_pres {st : SLog} (h : SlogInv st) (name : List Char)
    (tr note : Option (List Char)) : SlogInv (tagOp st name tr note).2 := by
  obtain ⟨hlen, htags, hcheck, hanchor⟩ := h
  simp only [tagOp]
  split
  · exact ⟨hlen, htags, hcheck, hanchor⟩
  · cases hres : resolveTargetNode st tr with
    | none => exact ⟨hlen, htags, hcheck, hanchor⟩
    | some target =>
      simp only
      have hfid : ∀ n : SNode, ((fun n => if n.id == target.id then
          { n with tags := if n.tags.contains (normalizeTag name) then n.tags
                   else n.tags ++ [normalizeTag name] } else n) n).id = n.id := by
        intro n
        dsimp only
        by_cases hq : (n.id == target.id) = true
        · rw [if_pos hq]
        · rw [if_neg hq]
      have hinv1 : SlogInv { st with
          nodes := st.nodes.map (fun n => if n.id == target.id then
            { n with tags := if n.tags.contains (normalizeTag name) then n.tags
                     else n.tags ++ [normalizeTag name] } else n),
          tags := tagsSet st.tags (normalizeTag name) target.id } := by
        refine ⟨by simpa using hlen, ?_, ?_, ?_⟩
        · intro p hp
          rcases tagsSet_mem hp with hm | hv
          · exact live_map hfid (htags p hm)
          · rw [hv]
            exact live_map hfid ⟨target, resolve_mem hres, rfl⟩
        · intro c hc
          obtain ⟨h1, h2⟩ := hcheck c hc
          exact ⟨live_map hfid h1, fun f hf => live_map hfid (h2 f hf)⟩
        · intro a ha
          exact live_map hfid (hanchor a ha)
      cases note with
      | none => exact hinv1
      | some nt =>
        simp only
        split
        · exact hinv1
        · exact appendNode_pres hinv1 _ _

theorem checkoutOp_pres {st : SLog} (h : SlogInv st) (ref summary : List Char) :
    SlogInv (checkoutOp st ref summary).2 := by
  obtain ⟨hlen, htags, hcheck, hanchor⟩ := h
  simp only [checkoutOp]
  cases hres : resolveTargetNode st (some ref) with
  | none => exact ⟨hlen, htags, hcheck, hanchor⟩
  | some target =>
    simp only
    split
    · exact ⟨hlen, htags, hcheck, hanchor⟩
    · apply appendNode_pres
      refine ⟨hlen, htags, ?_, ?_⟩
      · intro c hc
        have hc1 : c ∈ st.checkouts ++
            [⟨jumpId st.nextUuid, (getHeadNode st).map (fun x => x.id),
              target.id, (trimStr summary).take 800, st.clock⟩] := by
          dsimp only at hc
          split at hc
          · exact List.mem_of_mem_drop hc
          · exact hc
        rcases List.mem_append.mp hc1 with hm | hm
        · exact hcheck c hm
        · have hce : c = ⟨jumpId st.nextUuid, (getHeadNode st).map (fun x => x.id),
              target.id, (trimStr summary).take 800, st.clock⟩ := by simpa using hm
          subst hce
          refine ⟨⟨target, show target ∈ st.nodes from resolve_mem hres, rfl⟩, ?_⟩
          intro f hf
          simp only [Option.map_eq_some'] at hf
          obtain ⟨hd, hhd, hfe⟩ := hf
          subst hfe
          exact ⟨hd, getLast?_mem hhd, rfl⟩
      · intro a ha
        simp only at ha
        cases ha
        exact ⟨target, show target ∈ st.nodes from resolve_mem hres, rfl⟩

theorem consumeNotes_pres {st : SLog} (h : SlogInv st) :
    SlogInv (consumeNotes st).2 := by
  obtain ⟨hlen, htags, hcheck, hanchor⟩ := h
  unfold consumeNotes
  split
  · exact ⟨hlen, htags, hcheck, hanchor⟩
  · exact ⟨hlen, htags, hcheck, hanchor⟩

theorem applySOp_pres {st : SLog} (h : SlogInv st) (op : SOp) :
    SlogInv (applySOp st op) := by
  cases op with
  | append role content => exact appendNode_pres h role content
  | tagOp name target note => exact tagOp_pres h name target note
  | checkout target summary => exact checkoutOp_pres h target summary
  | consume => exact consumeNotes_pres h

theorem runSLog_inv (maxNodes maxCheckouts : Nat) (ops : List SOp) :
    SlogInv (runSLog maxNodes maxCheckouts ops) := by
  have hinit : SlogInv (slogInit maxNodes maxCheckouts) := by
    refine ⟨by simp [slogInit], ?_, ?_, ?_⟩
    · intro p hp
      cases hp
    · intro c hc
      cases hc
    · intro a ha
      cases ha
  unfold runSLog
  generalize hst : slogInit maxNodes maxCheckouts = st0 at hinit
  clear hst
  induction ops generalizing st0 with
  | nil => exact hinit
  | cons op ops ih =>
    rw [List.foldl_cons]
    exact ih _ (applySOp_pres hinit op)

/-- Concrete state for the C3 witness: two nodes but `maxNodes = 1`, with
the anchor on the node about to be evicted. -/
def c3WitnessLog : SLog :=
  ⟨[⟨str "ctx_0", SRole.note, str "n", 0, []⟩,
    ⟨str "ctx_1", SRole.user, str "a", 1, []⟩],
   [], [], [], some (str "ctx_0"), 1, 64, 2, 2⟩

/-- C3: for every operation sequence, the reached state satisfies the
session-log invariants — the node count never exceeds `maxNodes`, every
tag-index entry, checkout record and the active anchor reference only
nodes still present — and whenever pruning evicts the anchored node, the
anchor is reassigned to the oldest surviving user/assistant node (or
cleared to `none` when no such node remains). -/
theorem c3_invariants :
    (∀ (maxNodes maxCheckouts : Nat) (ops : List SOp),
      SlogInv (runSLog maxNodes maxCheckouts ops)) ∧
    (∀ (st : SLog) (a : List Char),
      st.activeAnchorNodeId = some a →
      st.maxNodes < st.nodes.length →
      a ∈ (st.nodes.take (st.nodes.length - st.maxNodes)).map (fun n => n.id) →
      (pruneOverflow st).activeAnchorNodeId =
        ((st.nodes.drop (st.nodes.length - st.maxNodes)).find? isConv).map
          (fun n => n.id)) := by
  refine ⟨runSLog_inv, ?_⟩
  intro st a ha hgt hmem
  unfold pruneOverflow
  rw [if_neg (by omega)]
  simp only [ha]
  rw [if_pos]
  rw [List.contains_eq_any_beq, List.any_eq_true]
  exact ⟨a, hmem, by simp⟩

/-- Witness for `c3_invariants`: a run that overflows `maxNodes = 2`, and
a concrete pruning that rehomes the anchor. -/
theorem c3_invariants_witness :
    SlogInv (runSLog 2 64
      [SOp.append SRole.user (str "a"), SOp.append SRole.user (str "b"),
       SOp.tagOp (str "t") none none, SOp.append SRole.user (str "c")]) ∧
    (pruneOverflow c3WitnessLog).activeAnchorNodeId =
      ((c3WitnessLog.nodes.drop (c3WitnessLog.nodes.length - c3WitnessLog.maxNodes)).find?
        isConv).map (fun n => n.id) :=
  ⟨c3_invariants.1 2 64
    [SOp.append SRole.user (str "a"), SOp.append SRole.user (str "b"),
     SOp.tagOp (str "t") none none, SOp.append SRole.user (str "c")],
   c3_invariants.2 c3WitnessLog (str "ctx_0") (by decide) (by decide) (by decide)⟩

/-!  Claim C4. -/

theorem getPromptHistory_drop (st : SLog) (limit : Nat) :
    ∃ j, getPromptHistory st limit =
      ((st.nodes.filter isConv).drop j).map
        (fun n => (⟨if n.role == SRole.user then SRole.user else SRole.assistant,
          n.content⟩ : ChatMsg)) ∧
      (∀ a, st.activeAnchorNodeId = some a →
        ((st.nodes.filter isConv).map (fun n => n.id)).Nodup →
        ∀ (i : Nat) (hi : i < (st.nodes.filter isConv).length),
          ((st.nodes.filter isConv).get ⟨i, hi⟩).id = a → i ≤ j) := by
  simp only [getPromptHistory]
  cases hanc : st.activeAnchorNodeId with
  | none =>
    dsimp only
    by_cases htr : (0 < limit && limit < (st.nodes.filter isConv).length) = true
    · refine ⟨(st.nodes.filter isConv).length - limit, ?_, ?_⟩
      · rw [if_pos htr]
      · intro a ha
        cases ha
    · refine ⟨0, ?_, ?_⟩
      · rw [if_neg htr, List.drop_zero]
      · intro a ha
        cases ha
  | some a0 =>
    dsimp only
    cases hidx : (st.nodes.filter isConv).findIdx? (fun n => n.id == a0) with
    | none =>
      simp only [hidx]
      have hclause : ∀ a, (some a0 : Option (List Char)) = some a →
          ((st.nodes.filter isConv).map (fun n => n.id)).Nodup →
          ∀ (i : Nat) (hi : i < (st.nodes.filter isConv).length),
            ((st.nodes.filter isConv).get ⟨i, hi⟩).id = a → i ≤ 0 := by
        intro a ha hnd i hi hid
        cases ha
        exfalso
        have hall := List.findIdx?_eq_none_iff.mp hidx
        have hmem := List.get_mem (st.nodes.filter isConv) i hi
        have := hall _ hmem
        rw [hid] at this
        simp at this
      by_cases htr : (0 < limit && limit < (st.nodes.filter isConv).length) = true
      · refine ⟨(st.nodes.filter isConv).length - limit, ?_, ?_⟩
        · rw [if_pos htr]
        · intro a ha hnd i hi hid
          exfalso
          have h0 := hclause a ha hnd i hi hid
          have hall := List.findIdx?_eq_none_iff.mp hidx
          have hmem := List.get_mem (st.nodes.filter isConv) i hi
          have := hall _ hmem
          cases ha
          rw [hid] at this
          simp at this
      · refine ⟨0, ?_, hclause⟩
        rw [if_neg htr, List.drop_zero]
    | some p =>
      simp only [hidx]
      obtain ⟨hp, hpi, hmin⟩ := List.findIdx?_eq_some_iff_getElem.mp hidx
      have hpid : ((st.nodes.filter isConv).get ⟨p, hp⟩).id = a0 := by
        simpa using hpi
      have hclause : ∀ (j : Nat), p ≤ j →
          ∀ a, (some a0 : Option (List Char)) = some a →
          ((st.nodes.filter isConv).map (fun n => n.id)).Nodup →
          ∀ (i : Nat) (hi : i < (st.nodes.filter isConv).length),
            ((st.nodes.filter isConv).get ⟨i, hi⟩).id = a → i ≤ j := by
        intro j hpj a ha hnd i hi hid
        cases ha
        have hieq : i = p := by
          have hi2 : i < ((st.nodes.filter isConv).map (fun n => n.id)).length := by
            simpa using hi
          have hp2 : p < ((st.nodes.filter isConv).map (fun n => n.id)).length := by
            simpa using hp
          have h1 : ((st.nodes.filter isConv).map (fun n => n.id))[i] =
              ((st.nodes.filter isConv).map (fun n => n.id))[p] := by
            simp only [List.getElem_map]
            rw [show (st.nodes.filter isConv)[i] = (st.nodes.filter isConv).get ⟨i, hi⟩ from rfl]
            rw [show (st.nodes.filter isConv)[p] = (st.nodes.filter isConv).get ⟨p, hp⟩ from rfl]
            rw [hid, hpid]
          exact hnd.getElem_inj_iff.mp h1
        omega
      by_cases htr : (0 < limit &&
          limit < ((st.nodes.filter isConv).drop p).length) = true
      · refine ⟨p + (((st.nodes.filter isConv).drop p).length - limit), ?_, ?_⟩
        · rw [if_pos htr, List.drop_drop]
        · exact hclause _ (by omega)
      · refine ⟨p, ?_, ?_⟩
        · rw [if_neg htr]
        · exact hclause p (le_refl p)

theorem trimStr_ne_nil {s : List Char} (h : ∃ c ∈ s, isWs c = false) :
    trimStr s ≠ [] := by
  intro h0
  obtain ⟨hlead, htail, hdec⟩ := trimStr_decomp s
  obtain ⟨c, hc, hcw⟩ := h
  rw [hdec, h0, List.nil_append] at hc
  rcases List.mem_append.mp hc with hm | hm
  · rw [hlead c hm] at hcw
    cases hcw
  · rw [htail c hm] at hcw
    cases hcw


theorem pruneOverflow_post (st : SLog)
    (hnodup : (st.nodes.map (fun n => n.id)).Nodup) :
    ∃ k, (pruneOverflow st).nodes = st.nodes.drop k ∧
      ((pruneOverflow st).activeAnchorNodeId = st.activeAnchorNodeId ∨
       (∀ a, st.activeAnchorNodeId = some a →
         ∀ n ∈ (pruneOverflow st).nodes, n.id ≠ a)) := by
  unfold pruneOverflow
  split
  · exact ⟨0, by rw [List.drop_zero], Or.inl rfl⟩
  · rename_i hgt
    set k := st.nodes.length - st.maxNodes with hk
    set removedIds := (st.nodes.take k).map (·.id) with hrm
    refine ⟨k, rfl, ?_⟩
    cases hanc : st.activeAnchorNodeId with
    | none => exact Or.inl rfl
    | some a0 =>
      by_cases hcon : removedIds.contains a0 = true
      · refine Or.inr ?_
        intro a' ha' n hn hna
        injection ha' with he
        subst he
        simp only at hn
        have hnd2 : (removedIds ++ (st.nodes.drop k).map (·.id)).Nodup := by
          rw [hrm, ← List.map_append, List.take_append_drop]
          exact hnodup
        obtain ⟨_, _, hdisj⟩ := List.nodup_append.mp hnd2
        have hmem1 : a0 ∈ removedIds := by
          rw [List.contains_eq_any_beq, List.any_eq_true] at hcon
          obtain ⟨x, hx, hxe⟩ := hcon
          have hxa : a0 = x := by simpa using hxe
          rw [hxa]
          exact hx
        have hmem2 : a0 ∈ (st.nodes.drop k).map (·.id) := by
          rw [← hna]
          exact List.mem_map_of_mem _ hn
        exact hdisj hmem1 hmem2
      · refine Or.inl ?_
        simp only
        rw [if_neg hcon]

theorem appendNode_post (stX : SLog) (role : SRole) (content : List Char)
    (hne : trimStr content ≠ [])
    (hnodup : ((stX.nodes ++
      [(⟨ctxId stX.nextUuid, role, trimStr content, stX.clock, []⟩ : SNode)]).map
        (fun n => n.id)).Nodup) :
    ∃ k, (appendNode stX role content).2.nodes =
        (stX.nodes ++
          [(⟨ctxId stX.nextUuid, role, trimStr content, stX.clock, []⟩ : SNode)]).drop k ∧
      ((appendNode stX role content).2.activeAnchorNodeId = stX.activeAnchorNodeId ∨
       (∀ a, stX.activeAnchorNodeId = some a →
         ∀ n ∈ (appendNode stX role content).2.nodes, n.id ≠ a)) := by
  have hneF : (trimStr content).isEmpty = false := by
    cases hv : trimStr content with
    | nil => exact absurd hv hne
    | cons c cs => rfl
  simp only [appendNode, hneF, Bool.false_eq_true, if_false]
  exact pruneOverflow_post
    { stX with
      nodes := stX.nodes ++
        [(⟨ctxId stX.nextUuid, role, trimStr content, stX.clock, []⟩ : SNode)],
      nextUuid := stX.nextUuid + 1, clock := stX.clock + 1 } hnodup

theorem appendNode_no_prune (stX : SLog) (role : SRole) (content : List Char)
    (hne : trimStr content ≠ [])
    (hlen : stX.nodes.length < stX.maxNodes) :
    (appendNode stX role content).2 =
      { stX with
        nodes := stX.nodes ++
          [(⟨ctxId stX.nextUuid, role, trimStr content, stX.clock, []⟩ : SNode)],
        nextUuid := stX.nextUuid + 1, clock := stX.clock + 1 } := by
  have hneF : (trimStr content).isEmpty = false := by
    cases hv : trimStr content with
    | nil => exact absurd hv hne
    | cons c cs => rfl
  simp only [appendNode, hneF, Bool.false_eq_true, if_false]
  unfold pruneOverflow
  split
  · rfl
  · rename_i hgt
    exfalso
    simp only [List.length_append, List.length_cons, List.length_nil] at hgt
    omega

theorem checkoutOp_state {st : SLog} {targetRef summary : List Char}
    {r : CheckoutResult} {st' : SLog} {T : SNode}
    (hres : resolveTargetNode st (some targetRef) = some T)
    (hco : checkoutOp st targetRef summary = (r, st'))
    (hsucc : r.success = true)
    (hlen : st.nodes.length < st.maxNodes) :
    st'.activeAnchorNodeId = some T.id ∧
    ∃ nd : SNode, nd.role = SRole.note ∧ st'.nodes = st.nodes ++ [nd] := by
  simp only [checkoutOp, hres] at hco
  by_cases hemp : ((trimStr summary).take 800).isEmpty = true
  · rw [if_pos hemp] at hco
    rw [Prod.mk.injEq] at hco
    obtain ⟨hr, _⟩ := hco
    rw [← hr] at hsucc
    exact Bool.noConfusion hsucc
  · rw [if_neg hemp] at hco
    rw [Prod.mk.injEq] at hco
    obtain ⟨hr, hst⟩ := hco
    have hne2 : trimStr (str "Checkout to " ++ T.id ++ str ": " ++
        (trimStr summary).take 800) ≠ [] := by
      apply trimStr_ne_nil
      refine ⟨'C', ?_, by decide⟩
      exact List.mem_append_left _ (List.mem_append_left _
        (List.mem_append_left _ (by decide)))
    rw [← hst]
    rw [appendNode_no_prune]
    · refine ⟨rfl, _, ?_, rfl⟩
      rfl
    · exact hne2
    · exact hlen

/-- The four-node conversation of the C4 scenario, with `phase1` tagged
onto the second node (`ctx_1`). -/
def c4ScenarioLog : SLog :=
  runSLog 320 64
    [SOp.append SRole.user (str "phase-1"),
     SOp.append SRole.assistant (str "phase-1 done"),
     SOp.append SRole.user (str "phase-2 q"),
     SOp.append SRole.assistant (str "phase-2 a"),
     SOp.tagOp (str "phase1") (some (str "ctx_1")) none]

/-- A log whose second node (`ctx_1`) is a non-conversational note,
squeezed between two user nodes. -/
def c4BadLog : SLog :=
  runSLog 320 64
    [SOp.append SRole.user (str "A"),
     SOp.append SRole.note (str "N"),
     SOp.append SRole.user (str "B")]

/-- C4 (counterexample): checking out to a non-conversational node does
not exclude earlier user/assistant nodes.  In `c4BadLog` the checkout
target `ctx_1` is a note node; the checkout succeeds, yet
`getPromptHistory` still returns the user node `A` that lies strictly
before the target. -/
theorem c4_counterexample :
    (checkoutOp c4BadLog (str "ctx_1") (str "sum")).1.success = true ∧
    (∃ nd ∈ c4BadLog.nodes, nd.id = str "ctx_1" ∧ isConv nd = false) ∧
    getPromptHistory (checkoutOp c4BadLog (str "ctx_1") (str "sum")).2 10 =
      [⟨SRole.user, str "A"⟩, ⟨SRole.user, str "B"⟩] := by decide

/-- C4 (amended): after a successful `checkout` to a *conversational*
target node `T` (role user/assistant), in a log with distinct node ids
and below the node cap, `getPromptHistory` returns an oldest-first
suffix of the conversational nodes in which every conversational node
strictly before `T` has been dropped (`i ≤ j` for `T`'s own position
`i`), and `T` itself is among the conversational nodes; moreover the
claim's four-node scenario returns exactly the three entries starting
at the tagged node. -/
theorem c4_amended :
    (∀ (st : SLog) (targetRef summary : List Char) (r : CheckoutResult)
      (st' : SLog) (T : SNode) (limit : Nat),
      (st.nodes.map (fun n => n.id)).Nodup →
      st.nodes.length < st.maxNodes →
      resolveTargetNode st (some targetRef) = some T →
      isConv T = true →
      checkoutOp st targetRef summary = (r, st') →
      r.success = true →
      ∃ j, getPromptHistory st' limit =
          ((st'.nodes.filter isConv).drop j).map
            (fun n => (⟨if n.role == SRole.user then SRole.user else SRole.assistant,
              n.content⟩ : ChatMsg)) ∧
        (∀ (i : Nat) (hi : i < (st'.nodes.filter isConv).length),
          ((st'.nodes.filter isConv).get ⟨i, hi⟩).id = T.id → i ≤ j) ∧
        (∃ (i : Nat) (hi : i < (st'.nodes.filter isConv).length),
          (st'.nodes.filter isConv).get ⟨i, hi⟩ = T)) ∧
    ((checkoutOp c4ScenarioLog (str "phase1") (str "keep phase1")).1.success = true ∧
     getPromptHistory
        (checkoutOp c4ScenarioLog (str "phase1") (str "keep phase1")).2 10 =
       [⟨SRole.assistant, str "phase-1 done"⟩, ⟨SRole.user, str "phase-2 q"⟩,
        ⟨SRole.assistant, str "phase-2 a"⟩]) := by
  constructor
  · intro st targetRef summary r st' T limit hnodup hlen hres hrole hco hsucc
    obtain ⟨hanc', nd, hndrole, hnodes'⟩ := checkoutOp_state hres hco hsucc hlen
    have hconv : st'.nodes.filter isConv = st.nodes.filter isConv := by
      rw [hnodes', List.filter_append]
      have hnd : List.filter isConv [nd] = [] := by
        simp [isConv, hndrole]
      rw [hnd, List.append_nil]
    have hndconv : ((st'.nodes.filter isConv).map (fun n => n.id)).Nodup := by
      rw [hconv]
      exact hnodup.sublist (List.Sublist.map _ (List.filter_sublist _))
    obtain ⟨j, heq, hclause⟩ := getPromptHistory_drop st' limit
    refine ⟨j, heq, ?_, ?_⟩
    · intro i hi hid
      exact hclause T.id hanc' hndconv i hi hid
    · have hTc : T ∈ st'.nodes.filter isConv := by
        rw [hconv]
        exact List.mem_filter.mpr ⟨resolve_mem hres, hrole⟩
      obtain ⟨⟨i, hi⟩, hg⟩ := List.get_of_mem hTc
      exact ⟨i, hi, hg⟩
  · decide

theorem c4_amended_witness :
    ∃ j,
      getPromptHistory (checkoutOp c4ScenarioLog (str "phase1") (str "keep phase1")).2 10 =
        ((((checkoutOp c4ScenarioLog (str "phase1") (str "keep phase1")).2.nodes.filter
            isConv).drop j).map
          (fun n => (⟨if n.role == SRole.user then SRole.user else SRole.assistant,
            n.content⟩ : ChatMsg))) ∧
      (∀ (i : Nat)
        (hi : i < ((checkoutOp c4ScenarioLog (str "phase1")
          (str "keep phase1")).2.nodes.filter isConv).length),
        (((checkoutOp c4ScenarioLog (str "phase1")
          (str "keep phase1")).2.nodes.filter isConv).get ⟨i, hi⟩).id = str "ctx_1" →
        i ≤ j) ∧
      (∃ (i : Nat)
        (hi : i < ((checkoutOp c4ScenarioLog (str "phase1")
          (str "keep phase1")).2.nodes.filter isConv).length),
        ((checkoutOp c4ScenarioLog (str "phase1")
          (str "keep phase1")).2.nodes.filter isConv).get ⟨i, hi⟩ =
          ⟨str "ctx_1", SRole.assistant, str "phase-1 done", 1, [str "phase1"]⟩) :=
  c4_amended.1 c4ScenarioLog (str "phase1") (str "keep phase1")
    (checkoutOp c4ScenarioLog (str "phase1") (str "keep phase1")).1
    (checkoutOp c4ScenarioLog (str "phase1") (str "keep phase1")).2
    ⟨str "ctx_1", SRole.assistant, str "phase-1 done", 1, [str "phase1"]⟩ 10
    (by decide) (by decide) (by decide) (by decide) rfl (by decide)

theorem hasOcc_take_some {t u : List Char} {m : Nat} (ht : t ≠ [])
    (h : hasOcc t (u.take m) = true) :
    ∃ j, idxOf t u = some j ∧ j + t.length ≤ m := by
  unfold hasOcc at h
  cases hidx : idxOf t (u.take m) with
  | none => rw [hidx] at h; cases h
  | some k =>
    have hpre := idxOf_some_isPre hidx
    have hlen := idxOf_some_length hidx
    rw [List.length_take] at hlen
    have hkl : k ≤ (u.take m).length := by
      rw [List.length_take]
      have htl : 0 < t.length := by
        cases t with
        | nil => exact absurd rfl ht
        | cons a b => simp
      omega
    have hsplit : u.drop k = (u.take m).drop k ++ u.drop m := by
      conv_lhs => rw [← List.take_append_drop m u]
      rw [List.drop_append_of_le_length hkl]
    have hpre2 : isPre t (u.drop k) = true := by
      rw [hsplit]
      exact isPre_append _ hpre
    obtain ⟨j, hj, hjk⟩ := idxOf_of_isPre hpre2 ht
    exact ⟨j, hj, by omega⟩

theorem idxOf_drop_none {t u : List Char} (ht : t ≠ []) (m : Nat)
    (h : idxOf t u = none) : idxOf t (u.drop m) = none := by
  cases hidx : idxOf t (u.drop m) with
  | none => rfl
  | some k =>
    exfalso
    have hpre := idxOf_some_isPre hidx
    rw [List.drop_drop] at hpre
    have hf := idxOf_none h (m + k) ht
    rw [hpre] at hf
    exact Bool.noConfusion hf

theorem findNextTagIndex_none_of {lb : List Char}
    (h : ∀ t ∈ startTagsLower, idxOf t lb = none) :
    findNextTagIndex lb = none := by
  unfold findNextTagIndex
  have hgen : ∀ (ts : List (List Char)), (∀ t ∈ ts, idxOf t lb = none) →
      ts.foldl (tagHitStep lb) none = none := by
    intro ts
    induction ts with
    | nil => intro _; rfl
    | cons t0 ts ih =>
      intro hall
      rw [List.foldl_cons]
      have h0 : tagHitStep lb none t0 = none := by
        unfold tagHitStep
        rw [hall t0 (by simp)]
      rw [h0]
      exact ih (fun t htm => hall t (List.mem_cons_of_mem _ htm))
  exact hgen startTagsLower h

theorem contentFrags_append (a b : List PEv) :
    contentFrags (a ++ b) = contentFrags a ++ contentFrags b := by
  simp [contentFrags]

theorem contentFrags_emitText (s : List Char) :
    contentFrags (emitTextEv s) = if s.isEmpty then [] else [s] := by
  unfold emitTextEv contentFrags
  split <;> simp

theorem contentFrags_emitThink (tg s : List Char) :
    contentFrags (emitThinkEv tg s) = [] := by
  unfold emitThinkEv contentFrags
  split <;> simp

theorem contentFrags_cons_thinkStart (tg : List Char) (l : List PEv) :
    contentFrags (PEv.thinkStart tg :: l) = contentFrags l := by
  simp [contentFrags, List.filterMap_cons]

theorem contentFrags_cons_thinkEnd (tg : List Char) (l : List PEv) :
    contentFrags (PEv.thinkEnd tg :: l) = contentFrags l := by
  simp [contentFrags, List.filterMap_cons]

theorem processAux_clean (fuel : Nat) : ∀ (st : PState) (f : List Char),
    f ∈ contentFrags (processAux fuel st).1 →
    ∀ t ∈ startTagsLower, hasOcc t (lowStr f) = false := by
  induction fuel with
  | zero =>
    intro st f hf
    rw [show processAux 0 st = ([], st, st.buffer.isEmpty) from rfl] at hf
    simp [contentFrags] at hf
  | succ fu ih =>
    intro st f hf t htg
    obtain ⟨m, tt, buf⟩ := st
    by_cases hbuf : buf = []
    · rw [processAux_empty (by simp [hbuf])] at hf
      simp [contentFrags] at hf
    · cases m with
      | text =>
        cases hhit : findNextTagIndex (lowStr buf) with
        | none =>
          rw [processAux_text_none rfl hbuf hhit] at hf
          rw [contentFrags_emitText] at hf
          split at hf
          · simp at hf
          · have hfe : f = buf.take (buf.length - 11) := by simpa using hf
            subst hfe
            rw [lowStr_take]
            cases hocc : hasOcc t ((lowStr buf).take (buf.length - 11)) with
            | false => rfl
            | true =>
              exfalso
              obtain ⟨j, hj, hjl⟩ :=
                hasOcc_take_some (startTagsLower_ne_nil t htg) hocc
              rw [findNextTagIndex_none hhit t htg] at hj
              exact Option.noConfusion hj
        | some p =>
          obtain ⟨i, tg⟩ := p
          obtain ⟨htgm, hidxtg, hmin⟩ := findNextTagIndex_some hhit
          have hfirst : ∀ hf1 : f ∈ contentFrags (emitTextEv (buf.take i)),
              hasOcc t (lowStr f) = false := by
            intro hf1
            rw [contentFrags_emitText] at hf1
            split at hf1
            · simp at hf1
            · have hfe : f = buf.take i := by simpa using hf1
              subst hfe
              rw [lowStr_take]
              cases hocc : hasOcc t ((lowStr buf).take i) with
              | false => rfl
              | true =>
                exfalso
                obtain ⟨j, hj, hjl⟩ :=
                  hasOcc_take_some (startTagsLower_ne_nil t htg) hocc
                have hij := hmin t htg j hj
                have htl := (startTagsLower_len t htg).1
                omega
          by_cases htool : tg = toolCallStartLower
          · subst htool
            rw [processAux_text_hit_tool rfl hbuf hhit] at hf
            rw [contentFrags_append] at hf
            rcases List.mem_append.mp hf with hf1 | hf2
            · exact hfirst hf1
            · exact ih _ f hf2 t htg
          · rw [processAux_text_hit_think rfl hbuf hhit htool] at hf
            rw [contentFrags_append, contentFrags_cons_thinkStart] at hf
            rcases List.mem_append.mp hf with hf1 | hf2
            · exact hfirst hf1
            · exact ih _ f hf2 t htg
      | think =>
        cases hhit : idxOf ('<' :: '/' :: (tt ++ ['>'])) (lowStr buf) with
        | none =>
          rw [processAux_think_none rfl hbuf hhit] at hf
          rw [contentFrags_emitThink] at hf
          simp at hf
        | some e =>
          rw [processAux_think_hit rfl hbuf hhit] at hf
          rw [contentFrags_append, contentFrags_emitThink,
            contentFrags_cons_thinkEnd, List.nil_append] at hf
          exact ih _ f hf t htg
      | toolCall =>
        cases hhit : idxOf toolCallEndLower (lowStr buf) with
        | none =>
          rw [processAux_tool_none rfl hbuf hhit] at hf
          simp [contentFrags] at hf
        | some e =>
          rw [processAux_tool_hit rfl hbuf hhit] at hf
          exact ih _ f hf t htg

theorem processAux_flag_quiet (fuel : Nat) : ∀ (st : PState),
    (processAux fuel st).2.2 = true →
    (processAux fuel st).2.1.mode = StreamMode.text →
    findNextTagIndex (lowStr (processAux fuel st).2.1.buffer) = none := by
  induction fuel with
  | zero =>
    intro st hflag hmode
    rw [show processAux 0 st = ([], st, st.buffer.isEmpty) from rfl] at hflag hmode ⊢
    have hb : st.buffer = [] := by
      cases hv : st.buffer with
      | nil => rfl
      | cons c cs =>
        rw [hv] at hflag
        exact Bool.noConfusion hflag
    show findNextTagIndex (lowStr st.buffer) = none
    rw [hb]
    decide
  | succ fu ih =>
    intro st hflag hmode
    obtain ⟨m, tt, buf⟩ := st
    by_cases hbuf : buf = []
    · rw [processAux_empty (by simp [hbuf])] at hflag hmode ⊢
      show findNextTagIndex (lowStr buf) = none
      rw [hbuf]
      decide
    · cases m with
      | text =>
        cases hhit : findNextTagIndex (lowStr buf) with
        | none =>
          rw [processAux_text_none rfl hbuf hhit] at hflag hmode ⊢
          show findNextTagIndex (lowStr (buf.drop (buf.length - 11))) = none
          rw [lowStr_drop]
          apply findNextTagIndex_none_of
          intro t htg
          exact idxOf_drop_none (startTagsLower_ne_nil t htg) _
            (findNextTagIndex_none hhit t htg)
        | some p =>
          obtain ⟨i, tg⟩ := p
          by_cases htool : tg = toolCallStartLower
          · subst htool
            rw [processAux_text_hit_tool rfl hbuf hhit] at hflag hmode ⊢
            exact ih _ hflag hmode
          · rw [processAux_text_hit_think rfl hbuf hhit htool] at hflag hmode ⊢
            exact ih _ hflag hmode
      | think =>
        cases hhit : idxOf ('<' :: '/' :: (tt ++ ['>'])) (lowStr buf) with
        | none =>
          rw [processAux_think_none rfl hbuf hhit] at hflag hmode ⊢
          exact StreamMode.noConfusion hmode
        | some e =>
          rw [processAux_think_hit rfl hbuf hhit] at hflag hmode ⊢
          exact ih _ hflag hmode
      | toolCall =>
        cases hhit : idxOf toolCallEndLower (lowStr buf) with
        | none =>
          rw [processAux_tool_none rfl hbuf hhit] at hflag hmode ⊢
          exact StreamMode.noConfusion hmode
        | some e =>
          rw [processAux_tool_hit rfl hbuf hhit] at hflag hmode ⊢
          exact ih _ hflag hmode

/-- The accumulator step of `runP`. -/
def stepP (acc : List PEv × PState) (c : List Char) : List PEv × PState :=
  (acc.1 ++ (pushP acc.2 c).1, (pushP acc.2 c).2.1)

theorem pushP_clean (st : PState) (c : List Char) :
    ∀ f ∈ contentFrags (pushP st c).1, ∀ t ∈ startTagsLower,
      hasOcc t (lowStr f) = false := by
  intro f hf
  unfold pushP at hf
  split at hf
  · simp [contentFrags] at hf
  · exact processAux_clean 10000 _ f hf

theorem pushP_quiet {st : PState} {c : List Char}
    (hflag : (pushP st c).2.2 = true)
    (hq : st.mode = StreamMode.text → findNextTagIndex (lowStr st.buffer) = none) :
    (pushP st c).2.1.mode = StreamMode.text →
    findNextTagIndex (lowStr (pushP st c).2.1.buffer) = none := by
  unfold pushP at hflag ⊢
  by_cases hc : c.isEmpty = true
  · rw [if_pos hc] at hflag ⊢
    exact hq
  · rw [if_neg hc] at hflag ⊢
    exact processAux_flag_quiet 10000 _ hflag

theorem foldP_clean : ∀ (chunks : List (List Char)) (evs : List PEv)
    (st : PState),
    (∀ f ∈ contentFrags evs, ∀ t ∈ startTagsLower, hasOcc t (lowStr f) = false) →
    ∀ f ∈ contentFrags (chunks.foldl stepP (evs, st)).1,
      ∀ t ∈ startTagsLower, hasOcc t (lowStr f) = false := by
  intro chunks
  induction chunks with
  | nil =>
    intro evs st hev f hf
    exact hev f hf
  | cons c cs ih =>
    intro evs st hev f hf
    rw [List.foldl_cons] at hf
    have hstep : stepP (evs, st) c =
        (evs ++ (pushP st c).1, (pushP st c).2.1) := rfl
    rw [hstep] at hf
    refine ih _ _ ?_ f hf
    intro g hg
    rw [contentFrags_append] at hg
    rcases List.mem_append.mp hg with hg1 | hg2
    · exact hev g hg1
    · exact pushP_clean st c g hg2

theorem foldP_quiet : ∀ (chunks : List (List Char)) (evs : List PEv)
    (st : PState),
    runNormal st chunks = true →
    (st.mode = StreamMode.text → findNextTagIndex (lowStr st.buffer) = none) →
    ((chunks.foldl stepP (evs, st)).2.mode = StreamMode.text →
      findNextTagIndex (lowStr (chunks.foldl stepP (evs, st)).2.buffer) = none) := by
  intro chunks
  induction chunks with
  | nil =>
    intro evs st _ hq
    exact hq
  | cons c cs ih =>
    intro evs st hnorm hq
    simp only [runNormal] at hnorm
    rw [Bool.and_eq_true] at hnorm
    rw [List.foldl_cons]
    have hstep : stepP (evs, st) c =
        (evs ++ (pushP st c).1, (pushP st c).2.1) := rfl
    rw [hstep]
    exact ih _ _ hnorm.2 (pushP_quiet hnorm.1 hq)

theorem flushP_clean {st : PState}
    (hq : st.mode = StreamMode.text → findNextTagIndex (lowStr st.buffer) = none) :
    ∀ f ∈ contentFrags (flushP st).1, ∀ t ∈ startTagsLower,
      hasOcc t (lowStr f) = false := by
  intro f hf t htg
  unfold flushP at hf
  split at hf
  · simp [contentFrags] at hf
  · cases hm : st.mode with
    | text =>
      rw [hm] at hf
      rw [contentFrags_emitText] at hf
      split at hf
      · simp at hf
      · have hfe : f = st.buffer := by simpa using hf
        subst hfe
        unfold hasOcc
        rw [findNextTagIndex_none (hq hm) t htg]
        rfl
    | think =>
      rw [hm, contentFrags_emitThink] at hf
      simp at hf
    | toolCall =>
      rw [hm] at hf
      simp [contentFrags] at hf

/-- C2 (counterexample): pushing `x</tool_call>y...` (a stray end marker
with no preceding start marker) makes the parser emit the content
fragment `x</tool_call>y`, which contains the tool-call end markup
`</tool_call>` verbatim. -/
theorem c2_counterexample :
    contentFrags (runP [str "x</tool_call>yyyyyyyyyyyy"]).1 =
      [str "x</tool_call>y", str "yyyyyyyyyyy"] ∧
    hasOcc TOOL_CALL_END_TAG (str "x</tool_call>y") = true := by decide

/-- C2 (amended): under any chunking for which no push exhausts the
safety counter, no fragment emitted on the content channel contains any
recognized start marker (case-insensitively) — in particular the
tool-call start marker `<tool_call>` never appears in content, so no
tool-call region is ever opened inside an emitted content fragment.
Stray end markers, however, can appear (see the counterexample). -/
theorem c2_amended (chunks : List (List Char))
    (hnorm : runNormal parserInit chunks = true) :
    ∀ f ∈ contentFrags (runP chunks).1, ∀ t ∈ startTagsLower,
      hasOcc t (lowStr f) = false := by
  intro f hf t htg
  have hrun : (runP chunks).1 =
      (chunks.foldl stepP ([], parserInit)).1 ++
      (flushP (chunks.foldl stepP ([], parserInit)).2).1 := rfl
  rw [hrun, contentFrags_append] at hf
  have hquiet := foldP_quiet chunks [] parserInit hnorm (fun _ => by decide)
  rcases List.mem_append.mp hf with hf1 | hf2
  · refine foldP_clean chunks [] parserInit ?_ f hf1 t htg
    intro g hg
    simp [contentFrags] at hg
  · exact flushP_clean hquiet f hf2 t htg

theorem c2_amended_witness :
    hasOcc toolCallStartLower (lowStr (str "hello")) = false :=
  c2_amended [str "hello"] (by decide) (str "hello") (by decide)
    toolCallStartLower (by decide)

theorem isPre_drop {p s : List Char} (h : isPre p s = true) :
    ∀ m : Nat, isPre (p.drop m) (s.drop m) = true := by
  intro m
  induction m generalizing p s with
  | zero => simpa using h
  | succ m ih =>
    cases p with
    | nil => cases s <;> simp [isPre]
    | cons a p =>
      cases s with
      | nil => simp [isPre] at h
      | cons c cs =>
        simp only [isPre, Bool.and_eq_true] at h
        simpa using ih h.2

theorem isPre_trans {a b c : List Char} (h1 : isPre a b = true)
    (h2 : isPre b c = true) : isPre a c = true := by
  induction a generalizing b c with
  | nil => simp [isPre]
  | cons x a ih =>
    cases b with
    | nil => simp [isPre] at h1
    | cons y b =>
      cases c with
      | nil => simp [isPre] at h2
      | cons z c =>
        simp only [isPre, Bool.and_eq_true, beq_iff_eq] at h1 h2 ⊢
        exact ⟨h1.1.trans h2.1, ih h1.2 h2.2⟩

theorem isPre_isPre {a b s : List Char} (ha : isPre a s = true)
    (hb : isPre b s = true) (hl : a.length ≤ b.length) : isPre a b = true := by
  induction a generalizing b s with
  | nil => simp [isPre]
  | cons x a ih =>
    cases b with
    | nil => simp at hl
    | cons y b =>
      cases s with
      | nil => simp [isPre] at ha
      | cons c cs =>
        simp only [isPre, Bool.and_eq_true, beq_iff_eq] at ha hb ⊢
        refine ⟨ha.1.trans hb.1.symm, ?_⟩
        exact ih ha.2 hb.2 (by simpa using hl)

theorem startTags_noPre : ∀ t1 ∈ startTagsLower, ∀ t2 ∈ startTagsLower,
    isPre t1 t2 = true → t1 = t2 := by decide

theorem startTags_head : ∀ t ∈ startTagsLower, isPre ['<'] t = true := by decide

theorem startTags_tailLt : ∀ t ∈ startTagsLower,
    (t.drop 1).all (fun c => !(c == '<')) = true := by decide

theorem idxOf_shift {t A : List Char} {k i : Nat} (ht : t ≠ [])
    (hki : k ≤ i) (h : idxOf t A = some i) :
    idxOf t (A.drop k) = some (i - k) := by
  apply idxOf_eq_some_of ht
  · rw [List.drop_drop]
    have he : k + (i - k) = i := by omega
    rw [he]
    exact idxOf_some_isPre h
  · intro j hj
    rw [List.drop_drop]
    exact idxOf_some_min h (by omega)

theorem findNextTagIndex_eq_some {lb : List Char} {i : Nat} {tg : List Char}
    (h1 : tg ∈ startTagsLower) (h2 : idxOf tg lb = some i)
    (h3 : ∀ t' ∈ startTagsLower, ∀ j, idxOf t' lb = some j → i ≤ j) :
    findNextTagIndex lb = some (i, tg) := by
  cases hfn : findNextTagIndex lb with
  | none =>
    rw [findNextTagIndex_none hfn tg h1] at h2
    exact Option.noConfusion h2
  | some p =>
    obtain ⟨j', t'⟩ := p
    obtain ⟨ht', hidx', hmin'⟩ := findNextTagIndex_some hfn
    have hij : i = j' := le_antisymm (h3 t' ht' j' hidx') (hmin' tg h1 i h2)
    subst hij
    have hp1 := idxOf_some_isPre h2
    have hp2 := idxOf_some_isPre hidx'
    rcases le_or_lt tg.length t'.length with hle | hlt
    · rw [startTags_noPre tg h1 t' ht' (isPre_isPre hp1 hp2 hle)]
    · rw [startTags_noPre t' ht' tg h1 (isPre_isPre hp2 hp1 (by omega))]

theorem findNextTagIndex_append {buf rest : List Char} {i : Nat}
    {tg : List Char}
    (h : findNextTagIndex (lowStr buf) = some (i, tg)) :
    findNextTagIndex (lowStr (buf ++ rest)) = some (i, tg) := by
  obtain ⟨htg, hidx, hmin⟩ := findNextTagIndex_some h
  have htne := startTagsLower_ne_nil tg htg
  have hilen := idxOf_some_length hidx
  rw [lowStr_length] at hilen
  have htgl := (startTagsLower_len tg htg).1
  apply findNextTagIndex_eq_some htg
  · rw [lowStr_append]
    exact idxOf_append_right _ htne hidx
  · intro t' ht' j hj
    by_contra hc
    push_neg at hc
    have hpj := idxOf_some_isPre hj
    have htne' := startTagsLower_ne_nil t' ht'
    have ht'l := (startTagsLower_len t' ht').1
    have ht'u := (startTagsLower_len t' ht').2
    by_cases hcase : j + t'.length ≤ buf.length
    · have hpre_in : isPre t' ((lowStr buf).drop j) = true := by
        rw [lowStr_append,
          List.drop_append_of_le_length (by rw [lowStr_length]; omega)] at hpj
        exact isPre_of_append_le hpj (by rw [List.length_drop, lowStr_length]; omega)
      obtain ⟨i', hi', hij'⟩ := idxOf_of_isPre hpre_in htne'
      have := hmin t' ht' i' hi'
      omega
    · push_neg at hcase
      have hdrop := isPre_drop hpj (i - j)
      rw [List.drop_drop] at hdrop
      have hijj : i - j + j = i := by omega
      rw [Nat.add_comm] at hdrop
      rw [hijj] at hdrop
      have hpre_tg : isPre tg ((lowStr buf).drop i) = true := idxOf_some_isPre hidx
      have hheadtg : isPre ['<'] tg = true := startTags_head tg htg
      have hhead_ext : isPre ['<'] ((lowStr (buf ++ rest)).drop i) = true := by
        rw [lowStr_append,
          List.drop_append_of_le_length (by rw [lowStr_length]; omega)]
        exact isPre_trans hheadtg (isPre_append _ hpre_tg)
      have hne2 : 1 ≤ (t'.drop (i - j)).length := by
        rw [List.length_drop]
        omega
      have hlt2 : isPre ['<'] (t'.drop (i - j)) = true :=
        isPre_isPre hhead_ext hdrop hne2
      cases hd : t'.drop (i - j) with
      | nil =>
        rw [hd] at hne2
        simp at hne2
      | cons c cs =>
        have hc_eq : '<' = c := by
          rw [hd] at hlt2
          simp only [isPre, Bool.and_eq_true, beq_iff_eq] at hlt2
          exact hlt2.1
        have hcm : c ∈ t'.drop (i - j) := by
          rw [hd]
          exact List.mem_cons_self c cs
        have hmem : c ∈ t'.drop 1 := by
          have hsplit : t'.drop (i - j) = (t'.drop 1).drop (i - j - 1) := by
            rw [List.drop_drop]
            congr 1
            omega
          rw [hsplit] at hcm
          exact List.mem_of_mem_drop hcm
        have hall := startTags_tailLt t' ht'
        rw [List.all_eq_true] at hall
        have hfc := hall c hmem
        rw [← hc_eq] at hfc
        simp at hfc

/-- Canonical single-pass denotation of the stream-parser's intended
behaviour, written against the specification of the parse (content
outside markers; thinking between a think-start tag and its matching
end tag; tool-call regions and their markers dropped).  This is the
specification-side reference for the chunking-refinement claim; the
fuel argument (always called with `length + 1`) only drives the
recursion. -/
def charDenA : Nat → StreamMode → List Char → List Char → List Char × List Char
  | 0, _, _, _ => ([], [])
  | fuel + 1, mode, tt, s =>
    if s.isEmpty then ([], [])
    else
      match mode with
      | StreamMode.text =>
        match findNextTagIndex (lowStr s) with
        | none => (s, [])
        | some (i, tg) =>
          if tg == toolCallStartLower then
            let r := charDenA fuel StreamMode.toolCall tt ((s.drop i).drop 11)
            (s.take i ++ r.1, r.2)
          else
            let r := charDenA fuel StreamMode.think ((tg.drop 1).dropLast)
              ((s.drop i).drop tg.length)
            (s.take i ++ r.1, r.2)
      | StreamMode.think =>
        match idxOf ('<' :: '/' :: (tt ++ ['>'])) (lowStr s) with
        | none => ([], s)
        | some e =>
          let r := charDenA fuel StreamMode.text [] (s.drop (e + (tt.length + 3)))
          (r.1, s.take e ++ r.2)
      | StreamMode.toolCall =>
        match idxOf toolCallEndLower (lowStr s) with
        | none => ([], [])
        | some e => charDenA fuel StreamMode.text tt (s.drop (e + 12))

/-- The canonical denotation, with enough fuel to consume the input. -/
def charDen (mode : StreamMode) (tt s : List Char) : List Char × List Char :=
  charDenA (s.length + 1) mode tt s

theorem charDenA_congr : ∀ (f g : Nat) (mode : StreamMode) (tt s : List Char),
    s.length < f → s.length < g →
    charDenA f mode tt s = charDenA g mode tt s := by
  intro f
  induction f with
  | zero =>
    intro g mode tt s hf
    omega
  | succ f ih =>
    intro g mode tt s hf hg
    cases g with
    | zero => omega
    | succ g =>
      by_cases hs : s.isEmpty = true
      · simp only [charDenA]
        rw [if_pos hs, if_pos hs]
      · have hslen : 1 ≤ s.length := by
          cases s with
          | nil => exact absurd rfl hs
          | cons c cs => simp
        simp only [charDenA]
        rw [if_neg hs, if_neg hs]
        cases mode with
        | text =>
          cases hhit : findNextTagIndex (lowStr s) with
          | none => rfl
          | some p =>
            obtain ⟨i, tg⟩ := p
            have htgm := (findNextTagIndex_some hhit).1
            have htgl := (startTagsLower_len tg htgm).1
            have hil := idxOf_some_length (findNextTagIndex_some hhit).2.1
            rw [lowStr_length] at hil
            dsimp only
            by_cases htool : (tg == toolCallStartLower) = true
            · rw [if_pos htool, if_pos htool]
              have hlen1 : ((s.drop i).drop 11).length < f := by
                simp only [List.length_drop]
                omega
              have hlen2 : ((s.drop i).drop 11).length < g := by
                simp only [List.length_drop]
                omega
              rw [ih g StreamMode.toolCall tt _ hlen1 hlen2]
            · rw [if_neg htool, if_neg htool]
              have hlen1 : ((s.drop i).drop tg.length).length < f := by
                simp only [List.length_drop]
                omega
              have hlen2 : ((s.drop i).drop tg.length).length < g := by
                simp only [List.length_drop]
                omega
              rw [ih g StreamMode.think _ _ hlen1 hlen2]
        | think =>
          cases hhit : idxOf ('<' :: '/' :: (tt ++ ['>'])) (lowStr s) with
          | none => rfl
          | some e =>
            have hel := idxOf_some_length hhit
            rw [lowStr_length] at hel
            simp only [List.length_append, List.length_cons] at hel
            dsimp only
            have hlen1 : (s.drop (e + (tt.length + 3))).length < f := by
              simp only [List.length_drop]
              omega
            have hlen2 : (s.drop (e + (tt.length + 3))).length < g := by
              simp only [List.length_drop]
              omega
            rw [ih g StreamMode.text _ _ hlen1 hlen2]
        | toolCall =>
          cases hhit : idxOf toolCallEndLower (lowStr s) with
          | none => rfl
          | some e =>
            have hel := idxOf_some_length hhit
            rw [lowStr_length] at hel
            dsimp only
            have hlen1 : (s.drop (e + 12)).length < f := by
              simp only [List.length_drop]
              omega
            have hlen2 : (s.drop (e + 12)).length < g := by
              simp only [List.length_drop]
              omega
            rw [ih g StreamMode.text _ _ hlen1 hlen2]

theorem charDen_empty (mode : StreamMode) (tt : List Char) :
    charDen mode tt [] = ([], []) := rfl

theorem charDen_text_none {s tt : List Char}
    (hnone : findNextTagIndex (lowStr s) = none) :
    charDen StreamMode.text tt s = (s, []) := by
  cases s with
  | nil => rfl
  | cons c cs =>
    unfold charDen
    simp only [charDenA]
    rw [if_neg (by simp)]
    rw [hnone]

theorem charDen_text_hit_tool {s tt : List Char} {i : Nat}
    (hhit : findNextTagIndex (lowStr s) = some (i, toolCallStartLower)) :
    charDen StreamMode.text tt s =
      (s.take i ++ (charDen StreamMode.toolCall tt ((s.drop i).drop 11)).1,
       (charDen StreamMode.toolCall tt ((s.drop i).drop 11)).2) := by
  have hs : s ≠ [] := by
    intro h
    subst h
    rw [show findNextTagIndex (lowStr []) = none from rfl] at hhit
    exact Option.noConfusion hhit
  have hsl : 1 ≤ s.length := by
    cases s with
    | nil => exact absurd rfl hs
    | cons c cs => simp
  unfold charDen
  simp only [charDenA]
  rw [if_neg (by cases s with | nil => exact absurd rfl hs | cons c cs => simp)]
  rw [hhit]
  dsimp only
  rw [if_pos (by simp)]
  rw [charDenA_congr s.length (((s.drop i).drop 11).length + 1)
    StreamMode.toolCall tt _ (by simp only [List.length_drop]; omega) (by omega)]
  simp only [charDenA]

theorem charDen_text_hit_think {s tt tg : List Char} {i : Nat}
    (hhit : findNextTagIndex (lowStr s) = some (i, tg))
    (htool : tg ≠ toolCallStartLower) :
    charDen StreamMode.text tt s =
      (s.take i ++ (charDen StreamMode.think ((tg.drop 1).dropLast)
          ((s.drop i).drop tg.length)).1,
       (charDen StreamMode.think ((tg.drop 1).dropLast)
          ((s.drop i).drop tg.length)).2) := by
  have hs : s ≠ [] := by
    intro h
    subst h
    rw [show findNextTagIndex (lowStr []) = none from rfl] at hhit
    exact Option.noConfusion hhit
  have hsl : 1 ≤ s.length := by
    cases s with
    | nil => exact absurd rfl hs
    | cons c cs => simp
  have htgl := (startTagsLower_len tg (findNextTagIndex_some hhit).1).1
  unfold charDen
  simp only [charDenA]
  rw [if_neg (by cases s with | nil => exact absurd rfl hs | cons c cs => simp)]
  rw [hhit]
  dsimp only
  rw [if_neg (by simp [htool])]
  rw [charDenA_congr s.length (((s.drop i).drop tg.length).length + 1)
    StreamMode.think _ _ (by simp only [List.length_drop]; omega) (by omega)]
  simp only [charDenA]

theorem charDen_think_none {s tt : List Char}
    (hnone : idxOf ('<' :: '/' :: (tt ++ ['>'])) (lowStr s) = none) :
    charDen StreamMode.think tt s = ([], s) := by
  cases s with
  | nil => rfl
  | cons c cs =>
    unfold charDen
    simp only [charDenA]
    rw [if_neg (by simp)]
    rw [hnone]

theorem charDen_think_hit {s tt : List Char} {e : Nat}
    (hhit : idxOf ('<' :: '/' :: (tt ++ ['>'])) (lowStr s) = some e) :
    charDen StreamMode.think tt s =
      ((charDen StreamMode.text [] (s.drop (e + (tt.length + 3)))).1,
       s.take e ++ (charDen StreamMode.text [] (s.drop (e + (tt.length + 3)))).2) := by
  have hs : s ≠ [] := by
    intro h
    subst h
    rw [show idxOf ('<' :: '/' :: (tt ++ ['>'])) (lowStr []) = none from rfl] at hhit
    exact Option.noConfusion hhit
  have hsl : 1 ≤ s.length := by
    cases s with
    | nil => exact absurd rfl hs
    | cons c cs => simp
  unfold charDen
  simp only [charDenA]
  rw [if_neg (by cases s with | nil => exact absurd rfl hs | cons c cs => simp)]
  rw [hhit]
  dsimp only
  rw [charDenA_congr s.length ((s.drop (e + (tt.length + 3))).length + 1)
    StreamMode.text _ _ (by simp only [List.length_drop]; omega) (by omega)]
  simp only [charDenA]

theorem charDen_tool_none {s tt : List Char}
    (hnone : idxOf toolCallEndLower (lowStr s) = none) :
    charDen StreamMode.toolCall tt s = ([], []) := by
  cases s with
  | nil => rfl
  | cons c cs =>
    unfold charDen
    simp only [charDenA]
    rw [if_neg (by simp)]
    rw [hnone]

theorem charDen_tool_hit {s tt : List Char} {e : Nat}
    (hhit : idxOf toolCallEndLower (lowStr s) = some e) :
    charDen StreamMode.toolCall tt s = charDen StreamMode.text tt (s.drop (e + 12)) := by
  have hs : s ≠ [] := by
    intro h
    subst h
    rw [show idxOf toolCallEndLower (lowStr []) = none from rfl] at hhit
    exact Option.noConfusion hhit
  have hsl : 1 ≤ s.length := by
    cases s with
    | nil => exact absurd rfl hs
    | cons c cs => simp
  unfold charDen
  simp only [charDenA]
  rw [if_neg (by cases s with | nil => exact absurd rfl hs | cons c cs => simp)]
  rw [hhit]
  dsimp only
  rw [charDenA_congr s.length ((s.drop (e + 12)).length + 1)
    StreamMode.text _ _ (by simp only [List.length_drop]; omega) (by omega)]
  simp only [charDenA]

theorem charDen_text_drop {buf rest tt : List Char}
    (hnone : findNextTagIndex (lowStr buf) = none) :
    charDen StreamMode.text tt (buf ++ rest) =
      (buf.take (buf.length - 11) ++
        (charDen StreamMode.text tt (buf.drop (buf.length - 11) ++ rest)).1,
       (charDen StreamMode.text tt (buf.drop (buf.length - 11) ++ rest)).2) := by
  set k := buf.length - 11 with hkdef
  have hk : k ≤ buf.length := by omega
  have hbase : buf.drop k ++ rest = (buf ++ rest).drop k := by
    rw [List.drop_append_of_le_length hk]
  have hlowEq : lowStr (buf.drop k ++ rest) = (lowStr (buf ++ rest)).drop k := by
    rw [lowStr_append, lowStr_drop, lowStr_append,
      List.drop_append_of_le_length (by rw [lowStr_length]; exact hk)]
  have hstrad : ∀ t ∈ startTagsLower, ∀ j,
      idxOf t (lowStr (buf ++ rest)) = some j → k ≤ j := by
    intro t htg j hj
    by_contra hc
    push_neg at hc
    have htl := (startTagsLower_len t htg).2
    have hjb : j + t.length ≤ buf.length := by omega
    have hpre := idxOf_some_isPre hj
    rw [lowStr_append,
      List.drop_append_of_le_length (by rw [lowStr_length]; omega)] at hpre
    have hpre2 : isPre t ((lowStr buf).drop j) = true :=
      isPre_of_append_le hpre (by rw [List.length_drop, lowStr_length]; omega)
    obtain ⟨i', hi', _⟩ := idxOf_of_isPre hpre2 (startTagsLower_ne_nil t htg)
    rw [findNextTagIndex_none hnone t htg] at hi'
    exact Option.noConfusion hi'
  cases hhit : findNextTagIndex (lowStr (buf ++ rest)) with
  | none =>
    have hsub : findNextTagIndex (lowStr (buf.drop k ++ rest)) = none := by
      rw [hlowEq]
      apply findNextTagIndex_none_of
      intro t htg
      exact idxOf_drop_none (startTagsLower_ne_nil t htg) k
        (findNextTagIndex_none hhit t htg)
    rw [charDen_text_none hhit, charDen_text_none hsub]
    rw [← List.append_assoc, List.take_append_drop]
  | some p =>
    obtain ⟨i, tg⟩ := p
    obtain ⟨htgm, hidx, hmin⟩ := findNextTagIndex_some hhit
    have hki : k ≤ i := hstrad tg htgm i hidx
    have hsub : findNextTagIndex (lowStr (buf.drop k ++ rest)) = some (i - k, tg) := by
      rw [hlowEq]
      apply findNextTagIndex_eq_some htgm
      · exact idxOf_shift (startTagsLower_ne_nil tg htgm) hki hidx
      · intro t' ht' j hj
        have hpre := idxOf_some_isPre hj
        rw [List.drop_drop] at hpre
        obtain ⟨i', hi', hii⟩ := idxOf_of_isPre hpre (startTagsLower_ne_nil t' ht')
        have := hmin t' ht' i' hi'
        omega
    have hcont : (buf.drop k ++ rest).drop (i - k) = (buf ++ rest).drop i := by
      rw [hbase, List.drop_drop]
      congr 1
      omega
    have htake2 : (buf ++ rest).take i =
        buf.take k ++ (buf.drop k ++ rest).take (i - k) := by
      rw [hbase]
      have hik : i = k + (i - k) := by omega
      conv_lhs => rw [hik]
      rw [List.take_add]
      congr 1
      rw [List.take_append_of_le_length hk]
    by_cases htool : tg = toolCallStartLower
    · subst htool
      rw [charDen_text_hit_tool hhit, charDen_text_hit_tool hsub]
      rw [hcont, htake2, List.append_assoc]
    · rw [charDen_text_hit_think hhit htool, charDen_text_hit_think hsub htool]
      rw [hcont, htake2, List.append_assoc]

theorem charDen_think_drop {buf rest tt : List Char}
    (hnone : idxOf ('<' :: '/' :: (tt ++ ['>'])) (lowStr buf) = none) :
    charDen StreamMode.think tt (buf ++ rest) =
      ((charDen StreamMode.think tt
          (buf.drop (buf.length - (tt.length + 2)) ++ rest)).1,
       buf.take (buf.length - (tt.length + 2)) ++
        (charDen StreamMode.think tt
          (buf.drop (buf.length - (tt.length + 2)) ++ rest)).2) := by
  set pat : List Char := '<' :: '/' :: (tt ++ ['>']) with hpat
  have hpne : pat ≠ [] := by simp [hpat]
  have hplen : pat.length = tt.length + 3 := by simp [hpat]
  set k := buf.length - (tt.length + 2) with hkdef
  have hk : k ≤ buf.length := by omega
  have hbase : buf.drop k ++ rest = (buf ++ rest).drop k := by
    rw [List.drop_append_of_le_length hk]
  have hlowEq : lowStr (buf.drop k ++ rest) = (lowStr (buf ++ rest)).drop k := by
    rw [lowStr_append, lowStr_drop, lowStr_append,
      List.drop_append_of_le_length (by rw [lowStr_length]; exact hk)]
  have hstrad : ∀ j, idxOf pat (lowStr (buf ++ rest)) = some j → k ≤ j := by
    intro j hj
    by_contra hc
    push_neg at hc
    have hjb : j + pat.length ≤ buf.length := by omega
    have hpre := idxOf_some_isPre hj
    rw [lowStr_append,
      List.drop_append_of_le_length (by rw [lowStr_length]; omega)] at hpre
    have hpre2 : isPre pat ((lowStr buf).drop j) = true :=
      isPre_of_append_le hpre (by rw [List.length_drop, lowStr_length]; omega)
    obtain ⟨i', hi', _⟩ := idxOf_of_isPre hpre2 hpne
    rw [hnone] at hi'
    exact Option.noConfusion hi'
  cases hhit : idxOf pat (lowStr (buf ++ rest)) with
  | none =>
    have hsub : idxOf pat (lowStr (buf.drop k ++ rest)) = none := by
      rw [hlowEq]
      exact idxOf_drop_none hpne k hhit
    rw [charDen_think_none hhit, charDen_think_none hsub]
    rw [← List.append_assoc, List.take_append_drop]
  | some e =>
    have hke : k ≤ e := hstrad e hhit
    have hsub : idxOf pat (lowStr (buf.drop k ++ rest)) = some (e - k) := by
      rw [hlowEq]
      exact idxOf_shift hpne hke hhit
    have hcont : (buf.drop k ++ rest).drop ((e - k) + (tt.length + 3)) =
        (buf ++ rest).drop (e + (tt.length + 3)) := by
      rw [hbase, List.drop_drop]
      congr 1
      omega
    have htake2 : (buf ++ rest).take e =
        buf.take k ++ (buf.drop k ++ rest).take (e - k) := by
      rw [hbase]
      have hik : e = k + (e - k) := by omega
      conv_lhs => rw [hik]
      rw [List.take_add]
      congr 1
      rw [List.take_append_of_le_length hk]
    rw [charDen_think_hit hhit, charDen_think_hit hsub]
    rw [hcont, htake2, List.append_assoc]

theorem charDen_tool_drop {buf rest tt : List Char}
    (hnone : idxOf toolCallEndLower (lowStr buf) = none) :
    charDen StreamMode.toolCall tt (buf ++ rest) =
      charDen StreamMode.toolCall tt (buf.drop (buf.length - 11) ++ rest) := by
  have hpne : toolCallEndLower ≠ [] := by decide
  have hplen : toolCallEndLower.length = 12 := by decide
  set k := buf.length - 11 with hkdef
  have hk : k ≤ buf.length := by omega
  have hbase : buf.drop k ++ rest = (buf ++ rest).drop k := by
    rw [List.drop_append_of_le_length hk]
  have hlowEq : lowStr (buf.drop k ++ rest) = (lowStr (buf ++ rest)).drop k := by
    rw [lowStr_append, lowStr_drop, lowStr_append,
      List.drop_append_of_le_length (by rw [lowStr_length]; exact hk)]
  have hstrad : ∀ j, idxOf toolCallEndLower (lowStr (buf ++ rest)) = some j → k ≤ j := by
    intro j hj
    by_contra hc
    push_neg at hc
    have hjb : j + toolCallEndLower.length ≤ buf.length := by omega
    have hpre := idxOf_some_isPre hj
    rw [lowStr_append,
      List.drop_append_of_le_length (by rw [lowStr_length]; omega)] at hpre
    have hpre2 : isPre toolCallEndLower ((lowStr buf).drop j) = true :=
      isPre_of_append_le hpre (by rw [List.length_drop, lowStr_length]; omega)
    obtain ⟨i', hi', _⟩ := idxOf_of_isPre hpre2 hpne
    rw [hnone] at hi'
    exact Option.noConfusion hi'
  cases hhit : idxOf toolCallEndLower (lowStr (buf ++ rest)) with
  | none =>
    have hsub : idxOf toolCallEndLower (lowStr (buf.drop k ++ rest)) = none := by
      rw [hlowEq]
      exact idxOf_drop_none hpne k hhit
    rw [charDen_tool_none hhit, charDen_tool_none hsub]
  | some e =>
    have hke : k ≤ e := hstrad e hhit
    have hsub : idxOf toolCallEndLower (lowStr (buf.drop k ++ rest)) = some (e - k) := by
      rw [hlowEq]
      exact idxOf_shift hpne hke hhit
    have hcont : (buf.drop k ++ rest).drop ((e - k) + 12) =
        (buf ++ rest).drop (e + 12) := by
      rw [hbase, List.drop_drop]
      congr 1
      omega
    rw [charDen_tool_hit hhit, charDen_tool_hit hsub]
    rw [hcont]

theorem contentConcat_append (a b : List PEv) :
    contentConcat (a ++ b) = contentConcat a ++ contentConcat b := by
  simp [contentConcat, contentFrags]

theorem thinkConcat_append (a b : List PEv) :
    thinkConcat (a ++ b) = thinkConcat a ++ thinkConcat b := by
  simp [thinkConcat, thinkFrags]

theorem contentConcat_emitText (s : List Char) :
    contentConcat (emitTextEv s) = s := by
  unfold contentConcat
  rw [contentFrags_emitText]
  split
  · rename_i h
    cases s with
    | nil => rfl
    | cons c cs => exact Bool.noConfusion h
  · simp

theorem thinkConcat_emitText (s : List Char) :
    thinkConcat (emitTextEv s) = [] := by
  unfold thinkConcat thinkFrags emitTextEv
  split <;> simp

theorem contentConcat_emitThink (tg s : List Char) :
    contentConcat (emitThinkEv tg s) = [] := by
  unfold contentConcat
  rw [contentFrags_emitThink]
  rfl

theorem thinkConcat_emitThink (tg s : List Char) :
    thinkConcat (emitThinkEv tg s) = s := by
  unfold thinkConcat thinkFrags emitThinkEv
  split
  · rename_i h
    cases s with
    | nil => rfl
    | cons c cs => exact Bool.noConfusion h
  · simp

theorem contentConcat_cons_thinkStart (tg : List Char) (l : List PEv) :
    contentConcat (PEv.thinkStart tg :: l) = contentConcat l := by
  unfold contentConcat
  rw [contentFrags_cons_thinkStart]

theorem contentConcat_cons_thinkEnd (tg : List Char) (l : List PEv) :
    contentConcat (PEv.thinkEnd tg :: l) = contentConcat l := by
  unfold contentConcat
  rw [contentFrags_cons_thinkEnd]

theorem thinkConcat_cons_thinkStart (tg : List Char) (l : List PEv) :
    thinkConcat (PEv.thinkStart tg :: l) = thinkConcat l := by
  simp [thinkConcat, thinkFrags, List.filterMap_cons]

theorem thinkConcat_cons_thinkEnd (tg : List Char) (l : List PEv) :
    thinkConcat (PEv.thinkEnd tg :: l) = thinkConcat l := by
  simp [thinkConcat, thinkFrags, List.filterMap_cons]

theorem processAux_den (fuel : Nat) : ∀ (st : PState) (rest : List Char),
    (processAux fuel st).2.2 = true →
    (contentConcat (processAux fuel st).1 ++
       (charDen (processAux fuel st).2.1.mode (processAux fuel st).2.1.thinkTag
         ((processAux fuel st).2.1.buffer ++ rest)).1,
     thinkConcat (processAux fuel st).1 ++
       (charDen (processAux fuel st).2.1.mode (processAux fuel st).2.1.thinkTag
         ((processAux fuel st).2.1.buffer ++ rest)).2)
      = charDen st.mode st.thinkTag (st.buffer ++ rest) := by
  induction fuel with
  | zero =>
    intro st rest hflag
    rfl
  | succ fu ih =>
    intro st rest hflag
    obtain ⟨m, tt, buf⟩ := st
    by_cases hbuf : buf = []
    · rw [processAux_empty (show (⟨m, tt, buf⟩ : PState).buffer = [] from hbuf)]
        at hflag ⊢
      rfl
    · cases m with
      | text =>
        cases hhit : findNextTagIndex (lowStr buf) with
        | none =>
          rw [processAux_text_none rfl hbuf hhit] at hflag ⊢
          rw [contentConcat_emitText, thinkConcat_emitText, List.nil_append]
          rw [charDen_text_drop hhit]
        | some p =>
          obtain ⟨i, tg⟩ := p
          have hchar := findNextTagIndex_some hhit
          have hext : findNextTagIndex (lowStr (buf ++ rest)) = some (i, tg) :=
            findNextTagIndex_append hhit
          have hil := idxOf_some_length hchar.2.1
          rw [lowStr_length] at hil
          by_cases htool : tg = toolCallStartLower
          · subst htool
            rw [processAux_text_hit_tool rfl hbuf hhit] at hflag ⊢
            have h11 : i + 11 ≤ buf.length := by
              have : toolCallStartLower.length = 11 := by decide
              omega
            have htake : (buf ++ rest).take i = buf.take i :=
              List.take_append_of_le_length (by omega)
            have hdrop : ((buf ++ rest).drop i).drop 11 =
                (buf.drop i).drop 11 ++ rest := by
              rw [List.drop_append_of_le_length (by omega),
                List.drop_append_of_le_length (by rw [List.length_drop]; omega)]
            have hih := ih ⟨StreamMode.toolCall, tt, (buf.drop i).drop 11⟩ rest hflag
            rw [contentConcat_append, thinkConcat_append, contentConcat_emitText,
              thinkConcat_emitText, List.nil_append, List.append_assoc]
            rw [charDen_text_hit_tool hext, htake, hdrop, ← hih]
          · rw [processAux_text_hit_think rfl hbuf hhit htool] at hflag ⊢
            have htgl := (startTagsLower_len tg hchar.1).1
            have htake : (buf ++ rest).take i = buf.take i :=
              List.take_append_of_le_length (by omega)
            have hdrop : ((buf ++ rest).drop i).drop tg.length =
                (buf.drop i).drop tg.length ++ rest := by
              rw [List.drop_append_of_le_length (by omega),
                List.drop_append_of_le_length (by rw [List.length_drop]; omega)]
            have hih := ih ⟨StreamMode.think, (tg.drop 1).dropLast,
              (buf.drop i).drop tg.length⟩ rest hflag
            rw [contentConcat_append, thinkConcat_append, contentConcat_emitText,
              thinkConcat_emitText, List.nil_append,
              contentConcat_cons_thinkStart, thinkConcat_cons_thinkStart,
              List.append_assoc]
            rw [charDen_text_hit_think hext htool, htake, hdrop, ← hih]
      | think =>
        cases hhit : idxOf ('<' :: '/' :: (tt ++ ['>'])) (lowStr buf) with
        | none =>
          rw [processAux_think_none rfl hbuf hhit] at hflag ⊢
          rw [contentConcat_emitThink, thinkConcat_emitThink, List.nil_append]
          rw [charDen_think_drop hhit]
        | some e =>
          rw [processAux_think_hit rfl hbuf hhit] at hflag ⊢
          have hext : idxOf ('<' :: '/' :: (tt ++ ['>'])) (lowStr (buf ++ rest)) =
              some e := by
            rw [lowStr_append]
            exact idxOf_append_right _ (by simp) hhit
          have hel := idxOf_some_length hhit
          rw [lowStr_length, endTagLen] at hel
          have htake : (buf ++ rest).take e = buf.take e :=
            List.take_append_of_le_length (by omega)
          have hdrop : (buf ++ rest).drop (e + (tt.length + 3)) =
              buf.drop (e + (tt.length + 3)) ++ rest :=
            List.drop_append_of_le_length (by omega)
          have hih := ih ⟨StreamMode.text, [],
            buf.drop (e + (tt.length + 3))⟩ rest hflag
          rw [contentConcat_append, thinkConcat_append, contentConcat_emitThink,
            thinkConcat_emitThink, List.nil_append,
            contentConcat_cons_thinkEnd, thinkConcat_cons_thinkEnd,
            List.append_assoc]
          rw [charDen_think_hit hext, htake, hdrop, ← hih]
      | toolCall =>
        cases hhit : idxOf toolCallEndLower (lowStr buf) with
        | none =>
          rw [processAux_tool_none rfl hbuf hhit] at hflag ⊢
          have h1 : contentConcat ([] : List PEv) = [] := rfl
          have h2 : thinkConcat ([] : List PEv) = [] := rfl
          rw [h1, h2, List.nil_append, List.nil_append]
          rw [charDen_tool_drop hhit]
        | some e =>
          rw [processAux_tool_hit rfl hbuf hhit] at hflag ⊢
          have hext : idxOf toolCallEndLower (lowStr (buf ++ rest)) = some e := by
            rw [lowStr_append]
            exact idxOf_append_right _ (by decide) hhit
          have hel := idxOf_some_length hhit
          rw [lowStr_length] at hel
          have h12 : toolCallEndLower.length = 12 := by decide
          have hdrop : (buf ++ rest).drop (e + 12) = buf.drop (e + 12) ++ rest :=
            List.drop_append_of_le_length (by omega)
          rw [charDen_tool_hit hext, hdrop]
          exact ih ⟨StreamMode.text, tt, buf.drop (e + 12)⟩ rest hflag

theorem pushP_den (st : PState) (c rest : List Char)
    (hflag : (pushP st c).2.2 = true) :
    (contentConcat (pushP st c).1 ++
       (charDen (pushP st c).2.1.mode (pushP st c).2.1.thinkTag
         ((pushP st c).2.1.buffer ++ rest)).1,
     thinkConcat (pushP st c).1 ++
       (charDen (pushP st c).2.1.mode (pushP st c).2.1.thinkTag
         ((pushP st c).2.1.buffer ++ rest)).2)
      = charDen st.mode st.thinkTag ((st.buffer ++ c) ++ rest) := by
  unfold pushP at hflag ⊢
  by_cases hc : c.isEmpty = true
  · rw [if_pos hc] at hflag ⊢
    have hce : c = [] := by
      cases c with
      | nil => rfl
      | cons a b => exact Bool.noConfusion hc
    subst hce
    rw [List.append_nil]
    rfl
  · rw [if_neg hc] at hflag ⊢
    exact processAux_den 10000 { st with buffer := st.buffer ++ c } rest hflag

/-- A state in which the processing loop has come to rest: the mode's
relevant marker does not occur in the buffer. -/
def pQuiet (st : PState) : Prop :=
  match st.mode with
  | StreamMode.text => findNextTagIndex (lowStr st.buffer) = none
  | StreamMode.think =>
    idxOf ('<' :: '/' :: (st.thinkTag ++ ['>'])) (lowStr st.buffer) = none
  | StreamMode.toolCall => idxOf toolCallEndLower (lowStr st.buffer) = none

theorem processAux_flag_pQuiet (fuel : Nat) : ∀ (st : PState),
    (processAux fuel st).2.2 = true → pQuiet (processAux fuel st).2.1 := by
  induction fuel with
  | zero =>
    intro st hflag
    rw [show processAux 0 st = ([], st, st.buffer.isEmpty) from rfl] at hflag ⊢
    have hb : st.buffer = [] := by
      cases hv : st.buffer with
      | nil => rfl
      | cons c cs =>
        rw [hv] at hflag
        exact Bool.noConfusion hflag
    obtain ⟨m, tt, buf⟩ := st
    simp only at hb
    subst hb
    cases m with
    | text => show findNextTagIndex (lowStr []) = none; decide
    | think => rfl
    | toolCall => rfl
  | succ fu ih =>
    intro st hflag
    obtain ⟨m, tt, buf⟩ := st
    by_cases hbuf : buf = []
    · rw [processAux_empty (show (⟨m, tt, buf⟩ : PState).buffer = [] from hbuf)]
        at hflag ⊢
      subst hbuf
      cases m with
      | text => show findNextTagIndex (lowStr []) = none; decide
      | think => rfl
      | toolCall => rfl
    · cases m with
      | text =>
        cases hhit : findNextTagIndex (lowStr buf) with
        | none =>
          rw [processAux_text_none rfl hbuf hhit] at hflag ⊢
          show findNextTagIndex (lowStr (buf.drop (buf.length - 11))) = none
          rw [lowStr_drop]
          apply findNextTagIndex_none_of
          intro t htg
          exact idxOf_drop_none (startTagsLower_ne_nil t htg) _
            (findNextTagIndex_none hhit t htg)
        | some p =>
          obtain ⟨i, tg⟩ := p
          by_cases htool : tg = toolCallStartLower
          · subst htool
            rw [processAux_text_hit_tool rfl hbuf hhit] at hflag ⊢
            exact ih _ hflag
          · rw [processAux_text_hit_think rfl hbuf hhit htool] at hflag ⊢
            exact ih _ hflag
      | think =>
        cases hhit : idxOf ('<' :: '/' :: (tt ++ ['>'])) (lowStr buf) with
        | none =>
          rw [processAux_think_none rfl hbuf hhit] at hflag ⊢
          show idxOf ('<' :: '/' :: (tt ++ ['>']))
            (lowStr (buf.drop (buf.length - (tt.length + 2)))) = none
          rw [lowStr_drop]
          exact idxOf_drop_none (by simp) _ hhit
        | some e =>
          rw [processAux_think_hit rfl hbuf hhit] at hflag ⊢
          exact ih _ hflag
      | toolCall =>
        cases hhit : idxOf toolCallEndLower (lowStr buf) with
        | none =>
          rw [processAux_tool_none rfl hbuf hhit] at hflag ⊢
          show idxOf toolCallEndLower (lowStr (buf.drop (buf.length - 11))) = none
          rw [lowStr_drop]
          exact idxOf_drop_none (by decide) _ hhit
        | some e =>
          rw [processAux_tool_hit rfl hbuf hhit] at hflag ⊢
          exact ih _ hflag

theorem pushP_pQuiet {st : PState} {c : List Char}
    (hflag : (pushP st c).2.2 = true) (hq : pQuiet st) :
    pQuiet (pushP st c).2.1 := by
  unfold pushP at hflag ⊢
  by_cases hc : c.isEmpty = true
  · rw [if_pos hc]
    exact hq
  · rw [if_neg hc] at hflag ⊢
    exact processAux_flag_pQuiet 10000 _ hflag

theorem foldP_pQuiet : ∀ (chunks : List (List Char)) (evs : List PEv)
    (st : PState), runNormal st chunks = true → pQuiet st →
    pQuiet (chunks.foldl stepP (evs, st)).2 := by
  intro chunks
  induction chunks with
  | nil =>
    intro evs st _ hq
    exact hq
  | cons c cs ih =>
    intro evs st hnorm hq
    simp only [runNormal] at hnorm
    rw [Bool.and_eq_true] at hnorm
    rw [List.foldl_cons]
    rw [show stepP (evs, st) c =
      (evs ++ (pushP st c).1, (pushP st c).2.1) from rfl]
    exact ih _ _ hnorm.2 (pushP_pQuiet hnorm.1 hq)

theorem flushP_den {st : PState} (hq : pQuiet st) :
    (contentConcat (flushP st).1, thinkConcat (flushP st).1) =
      charDen st.mode st.thinkTag st.buffer := by
  unfold flushP
  split
  · rename_i hbe
    have hb : st.buffer = [] := by
      cases hv : st.buffer with
      | nil => rfl
      | cons c cs =>
        rw [hv] at hbe
        exact Bool.noConfusion hbe
    rw [hb, charDen_empty]
    rfl
  · cases hm : st.mode with
    | text =>
      simp only [pQuiet, hm] at hq
      rw [contentConcat_emitText, thinkConcat_emitText]
      rw [charDen_text_none hq]
    | think =>
      simp only [pQuiet, hm] at hq
      rw [contentConcat_emitThink, thinkConcat_emitThink]
      rw [charDen_think_none hq]
    | toolCall =>
      simp only [pQuiet, hm] at hq
      rw [charDen_tool_none hq]
      rfl

theorem foldP_den : ∀ (chunks : List (List Char)) (evs : List PEv)
    (st : PState), runNormal st chunks = true →
    (contentConcat (chunks.foldl stepP (evs, st)).1 ++
       (charDen (chunks.foldl stepP (evs, st)).2.mode
         (chunks.foldl stepP (evs, st)).2.thinkTag
         (chunks.foldl stepP (evs, st)).2.buffer).1,
     thinkConcat (chunks.foldl stepP (evs, st)).1 ++
       (charDen (chunks.foldl stepP (evs, st)).2.mode
         (chunks.foldl stepP (evs, st)).2.thinkTag
         (chunks.foldl stepP (evs, st)).2.buffer).2)
      = (contentConcat evs ++
          (charDen st.mode st.thinkTag (st.buffer ++ chunks.flatten)).1,
         thinkConcat evs ++
          (charDen st.mode st.thinkTag (st.buffer ++ chunks.flatten)).2) := by
  intro chunks
  induction chunks with
  | nil =>
    intro evs st _
    simp only [List.foldl_nil, List.flatten_nil, List.append_nil]
  | cons c cs ih =>
    intro evs st hnorm
    simp only [runNormal] at hnorm
    rw [Bool.and_eq_true] at hnorm
    rw [List.foldl_cons]
    rw [show stepP (evs, st) c =
      (evs ++ (pushP st c).1, (pushP st c).2.1) from rfl]
    rw [ih _ _ hnorm.2]
    have hp := pushP_den st c cs.flatten hnorm.1
    rw [List.append_assoc] at hp
    rw [List.flatten_cons, ← hp]
    rw [contentConcat_append, thinkConcat_append,
      List.append_assoc, List.append_assoc]

/-- C1 (amended): provided no push of a run exhausts the 10000-iteration
safety counter, the concatenated content and thinking text of the
chunked run equal the canonical single-pass parse `charDen` of the
flattened input — hence any two such chunkings (in particular the
single-push run, when it too stays below the counter) emit the same
concatenations.  The safety counter is the one genuine exception: see
the counterexample. -/
theorem c1_amended :
    (∀ chunks : List (List Char), runNormal parserInit chunks = true →
      contentConcat (runP chunks).1 =
        (charDen StreamMode.text [] chunks.flatten).1 ∧
      thinkConcat (runP chunks).1 =
        (charDen StreamMode.text [] chunks.flatten).2) ∧
    (∀ chunks : List (List Char),
      runNormal parserInit chunks = true →
      runNormal parserInit [chunks.flatten] = true →
      contentConcat (runP chunks).1 = contentConcat (runP [chunks.flatten]).1 ∧
      thinkConcat (runP chunks).1 = thinkConcat (runP [chunks.flatten]).1) := by
  have hmain : ∀ chunks : List (List Char), runNormal parserInit chunks = true →
      contentConcat (runP chunks).1 =
        (charDen StreamMode.text [] chunks.flatten).1 ∧
      thinkConcat (runP chunks).1 =
        (charDen StreamMode.text [] chunks.flatten).2 := by
    intro chunks hnorm
    have hrun : (runP chunks).1 =
        (chunks.foldl stepP ([], parserInit)).1 ++
        (flushP (chunks.foldl stepP ([], parserInit)).2).1 := rfl
    have hq0 : pQuiet parserInit := by
      show findNextTagIndex (lowStr parserInit.buffer) = none
      decide
    have hfold := foldP_den chunks [] parserInit hnorm
    have hqf := foldP_pQuiet chunks [] parserInit hnorm hq0
    have hflush := flushP_den hqf
    have hc := congrArg Prod.fst hfold
    have ht := congrArg Prod.snd hfold
    have hcf := congrArg Prod.fst hflush
    have htf := congrArg Prod.snd hflush
    dsimp only at hc ht hcf htf
    constructor
    · rw [hrun, contentConcat_append, hcf, hc]
      rfl
    · rw [hrun, thinkConcat_append, htf, ht]
      rfl
  refine ⟨hmain, ?_⟩
  intro chunks hn1 hn2
  have h1 := hmain chunks hn1
  have h2 := hmain [chunks.flatten] hn2
  have hfl : ([chunks.flatten] : List (List Char)).flatten = chunks.flatten := by
    simp
  rw [hfl] at h2
  exact ⟨h1.1.trans h2.1.symm, h1.2.trans h2.2.symm⟩

theorem c1_amended_witness :
    contentConcat (runP [str "a<think>b", str "</think>c"]).1 =
      (charDen StreamMode.text []
        ([str "a<think>b", str "</think>c"] : List (List Char)).flatten).1 ∧
    thinkConcat (runP [str "a<think>b", str "</think>c"]).1 =
      (charDen StreamMode.text []
        ([str "a<think>b", str "</think>c"] : List (List Char)).flatten).2 :=
  c1_amended.1 [str "a<think>b", str "</think>c"] (by decide)

/-- One 148-character block of the safety-counter counterexample: six
empty think blocks (one per recognized tag) followed by a one-character
tool call; processing it takes exactly 14 loop iterations and emits no
content or thinking text. -/
def c1Block : List Char := str "<think></think><analysis></analysis><reasoning></reasoning><reflection></reflection><thought></thought><thinking></thinking><tool_call>Z</tool_call>"

def c1B1 : List Char := str "<analysis></analysis><reasoning></reasoning><reflection></reflection><thought></thought><thinking></thinking><tool_call>Z</tool_call>"

def c1B2 : List Char := str "<reasoning></reasoning><reflection></reflection><thought></thought><thinking></thinking><tool_call>Z</tool_call>"

def c1B3 : List Char := str "<reflection></reflection><thought></thought><thinking></thinking><tool_call>Z</tool_call>"

def c1B4 : List Char := str "<thought></thought><thinking></thinking><tool_call>Z</tool_call>"

def c1B5 : List Char := str "<thinking></thinking><tool_call>Z</tool_call>"

def c1B6 : List Char := str "<tool_call>Z</tool_call>"

/-- The 112-character leftover of the 715th block after the safety
counter expires 4 iterations into it. -/
def c1Tail : List Char := c1B2

/-- The 12 events emitted per block. -/
def c1BlockEvs : List PEv :=
  [PEv.thinkStart (str "think"), PEv.thinkEnd (str "think"),
   PEv.thinkStart (str "analysis"), PEv.thinkEnd (str "analysis"),
   PEv.thinkStart (str "reasoning"), PEv.thinkEnd (str "reasoning"),
   PEv.thinkStart (str "reflection"), PEv.thinkEnd (str "reflection"),
   PEv.thinkStart (str "thought"), PEv.thinkEnd (str "thought"),
   PEv.thinkStart (str "thinking"), PEv.thinkEnd (str "thinking")]

theorem c1_pair_step (f : Nat) (tt0 rest B tg : List Char)
    (hB : B ≠ [])
    (hhit : findNextTagIndex (lowStr B) = some (0, tg))
    (htool : tg ≠ toolCallStartLower)
    (htglen : tg.length ≤ B.length)
    (hB2 : B.drop tg.length ≠ [])
    (hend : idxOf ('<' :: '/' :: ((tg.drop 1).dropLast ++ ['>']))
      (lowStr (B.drop tg.length)) = some 0)
    (hendlen : (tg.drop 1).dropLast.length + 3 ≤ (B.drop tg.length).length) :
    processAux (f + 1 + 1) ⟨StreamMode.text, tt0, B ++ rest⟩ =
      (PEv.thinkStart ((tg.drop 1).dropLast) ::
       PEv.thinkEnd ((tg.drop 1).dropLast) ::
        (processAux f ⟨StreamMode.text, [],
          (B.drop tg.length).drop ((tg.drop 1).dropLast.length + 3) ++ rest⟩).1,
       (processAux f ⟨StreamMode.text, [],
          (B.drop tg.length).drop ((tg.drop 1).dropLast.length + 3) ++ rest⟩).2) := by
  have hBr : B ++ rest ≠ [] := by
    cases B with
    | nil => exact absurd rfl hB
    | cons c cs => simp
  have hext : findNextTagIndex (lowStr (B ++ rest)) = some (0, tg) :=
    findNextTagIndex_append hhit
  rw [processAux_text_hit_think rfl hBr hext htool]
  rw [List.drop_zero, List.take_zero]
  rw [show emitTextEv [] = [] from rfl, List.nil_append]
  rw [List.drop_append_of_le_length htglen]
  have hBr2 : B.drop tg.length ++ rest ≠ [] := by
    cases hv : B.drop tg.length with
    | nil => exact absurd hv hB2
    | cons c cs => simp
  have hext2 : idxOf ('<' :: '/' :: ((tg.drop 1).dropLast ++ ['>']))
      (lowStr (B.drop tg.length ++ rest)) = some 0 := by
    rw [lowStr_append]
    exact idxOf_append_right _ (by simp) hend
  rw [processAux_think_hit rfl hBr2 hext2]
  rw [List.take_zero]
  rw [show emitThinkEv ((tg.drop 1).dropLast) [] = [] from rfl, List.nil_append]
  rw [Nat.zero_add]
  rw [List.drop_append_of_le_length hendlen]

theorem c1_tool_step (f : Nat) (tt0 rest B : List Char) (e : Nat)
    (hB : B ≠ [])
    (hhit : findNextTagIndex (lowStr B) = some (0, toolCallStartLower))
    (h11 : 11 ≤ B.length)
    (hB2 : B.drop 11 ≠ [])
    (hend : idxOf toolCallEndLower (lowStr (B.drop 11)) = some e)
    (he : e + 12 ≤ (B.drop 11).length) :
    processAux (f + 1 + 1) ⟨StreamMode.text, tt0, B ++ rest⟩ =
      processAux f ⟨StreamMode.text, tt0, (B.drop 11).drop (e + 12) ++ rest⟩ := by
  have hBr : B ++ rest ≠ [] := by
    cases B with
    | nil => exact absurd rfl hB
    | cons c cs => simp
  have hext : findNextTagIndex (lowStr (B ++ rest)) =
      some (0, toolCallStartLower) :=
    findNextTagIndex_append hhit
  rw [processAux_text_hit_tool rfl hBr hext]
  rw [List.drop_zero, List.take_zero]
  rw [show emitTextEv [] = [] from rfl, List.nil_append]
  rw [List.drop_append_of_le_length h11]
  have hBr2 : B.drop 11 ++ rest ≠ [] := by
    cases hv : B.drop 11 with
    | nil => exact absurd hv hB2
    | cons c cs => simp
  have hext2 : idxOf toolCallEndLower (lowStr (B.drop 11 ++ rest)) = some e := by
    rw [lowStr_append]
    exact idxOf_append_right _ (by decide) hend
  rw [processAux_tool_hit rfl hBr2 hext2]
  rw [List.drop_append_of_le_length he]

set_option maxRecDepth 16000

theorem c1_step1 (f : Nat) (rest : List Char) :
    processAux (f + 1 + 1) ⟨StreamMode.text, [], c1Block ++ rest⟩ =
      (PEv.thinkStart (str "think") :: PEv.thinkEnd (str "think") ::
        (processAux f ⟨StreamMode.text, [], c1B1 ++ rest⟩).1,
       (processAux f ⟨StreamMode.text, [], c1B1 ++ rest⟩).2) := by
  have h := c1_pair_step f [] rest c1Block (str "<think>") (by decide) (by decide)
    (by decide) (by decide) (by decide) (by decide) (by decide)
  rw [show ((str "<think>").drop 1).dropLast = str "think" from rfl] at h
  rw [show (c1Block.drop (str "<think>").length).drop ((str "think").length + 3) = c1B1
    from rfl] at h
  exact h

theorem c1_step2 (f : Nat) (rest : List Char) :
    processAux (f + 1 + 1) ⟨StreamMode.text, [], c1B1 ++ rest⟩ =
      (PEv.thinkStart (str "analysis") :: PEv.thinkEnd (str "analysis") ::
        (processAux f ⟨StreamMode.text, [], c1B2 ++ rest⟩).1,
       (processAux f ⟨StreamMode.text, [], c1B2 ++ rest⟩).2) := by
  have h := c1_pair_step f [] rest c1B1 (str "<analysis>") (by decide) (by decide)
    (by decide) (by decide) (by decide) (by decide) (by decide)
  rw [show ((str "<analysis>").drop 1).dropLast = str "analysis" from rfl] at h
  rw [show (c1B1.drop (str "<analysis>").length).drop ((str "analysis").length + 3) = c1B2
    from rfl] at h
  exact h

theorem c1_step3 (f : Nat) (rest : List Char) :
    processAux (f + 1 + 1) ⟨StreamMode.text, [], c1B2 ++ rest⟩ =
      (PEv.thinkStart (str "reasoning") :: PEv.thinkEnd (str "reasoning") ::
        (processAux f ⟨StreamMode.text, [], c1B3 ++ rest⟩).1,
       (processAux f ⟨StreamMode.text, [], c1B3 ++ rest⟩).2) := by
  have h := c1_pair_step f [] rest c1B2 (str "<reasoning>") (by decide) (by decide)
    (by decide) (by decide) (by decide) (by decide) (by decide)
  rw [show ((str "<reasoning>").drop 1).dropLast = str "reasoning" from rfl] at h
  rw [show (c1B2.drop (str "<reasoning>").length).drop ((str "reasoning").length + 3) = c1B3
    from rfl] at h
  exact h

theorem c1_step4 (f : Nat) (rest : List Char) :
    processAux (f + 1 + 1) ⟨StreamMode.text, [], c1B3 ++ rest⟩ =
      (PEv.thinkStart (str "reflection") :: PEv.thinkEnd (str "reflection") ::
        (processAux f ⟨StreamMode.text, [], c1B4 ++ rest⟩).1,
       (processAux f ⟨StreamMode.text, [], c1B4 ++ rest⟩).2) := by
  have h := c1_pair_step f [] rest c1B3 (str "<reflection>") (by decide) (by decide)
    (by decide) (by decide) (by decide) (by decide) (by decide)
  rw [show ((str "<reflection>").drop 1).dropLast = str "reflection" from rfl] at h
  rw [show (c1B3.drop (str "<reflection>").length).drop ((str "reflection").length + 3) = c1B4
    from rfl] at h
  exact h

theorem c1_step5 (f : Nat) (rest : List Char) :
    processAux (f + 1 + 1) ⟨StreamMode.text, [], c1B4 ++ rest⟩ =
      (PEv.thinkStart (str "thought") :: PEv.thinkEnd (str "thought") ::
        (processAux f ⟨StreamMode.text, [], c1B5 ++ rest⟩).1,
       (processAux f ⟨StreamMode.text, [], c1B5 ++ rest⟩).2) := by
  have h := c1_pair_step f [] rest c1B4 (str "<thought>") (by decide) (by decide)
    (by decide) (by decide) (by decide) (by decide) (by decide)
  rw [show ((str "<thought>").drop 1).dropLast = str "thought" from rfl] at h
  rw [show (c1B4.drop (str "<thought>").length).drop ((str "thought").length + 3) = c1B5
    from rfl] at h
  exact h

theorem c1_step6 (f : Nat) (rest : List Char) :
    processAux (f + 1 + 1) ⟨StreamMode.text, [], c1B5 ++ rest⟩ =
      (PEv.thinkStart (str "thinking") :: PEv.thinkEnd (str "thinking") ::
        (processAux f ⟨StreamMode.text, [], c1B6 ++ rest⟩).1,
       (processAux f ⟨StreamMode.text, [], c1B6 ++ rest⟩).2) := by
  have h := c1_pair_step f [] rest c1B5 (str "<thinking>") (by decide) (by decide)
    (by decide) (by decide) (by decide) (by decide) (by decide)
  rw [show ((str "<thinking>").drop 1).dropLast = str "thinking" from rfl] at h
  rw [show (c1B5.drop (str "<thinking>").length).drop ((str "thinking").length + 3) = c1B6
    from rfl] at h
  exact h

theorem c1_step7 (f : Nat) (rest : List Char) :
    processAux (f + 1 + 1) ⟨StreamMode.text, [], c1B6 ++ rest⟩ =
      processAux f ⟨StreamMode.text, [], rest⟩ := by
  have h := c1_tool_step f [] rest c1B6 1 (by decide) (by decide) (by decide)
    (by decide) (by decide) (by decide)
  rw [show (c1B6.drop 11).drop (1 + 12) = ([] : List Char) from rfl] at h
  rw [List.nil_append] at h
  exact h

theorem c1_block_step (f : Nat) (rest : List Char) :
    processAux (f + 14) ⟨StreamMode.text, [], c1Block ++ rest⟩ =
      (c1BlockEvs ++ (processAux f ⟨StreamMode.text, [], rest⟩).1,
       (processAux f ⟨StreamMode.text, [], rest⟩).2) := by
  have h1 := c1_step1 (f + 12) rest
  rw [show f + 12 + 1 + 1 = f + 14 from rfl] at h1
  rw [h1]
  have h2 := c1_step2 (f + 10) rest
  rw [show f + 10 + 1 + 1 = f + 12 from rfl] at h2
  rw [h2]
  have h3 := c1_step3 (f + 8) rest
  rw [show f + 8 + 1 + 1 = f + 10 from rfl] at h3
  rw [h3]
  have h4 := c1_step4 (f + 6) rest
  rw [show f + 6 + 1 + 1 = f + 8 from rfl] at h4
  rw [h4]
  have h5 := c1_step5 (f + 4) rest
  rw [show f + 4 + 1 + 1 = f + 6 from rfl] at h5
  rw [h5]
  have h6 := c1_step6 (f + 2) rest
  rw [show f + 2 + 1 + 1 = f + 4 from rfl] at h6
  rw [h6]
  have h7 := c1_step7 f rest
  rw [show f + 1 + 1 = f + 2 from rfl] at h7
  rw [h7]
  rfl

theorem c1_push_block :
    pushP ⟨StreamMode.text, [], []⟩ c1Block =
      (c1BlockEvs, ⟨StreamMode.text, [], []⟩, true) := by
  unfold pushP
  rw [if_neg (by decide)]
  have h := c1_block_step 9986 []
  rw [List.append_nil] at h
  rw [processAux_empty
    (show (⟨StreamMode.text, [], []⟩ : PState).buffer = [] from rfl)] at h
  rw [show (9986 + 14 : Nat) = 10000 from rfl] at h
  exact h

theorem c1_fold_rep : ∀ (n : Nat) (evs : List PEv),
    (List.replicate n c1Block).foldl stepP (evs, ⟨StreamMode.text, [], []⟩) =
      (evs ++ (List.replicate n c1BlockEvs).flatten,
       (⟨StreamMode.text, [], []⟩ : PState)) := by
  intro n
  induction n with
  | zero =>
    intro evs
    simp
  | succ n ih =>
    intro evs
    rw [List.replicate_succ, List.foldl_cons]
    have hstep : stepP (evs, (⟨StreamMode.text, [], []⟩ : PState)) c1Block =
        (evs ++ c1BlockEvs, ⟨StreamMode.text, [], []⟩) := by
      unfold stepP
      rw [c1_push_block]
    rw [hstep, ih, List.replicate_succ, List.flatten_cons, List.append_assoc]

theorem c1_blockEvs_noContent : ∀ n : Nat,
    contentConcat ((List.replicate n c1BlockEvs).flatten) = [] := by
  intro n
  induction n with
  | zero => rfl
  | succ n ih =>
    rw [List.replicate_succ, List.flatten_cons, contentConcat_append, ih,
      List.append_nil]
    rfl

theorem c1_chunk_content :
    contentConcat (runP (List.replicate 715 c1Block)).1 = [] := by
  have hrun : (runP (List.replicate 715 c1Block)).1 =
      ((List.replicate 715 c1Block).foldl stepP ([], parserInit)).1 ++
      (flushP ((List.replicate 715 c1Block).foldl stepP ([], parserInit)).2).1 := rfl
  rw [hrun]
  rw [show parserInit = (⟨StreamMode.text, [], []⟩ : PState) from rfl]
  rw [c1_fold_rep 715 []]
  rw [show flushP (⟨StreamMode.text, [], []⟩ : PState) =
    ([], ⟨StreamMode.text, [], []⟩) from rfl]
  rw [List.nil_append, List.append_nil]
  exact c1_blockEvs_noContent 715

theorem c1_oneshot_iter : ∀ (n f : Nat) (rest : List Char),
    processAux (n * 14 + f)
      ⟨StreamMode.text, [], (List.replicate n c1Block).flatten ++ rest⟩ =
      ((List.replicate n c1BlockEvs).flatten ++
        (processAux f ⟨StreamMode.text, [], rest⟩).1,
       (processAux f ⟨StreamMode.text, [], rest⟩).2) := by
  intro n
  induction n with
  | zero =>
    intro f rest
    rw [Nat.zero_mul, Nat.zero_add]
    rfl
  | succ n ih =>
    intro f rest
    have harith : (n + 1) * 14 + f = (n * 14 + f) + 14 := by omega
    rw [harith]
    rw [List.replicate_succ, List.flatten_cons, List.append_assoc]
    rw [c1_block_step (n * 14 + f) ((List.replicate n c1Block).flatten ++ rest)]
    rw [ih f rest]
    rw [List.replicate_succ, List.flatten_cons, List.append_assoc]

theorem c1_split : (List.replicate 715 c1Block).flatten =
      (List.replicate 714 c1Block).flatten ++ c1Block := by
  rw [show (715 : Nat) = 714 + 1 from rfl, List.replicate_succ']
  rw [List.flatten_append]
  simp

theorem c1_oneshot_push :
    pushP parserInit ((List.replicate 715 c1Block).flatten) =
      ((List.replicate 714 c1BlockEvs).flatten ++
        [PEv.thinkStart (str "think"), PEv.thinkEnd (str "think"),
         PEv.thinkStart (str "analysis"), PEv.thinkEnd (str "analysis")],
       ⟨StreamMode.text, [], c1Tail⟩, false) := by
  have h4 : processAux 4 ⟨StreamMode.text, [], c1Block⟩ =
      ([PEv.thinkStart (str "think"), PEv.thinkEnd (str "think"),
        PEv.thinkStart (str "analysis"), PEv.thinkEnd (str "analysis")],
       ⟨StreamMode.text, [], c1Tail⟩, false) := by decide
  have hiter := c1_oneshot_iter 714 4 c1Block
  rw [h4] at hiter
  dsimp only at hiter
  unfold pushP
  rw [if_neg (by rw [c1_split]; decide)]
  rw [show parserInit.buffer = ([] : List Char) from rfl]
  rw [List.nil_append]
  rw [show ({ parserInit with
      buffer := (List.replicate 715 c1Block).flatten } : PState) =
    (⟨StreamMode.text, [], (List.replicate 715 c1Block).flatten⟩ : PState) from rfl]
  rw [c1_split]
  rw [show (10000 : Nat) = 714 * 14 + 4 from rfl]
  exact hiter

theorem runP_singleton (c : List Char) :
    (runP [c]).1 = ([] ++ (pushP parserInit c).1) ++
      (flushP (pushP parserInit c).2.1).1 := rfl

theorem c1_oneshot_content :
    contentConcat (runP [(List.replicate 715 c1Block).flatten]).1 = c1Tail := by
  rw [runP_singleton, c1_oneshot_push]
  dsimp only
  rw [List.nil_append]
  rw [show flushP (⟨StreamMode.text, [], c1Tail⟩ : PState) =
    ([PEv.text c1Tail], ⟨StreamMode.text, [], []⟩) from by decide]
  rw [contentConcat_append, contentConcat_append]
  rw [c1_blockEvs_noContent 714]
  rw [show contentConcat [PEv.thinkStart (str "think"), PEv.thinkEnd (str "think"),
    PEv.thinkStart (str "analysis"), PEv.thinkEnd (str "analysis")] =
    ([] : List Char) from rfl]
  rw [show contentConcat [PEv.text c1Tail] = c1Tail from rfl]
  rw [List.nil_append, List.nil_append]

/-- C1 (counterexample): the claim fails in general because of the
10000-iteration safety counter.  The 105820-character input consisting
of 715 copies of `c1Block` needs 10010 loop iterations; pushed in one
single call the counter expires 4 iterations into the 715th block and
`flush` then dumps the 112-character block remainder `c1Tail` to the
content channel, while pushing it block-by-block (14 iterations per
push) emits no content at all. -/
theorem c1_counterexample :
    contentConcat (runP [(List.replicate 715 c1Block).flatten]).1 = c1Tail ∧
    contentConcat (runP (List.replicate 715 c1Block)).1 = [] ∧
    c1Tail ≠ [] :=
  ⟨c1_oneshot_content, c1_chunk_content, by decide⟩
